import Mathlib

/-!
# CPU scheduler: a shallow embedding of `cpu_scheduler.cpp`

The four policies of `class Scheduler` (`fcfs`, `sjf`, `srtf`, `round_robin`) are
embedded as functions on explicit states.

* `int` fields are mathematical integers (`Int`); signed overflow is undefined in C++,
  so the embedding describes the runs in which no `int` computation overflows.
* A `std::vector<Process>` is a list of slots. A `Process *` into a vector is the index
  of the slot it points to, and dereferencing reads the slot's current content.
* `while` loops are run with a fuel argument that bounds the number of iterations;
  `none` means that the fuel ran out before the loop condition became false.
* `std::sort` is a parameter of `fcfs`, constrained by its contract `StdSortSpec`;
  `stdSort` embeds the implementation of libstdc++ (GCC 12), for runs whose result
  depends on how the library orders elements that compare equal.
-/

set_option maxRecDepth 100000

namespace CpuScheduler

/-- Record `class Process`. -/
structure Process where
  pid : Int
  arrival_time : Int
  burst_time : Int
  remaining_time : Int
  completion_time : Int
  waiting_time : Int
  turnaround_time : Int
  response_time : Int
deriving DecidableEq, Repr

/-- Constructor `Process(int p, int at, int bt)`, lines 19-21. -/
def Process.new (p a bt : Int) : Process :=
  ⟨p, a, bt, bt, 0, 0, 0, -1⟩

/-- Record `class Scheduler`: the private members. -/
structure Scheduler where
  processes : List Process
  completed_processes : List Process
  current_time : Int
deriving DecidableEq, Repr

/-- Constructor `Scheduler(const std::vector<Process> &procs)`, line 32. -/
def Scheduler.new (procs : List Process) : Scheduler :=
  ⟨procs, [], 0⟩

/-- Reading through a `Process *` that points to slot `i` of the vector storage `buf`.
The fallback value is never read: every pointer the code dereferences is a slot of the
storage. -/
def deref (buf : List Process) (i : Nat) : Process :=
  buf.getD i (Process.new 0 0 0)

/-- A `while (cond) body` loop, run for at most `fuel` iterations. -/
def whileLoop {σ : Type} (cond : σ → Bool) (body : σ → σ) : Nat → σ → Option σ
  | 0, s => if cond s then none else some s
  | fuel + 1, s => if cond s then whileLoop cond body fuel (body s) else some s

/-! ## fcfs -/

/-- The contract of `std::sort(first, last, comp)` with the comparator of line 37,
`a.arrival_time < b.arrival_time`: the result is a rearrangement of the input in which no
element is preceded by one that compares greater. The order of elements that compare
equal is left open by the contract. -/
def StdSortSpec (sort : List Process → List Process) : Prop :=
  ∀ l, (sort l).Perm l ∧
    (sort l).Pairwise (fun a b => ¬ (b.arrival_time < a.arrival_time))

/-- One pass of the body of the range-for loop of `fcfs`, lines 41-50, on the element
`process`; returns the element as it is left in `processes` and the new clock. -/
def fcfsBody (current_time : Int) (process : Process) : Process × Int :=
  let current_time := if current_time < process.arrival_time then process.arrival_time
    else current_time
  let process := { process with completion_time := current_time + process.burst_time }
  let process := { process with
    turnaround_time := process.completion_time - process.arrival_time }
  let process := { process with
    waiting_time := process.turnaround_time - process.burst_time }
  let process := { process with response_time := current_time - process.arrival_time }
  (process, process.completion_time)

/-- The range-for loop of `fcfs`, lines 39-51: `todo` are the elements not yet visited,
`done` the elements already visited (as updated in place). -/
def fcfsLoop : List Process → List Process → List Process → Int → Scheduler
  | [], done, completed, current_time => ⟨done, completed, current_time⟩
  | process :: todo, done, completed, current_time =>
      let r := fcfsBody current_time process
      fcfsLoop todo (done ++ [r.1]) (completed ++ [r.1]) r.2

/-- Method `Scheduler::fcfs`, lines 34-52. -/
def Scheduler.fcfs (sort : List Process → List Process) (s : Scheduler) : Scheduler :=
  fcfsLoop (sort s.processes) [] s.completed_processes s.current_time

/-! ## `std::sort` as implemented by libstdc++

The functions of `bits/stl_algo.h` and `bits/stl_heap.h` (GCC 12) that
`std::sort(first, last, comp)` runs, on the storage of the vector: iterators are slot
indices. -/

/-- Call `std::iter_swap(a, b)` on two slots of the storage. -/
def iter_swap (buf : List Process) (a b : Nat) : List Process :=
  (buf.set a (deref buf b)).set b (deref buf a)

/-- Function `std::__move_median_to_first(result, a, b, c, comp)`, `bits/stl_algo.h`. -/
def move_median_to_first (comp : Process → Process → Bool) (buf : List Process)
    (result a b c : Nat) : List Process :=
  if comp (deref buf a) (deref buf b) then
    if comp (deref buf b) (deref buf c) then iter_swap buf result b
    else if comp (deref buf a) (deref buf c) then iter_swap buf result c
    else iter_swap buf result a
  else if comp (deref buf a) (deref buf c) then iter_swap buf result a
  else if comp (deref buf b) (deref buf c) then iter_swap buf result c
  else iter_swap buf result b

/-- Loop `while (comp(first, pivot)) ++first;` of `std::__unguarded_partition`; returns
the final `first`. -/
def unguarded_partition_up (comp : Process → Process → Bool) (buf : List Process) (pivot : Nat) :
    Nat → Nat → Nat
  | 0, first => first
  | fuel + 1, first =>
      if comp (deref buf first) (deref buf pivot) then
        unguarded_partition_up comp buf pivot fuel (first + 1)
      else first

/-- Loop `while (comp(pivot, last)) --last;` of `std::__unguarded_partition`; returns the
final `last`. -/
def unguarded_partition_down (comp : Process → Process → Bool) (buf : List Process) (pivot : Nat) :
    Nat → Nat → Nat
  | 0, last => last
  | fuel + 1, last =>
      if comp (deref buf pivot) (deref buf last) then
        unguarded_partition_down comp buf pivot fuel (last - 1)
      else last

/-- The outer loop of `std::__unguarded_partition`; returns the storage and the cut. The
inner loops end within `buf.length` passes each. -/
def unguarded_partition_loop (comp : Process → Process → Bool) (pivot : Nat) :
    Nat → List Process → Nat → Nat → List Process × Nat
  | 0, buf, first, _ => (buf, first)
  | fuel + 1, buf, first, last =>
      let first := unguarded_partition_up comp buf pivot buf.length first
      let last := last - 1
      let last := unguarded_partition_down comp buf pivot buf.length last
      if !(decide (first < last)) then (buf, first)
      else unguarded_partition_loop comp pivot fuel (iter_swap buf first last) (first + 1) last

/-- Function `std::__unguarded_partition(first, last, pivot, comp)`; its loop ends within
`buf.length` passes, since each pass advances `first`. -/
def unguarded_partition (comp : Process → Process → Bool) (buf : List Process)
    (first last pivot : Nat) : List Process × Nat :=
  unguarded_partition_loop comp pivot buf.length buf first last

/-- Function `std::__unguarded_partition_pivot(first, last, comp)`. -/
def unguarded_partition_pivot (comp : Process → Process → Bool) (buf : List Process)
    (first last : Nat) : List Process × Nat :=
  let mid := first + (last - first) / 2
  let buf := move_median_to_first comp buf first (first + 1) mid (last - 1)
  unguarded_partition comp buf (first + 1) last first

/-- The loop of `std::__unguarded_linear_insert`: elements greater than `val` move up by
one slot; returns the storage and the final `last`. -/
def unguarded_linear_insert_loop (comp : Process → Process → Bool) (val : Process) :
    Nat → List Process → Nat → List Process × Nat
  | 0, buf, last => (buf, last)
  | fuel + 1, buf, last =>
      if comp val (deref buf (last - 1)) then
        unguarded_linear_insert_loop comp val fuel (buf.set last (deref buf (last - 1))) (last - 1)
      else (buf, last)

/-- Function `std::__unguarded_linear_insert(last, comp)`. -/
def unguarded_linear_insert (comp : Process → Process → Bool) (buf : List Process)
    (last : Nat) : List Process :=
  let val := deref buf last
  let r := unguarded_linear_insert_loop comp val buf.length buf last
  r.1.set r.2 val

/-- Call `std::move_backward(first, i, i + 1)`: the elements of the slots `first .. i - 1`
are copied to the slots `first + 1 .. i`. -/
def move_backward (buf : List Process) (first i : Nat) : List Process :=
  buf.take (first + 1) ++ (buf.drop first).take (i - first) ++ buf.drop (i + 1)

/-- Function `std::__insertion_sort(first, last, comp)`. -/
def insertion_sort (comp : Process → Process → Bool) (buf : List Process)
    (first last : Nat) : List Process :=
  if first = last then buf
  else
    (List.range' (first + 1) (last - (first + 1))).foldl
      (fun buf i =>
        if comp (deref buf i) (deref buf first) then
          let val := deref buf i
          (move_backward buf first i).set first val
        else unguarded_linear_insert comp buf i)
      buf

/-- Function `std::__unguarded_insertion_sort(first, last, comp)`. -/
def unguarded_insertion_sort (comp : Process → Process → Bool) (buf : List Process)
    (first last : Nat) : List Process :=
  (List.range' first (last - first)).foldl (fun buf i => unguarded_linear_insert comp buf i) buf

/-- Function `std::__final_insertion_sort(first, last, comp)`, with `_S_threshold = 16`. -/
def final_insertion_sort (comp : Process → Process → Bool) (buf : List Process)
    (first last : Nat) : List Process :=
  if last - first > 16 then
    unguarded_insertion_sort comp (insertion_sort comp buf first (first + 16)) (first + 16) last
  else insertion_sort comp buf first last

/-- The loop of `std::__push_heap`, `bits/stl_heap.h`; returns the storage and the final
`holeIndex`. -/
def push_heap_loop (comp : Process → Process → Bool) (first topIndex : Nat) (value : Process) :
    Nat → List Process → Nat → List Process × Nat
  | 0, buf, holeIndex => (buf, holeIndex)
  | fuel + 1, buf, holeIndex =>
      let parent := (holeIndex - 1) / 2
      if decide (holeIndex > topIndex) && comp (deref buf (first + parent)) value then
        push_heap_loop comp first topIndex value fuel
          (buf.set (first + holeIndex) (deref buf (first + parent))) parent
      else (buf, holeIndex)

/-- Function `std::__push_heap(first, holeIndex, topIndex, value, comp)`. -/
def push_heap (comp : Process → Process → Bool) (buf : List Process)
    (first holeIndex topIndex : Nat) (value : Process) : List Process :=
  let r := push_heap_loop comp first topIndex value buf.length buf holeIndex
  r.1.set (first + r.2) value

/-- The loop of `std::__adjust_heap`; returns the storage, `holeIndex` and
`secondChild`. -/
def adjust_heap_loop (comp : Process → Process → Bool) (first len : Nat) :
    Nat → List Process → Nat → Nat → List Process × Nat × Nat
  | 0, buf, holeIndex, secondChild => (buf, holeIndex, secondChild)
  | fuel + 1, buf, holeIndex, secondChild =>
      if secondChild < (len - 1) / 2 then
        let secondChild := 2 * (secondChild + 1)
        let secondChild :=
          if comp (deref buf (first + secondChild)) (deref buf (first + (secondChild - 1)))
          then secondChild - 1 else secondChild
        adjust_heap_loop comp first len fuel
          (buf.set (first + holeIndex) (deref buf (first + secondChild)))
          secondChild secondChild
      else (buf, holeIndex, secondChild)

/-- Function `std::__adjust_heap(first, holeIndex, len, value, comp)`. The indices are
natural numbers; `(len - 2) / 2` is negative in C++ when `len` is 0, so the comparison
with it is made on integers, with the division that truncates toward zero. -/
def adjust_heap (comp : Process → Process → Bool) (buf : List Process)
    (first holeIndex len : Nat) (value : Process) : List Process :=
  let topIndex := holeIndex
  let r := adjust_heap_loop comp first len buf.length buf holeIndex holeIndex
  let buf := r.1
  let holeIndex := r.2.1
  let secondChild := r.2.2
  if len % 2 = 0 ∧ (secondChild : Int) = Int.tdiv ((len : Int) - 2) 2 then
    let secondChild := 2 * (secondChild + 1)
    let buf := buf.set (first + holeIndex) (deref buf (first + (secondChild - 1)))
    push_heap comp buf first (secondChild - 1) topIndex value
  else push_heap comp buf first holeIndex topIndex value

/-- Function `std::__pop_heap(first, last, result, comp)`. -/
def pop_heap (comp : Process → Process → Bool) (buf : List Process)
    (first last result : Nat) : List Process :=
  let value := deref buf result
  let buf := buf.set result (deref buf first)
  adjust_heap comp buf first 0 (last - first) value

/-- Function `std::__make_heap(first, last, comp)`: `parent` runs from `(len - 2) / 2`
down to 0. -/
def make_heap (comp : Process → Process → Bool) (buf : List Process)
    (first last : Nat) : List Process :=
  if last - first < 2 then buf
  else
    let len := last - first
    (List.range ((len - 2) / 2 + 1)).reverse.foldl
      (fun buf parent => adjust_heap comp buf first parent len (deref buf (first + parent)))
      buf

/-- Function `std::__sort_heap(first, last, comp)`: `last` runs down to `first + 1`. -/
def sort_heap (comp : Process → Process → Bool) (buf : List Process)
    (first last : Nat) : List Process :=
  (List.range' (first + 1) (last - first - 1)).reverse.foldl
    (fun buf last => pop_heap comp buf first last last) buf

/-- Function `std::__heap_select(first, middle, last, comp)`. -/
def heap_select (comp : Process → Process → Bool) (buf : List Process)
    (first middle last : Nat) : List Process :=
  (List.range' middle (last - middle)).foldl
    (fun buf i =>
      if comp (deref buf i) (deref buf first) then pop_heap comp buf first middle i else buf)
    (make_heap comp buf first middle)

/-- Function `std::__partial_sort(first, middle, last, comp)`. -/
def partial_sort (comp : Process → Process → Bool) (buf : List Process)
    (first middle last : Nat) : List Process :=
  sort_heap comp (heap_select comp buf first middle last) first middle

/-- Function `std::__introsort_loop(first, last, depth_limit, comp)`: each pass of its
loop and each recursive call runs with `depth_limit` decreased by one. -/
def introsort_loop (comp : Process → Process → Bool) :
    Nat → List Process → Nat → Nat → List Process
  | 0, buf, first, last =>
      if last - first > 16 then partial_sort comp buf first last last else buf
  | depth_limit + 1, buf, first, last =>
      if last - first > 16 then
        let r := unguarded_partition_pivot comp buf first last
        let buf := introsort_loop comp depth_limit r.1 r.2 last
        introsort_loop comp depth_limit buf first r.2
      else buf

/-- Number of times `n` can be halved before it is below 2, counted in at most `fuel`
steps. -/
def lg_loop : Nat → Nat → Nat
  | 0, _ => 0
  | fuel + 1, n => if 2 ≤ n then lg_loop fuel (n / 2) + 1 else 0

/-- Function `std::__lg(n)`: the floor of the binary logarithm of `n`. -/
def lg (n : Nat) : Nat :=
  lg_loop n n

/-- Function `std::__sort(first, last, comp)` on a whole vector: what
`std::sort(v.begin(), v.end(), comp)` runs in libstdc++. -/
def std_sort (comp : Process → Process → Bool) (buf : List Process) : List Process :=
  if buf.length = 0 then buf
  else
    final_insertion_sort comp
      (introsort_loop comp (lg buf.length * 2) buf 0 buf.length) 0 buf.length

/-- The call of line 36: libstdc++ `std::sort` with the comparator
`a.arrival_time < b.arrival_time`. -/
def stdSort (processes : List Process) : List Process :=
  std_sort (fun a b => decide (a.arrival_time < b.arrival_time)) processes

/-! ## sjf and srtf -/

/-- Algorithm `std::min_element(first, last, comp)`: the first element that no later
element compares less than. -/
def minElement {α : Type} (comp : α → α → Bool) : List α → Option α
  | [] => none
  | first :: rest =>
      some (rest.foldl (fun result x => if comp x result then x else result) first)

/-- The loops of lines 59-66 and 98-105: pointers to the elements of
`remaining_processes` that have arrived, in vector order. -/
def availableProcesses (remaining_processes : List Process) (current_time : Int) :
    List Nat :=
  (List.range remaining_processes.length).filter
    (fun i => decide ((deref remaining_processes i).arrival_time ≤ current_time))

/-- The compaction loop of `std::remove_if` after its `find_if` phase, with the
predicate of lines 87-88 and 133-134, `p.pid == process->pid`, where `process` points to
slot `k` of the very storage that is compacted: `first` is the read position, `result`
the write position, and the predicate reads slot `k` afresh at every test. -/
def removeIfLoop (k : Nat) : Nat → Nat → Nat → List Process → List Process × Nat
  | 0, _, result, buf => (buf, result)
  | n + 1, first, result, buf =>
      if (deref buf first).pid = (deref buf k).pid then
        removeIfLoop k n (first + 1) result buf
      else
        removeIfLoop k n (first + 1) (result + 1) (buf.set result (deref buf first))

/-- The statement `remaining_processes.erase(std::remove_if(...), end())` of lines 86-89
and 132-135, where `process` points to slot `k` of `remaining_processes`. -/
def eraseRemoveIf (k : Nat) (buf : List Process) : List Process :=
  let first := buf.findIdx (fun p => decide (p.pid = (deref buf k).pid))
  if first < buf.length then
    let r := removeIfLoop k (buf.length - (first + 1)) (first + 1) first buf
    r.1.take r.2
  else buf

/-- State of the loops of `sjf` and `srtf`: the local `remaining_processes` and the
members they write. -/
structure LoopState where
  remaining_processes : List Process
  completed_processes : List Process
  current_time : Int
deriving DecidableEq, Repr

/-- Loop condition `!remaining_processes.empty()`, lines 57 and 96. -/
def LoopState.running (s : LoopState) : Bool :=
  !s.remaining_processes.isEmpty

/-- The pointer selected by `std::min_element` on lines 74-78. -/
def sjfPick (s : LoopState) : Option Nat :=
  minElement
    (fun a b => decide ((deref s.remaining_processes a).burst_time <
      (deref s.remaining_processes b).burst_time))
    (availableProcesses s.remaining_processes s.current_time)

/-- One iteration of the loop of `sjf`, lines 59-89. -/
def sjfBody (s : LoopState) : LoopState :=
  match sjfPick s with
  | none => { s with current_time := s.current_time + 1 }
  | some process =>
      let p := deref s.remaining_processes process
      let p := { p with completion_time := s.current_time + p.burst_time }
      let p := { p with turnaround_time := p.completion_time - p.arrival_time }
      let p := { p with waiting_time := p.turnaround_time - p.burst_time }
      let p := { p with response_time := s.current_time - p.arrival_time }
      let remaining := s.remaining_processes.set process p
      { remaining_processes := eraseRemoveIf process remaining
        completed_processes := s.completed_processes ++ [p]
        current_time := p.completion_time }

/-- Method `Scheduler::sjf`, lines 54-91, with a bound on the number of iterations. -/
def Scheduler.sjf (fuel : Nat) (s : Scheduler) : Option Scheduler :=
  (whileLoop LoopState.running sjfBody fuel
    ⟨s.processes, s.completed_processes, s.current_time⟩).map
    (fun r => ⟨s.processes, r.completed_processes, r.current_time⟩)

/-- The pointer selected by `std::min_element` on lines 113-117. -/
def srtfPick (s : LoopState) : Option Nat :=
  minElement
    (fun a b => decide ((deref s.remaining_processes a).remaining_time <
      (deref s.remaining_processes b).remaining_time))
    (availableProcesses s.remaining_processes s.current_time)

/-- One iteration of the loop of `srtf`, lines 98-136. -/
def srtfBody (s : LoopState) : LoopState :=
  match srtfPick s with
  | none => { s with current_time := s.current_time + 1 }
  | some process =>
      let p := deref s.remaining_processes process
      let p := if p.response_time = -1 then
          { p with response_time := s.current_time - p.arrival_time }
        else p
      let p := { p with remaining_time := p.remaining_time - 1 }
      let current_time := s.current_time + 1
      if p.remaining_time = 0 then
        let p := { p with completion_time := current_time }
        let p := { p with turnaround_time := p.completion_time - p.arrival_time }
        let p := { p with waiting_time := p.turnaround_time - p.burst_time }
        let remaining := s.remaining_processes.set process p
        { remaining_processes := eraseRemoveIf process remaining
          completed_processes := s.completed_processes ++ [p]
          current_time := current_time }
      else
        { remaining_processes := s.remaining_processes.set process p
          completed_processes := s.completed_processes
          current_time := current_time }

/-- Method `Scheduler::srtf`, lines 93-138, with a bound on the number of iterations. -/
def Scheduler.srtf (fuel : Nat) (s : Scheduler) : Option Scheduler :=
  (whileLoop LoopState.running srtfBody fuel
    ⟨s.processes, s.completed_processes, s.current_time⟩).map
    (fun r => ⟨s.processes, r.completed_processes, r.current_time⟩)

/-! ## round_robin -/

/-- State of the loop of `round_robin`. `buf` is the storage of the local vector
`remaining_processes` and `size` its current `size()`: the slots `0 .. size - 1` are its
elements, the slots from `size` on are storage that the vector no longer uses but that
pointers held in the queue may still address. `queue` is the `std::queue<Process *>`,
front first. -/
structure RRState where
  buf : List Process
  size : Nat
  queue : List Nat
  completed_processes : List Process
  current_time : Int
deriving DecidableEq, Repr

/-- Call `remaining_processes.erase(it)` with `it` at slot `i`: the elements after `i`
are moved down by one slot and `size()` decreases by one; the last slot that was in use
keeps its content. -/
def vectorErase (buf : List Process) (size i : Nat) : List Process :=
  buf.take i ++ (buf.drop (i + 1)).take (size - (i + 1)) ++ buf.drop (size - 1)

/-- The loops of lines 147-158 and 190-201, with `it` the position of the iterator:
an element that has arrived has its address pushed on the queue and is then erased from
the vector. -/
def pushArrivedLoop (current_time : Int) : Nat → Nat → List Process × Nat × List Nat →
    List Process × Nat × List Nat
  | 0, _, st => st
  | n + 1, it, (buf, size, queue) =>
      if it < size then
        if (deref buf it).arrival_time ≤ current_time then
          pushArrivedLoop current_time n it (vectorErase buf size it, size - 1, queue ++ [it])
        else
          pushArrivedLoop current_time n (it + 1) (buf, size, queue)
      else (buf, size, queue)

/-- The loops of lines 147-158 and 190-201, started at `begin()`; they end within `size`
passes, since each pass either erases an element or advances the iterator. -/
def pushArrived (s : RRState) : RRState :=
  let r := pushArrivedLoop s.current_time s.size 0 (s.buf, s.size, s.queue)
  { s with buf := r.1, size := r.2.1, queue := r.2.2 }

/-- Loop condition `!remaining_processes.empty() || !queue.empty()`, line 145. -/
def RRState.running (s : RRState) : Bool :=
  !(s.size == 0) || !s.queue.isEmpty

/-- Lines 166-188: the front pointer is popped and the slot it addresses is run for one
slice; the record in the slot is copied to `completed_processes` when its
`remaining_time` is 0 after the slice, and the pointer is pushed back otherwise. -/
def rrDispatch (time_quantum : Int) (s : RRState) : RRState :=
  match s.queue with
  | [] => s
  | process :: queue =>
      let p := deref s.buf process
      let p := if p.response_time = -1 then
          { p with response_time := s.current_time - p.arrival_time }
        else p
      let execution_time := min time_quantum p.remaining_time
      let p := { p with remaining_time := p.remaining_time - execution_time }
      let current_time := s.current_time + execution_time
      if p.remaining_time = 0 then
        let p := { p with completion_time := current_time }
        let p := { p with turnaround_time := p.completion_time - p.arrival_time }
        let p := { p with waiting_time := p.turnaround_time - p.burst_time }
        { buf := s.buf.set process p
          size := s.size
          queue := queue
          completed_processes := s.completed_processes ++ [p]
          current_time := current_time }
      else
        { buf := s.buf.set process p
          size := s.size
          queue := queue ++ [process]
          completed_processes := s.completed_processes
          current_time := current_time }

/-- One iteration of the loop of `round_robin`, lines 147-201. -/
def rrBody (time_quantum : Int) (s : RRState) : RRState :=
  let s := pushArrived s
  if s.queue.isEmpty then
    { s with current_time := s.current_time + 1 }
  else
    pushArrived (rrDispatch time_quantum s)

/-- Method `Scheduler::round_robin`, lines 140-203, with a bound on the number of
iterations. -/
def Scheduler.round_robin (time_quantum : Int) (fuel : Nat) (s : Scheduler) :
    Option Scheduler :=
  (whileLoop RRState.running (rrBody time_quantum) fuel
    ⟨s.processes, s.processes.length, [], s.completed_processes, s.current_time⟩).map
    (fun r => ⟨s.processes, r.completed_processes, r.current_time⟩)

/-! ## Inputs -/

/-- The demo dataset of `main`, lines 233-237. -/
def demo : List Process :=
  [Process.new 1 0 10, Process.new 2 1 6, Process.new 3 3 2, Process.new 4 5 4]

/-- A valid input: a non-empty list of freshly constructed processes with
`arrival_time >= 0`, `burst_time > 0` and pairwise distinct `pid`. -/
def ValidInput (ps : List Process) : Prop :=
  ps ≠ [] ∧
  (∀ p ∈ ps, p = Process.new p.pid p.arrival_time p.burst_time ∧
    0 ≤ p.arrival_time ∧ 0 < p.burst_time) ∧
  (ps.map Process.pid).Nodup

instance (ps : List Process) : Decidable (ValidInput ps) := by
  unfold ValidInput; infer_instance

/-! ## Auxiliary definitions for the proofs -/

/-- Largest `arrival_time` of the input. -/
def maxArrival (ps : List Process) : Int :=
  ps.foldr (fun p m => max p.arrival_time m) 0

/-- The record that lines 79-82 of `sjf` leave for a process dispatched at clock `d`. -/
def sjfRecord (p : Process) (d : Int) : Process :=
  { p with
    completion_time := d + p.burst_time
    turnaround_time := d + p.burst_time - p.arrival_time
    waiting_time := d + p.burst_time - p.arrival_time - p.burst_time
    response_time := d - p.arrival_time }

/-- What holds between two records `c`, `c'` completed in this order by `sjf`. -/
def SjfBefore (ps : List Process) (c c' : Process) : Prop :=
  c.completion_time ≤ c'.completion_time - c'.burst_time ∧
  (c'.arrival_time ≤ c.completion_time - c.burst_time →
    c.burst_time ≤ c'.burst_time ∧
    (c.burst_time = c'.burst_time → [c.pid, c'.pid].Sublist (ps.map Process.pid)))

/-- Invariant of the loop of `sjf` started on the input `ps`. -/
structure SjfInv (ps : List Process) (s : LoopState) : Prop where
  perm : (s.completed_processes.map Process.pid ++
    s.remaining_processes.map Process.pid).Perm (ps.map Process.pid)
  sub : s.remaining_processes.Sublist ps
  done : ∀ c ∈ s.completed_processes, ∃ p ∈ ps, ∃ d : Int,
    c = sjfRecord p d ∧ p.arrival_time ≤ d ∧ d + p.burst_time ≤ s.current_time
  order : s.completed_processes.Pairwise (SjfBefore ps)
  pending : ∀ c ∈ s.completed_processes, ∀ q ∈ s.remaining_processes,
    q.arrival_time ≤ c.completion_time - c.burst_time →
      c.burst_time ≤ q.burst_time ∧
      (c.burst_time = q.burst_time → [c.pid, q.pid].Sublist (ps.map Process.pid))

/-- The start state of the loops of `sjf` and `srtf` on a fresh scheduler. -/
def loopInit (ps : List Process) : LoopState := ⟨ps, [], 0⟩

/-- Number of iterations the loop of `sjf` still needs at most. -/
def sjfRank (ps : List Process) (s : LoopState) : Nat :=
  s.remaining_processes.length + (maxArrival ps - s.current_time).toNat

/-- The record that lines 118-122 of `srtf` leave in the slot of a process run for one
tick at clock `t`. -/
def srtfTick (p : Process) (t : Int) : Process :=
  let p := if p.response_time = -1 then { p with response_time := t - p.arrival_time }
    else p
  { p with remaining_time := p.remaining_time - 1 }

/-- The record that lines 127-129 leave for a process that finishes at clock `t`. -/
def finishRecord (p : Process) (t : Int) : Process :=
  { p with
    completion_time := t
    turnaround_time := t - p.arrival_time
    waiting_time := t - p.arrival_time - p.burst_time }

/-- Sum of the `remaining_time` of the processes of a list. -/
def sumRemaining (l : List Process) : Nat :=
  (l.map (fun p => p.remaining_time.toNat)).sum

/-- Invariant of the loop of `srtf` started on the input `ps`. -/
structure SrtfInv (ps : List Process) (s : LoopState) : Prop where
  perm : (s.completed_processes.map Process.pid ++
    s.remaining_processes.map Process.pid).Perm (ps.map Process.pid)
  sub : (s.remaining_processes.map Process.pid).Sublist (ps.map Process.pid)
  live : ∀ q ∈ s.remaining_processes, ∃ p ∈ ps, q.pid = p.pid ∧
    q.arrival_time = p.arrival_time ∧ q.burst_time = p.burst_time ∧
    0 < q.remaining_time ∧ q.remaining_time ≤ q.burst_time
  done : ∀ c ∈ s.completed_processes, ∃ p ∈ ps, c.pid = p.pid ∧
    c.arrival_time = p.arrival_time ∧ c.burst_time = p.burst_time ∧
    c.remaining_time = 0 ∧
    c.turnaround_time = c.completion_time - c.arrival_time ∧
    c.waiting_time = c.turnaround_time - c.burst_time

/-- Number of iterations the loop of `srtf` still needs at most. -/
def srtfRank (ps : List Process) (s : LoopState) : Nat :=
  sumRemaining s.remaining_processes + (maxArrival ps - s.current_time).toNat

/-- The records the loop of `fcfs` appends when it walks `l` from clock `t`. -/
def fcfsRecords : Int → List Process → List Process
  | _, [] => []
  | t, p :: rest => (fcfsBody t p).1 :: fcfsRecords (fcfsBody t p).2 rest

/-- The clock after the loop of `fcfs` has walked `l` from clock `t`. -/
def fcfsClock : Int → List Process → Int
  | t, [] => t
  | t, p :: rest => fcfsClock (fcfsBody t p).2 rest

/-- The completion times the recurrence "`max(clock, arrival_time) + burst_time`, then
the clock is that completion time" gives when `l` is walked from `clock`. -/
def fcfsCompletionTimes : Int → List Process → List Int
  | _, [] => []
  | clock, p :: rest =>
      (max clock p.arrival_time + p.burst_time) ::
        fcfsCompletionTimes (max clock p.arrival_time + p.burst_time) rest

/-- A sort that meets the contract: insertion sort on `arrival_time`. -/
def insertionSortByArrival (l : List Process) : List Process :=
  l.insertionSort (fun a b => a.arrival_time ≤ b.arrival_time)

/-- Largest `burst_time` of the input. -/
def maxBurst (ps : List Process) : Int :=
  ps.foldr (fun p m => max p.burst_time m) 0

/-- The record that lines 169-175 of `round_robin` leave in the slot that is run for one
slice at clock `t`. -/
def rrSlice (time_quantum : Int) (p : Process) (t : Int) : Process :=
  let p := if p.response_time = -1 then { p with response_time := t - p.arrival_time }
    else p
  { p with remaining_time := p.remaining_time - min time_quantum p.remaining_time }

/-- Invariant of the loop of `round_robin` started on the input `ps`. -/
structure RRInv (ps : List Process) (s : RRState) : Prop where
  len : s.buf.length = ps.length
  size_le : s.size + s.queue.length ≤ ps.length
  qvalid : ∀ e ∈ s.queue, e < ps.length
  slots : ∀ p ∈ s.buf, ∃ p0 ∈ ps, p.pid = p0.pid ∧
    p.arrival_time = p0.arrival_time ∧ p.burst_time = p0.burst_time ∧
    0 ≤ p.remaining_time ∧ p.remaining_time ≤ p.burst_time
  done : ∀ c ∈ s.completed_processes, ∃ p0 ∈ ps, c.pid = p0.pid ∧
    c.arrival_time = p0.arrival_time ∧ c.burst_time = p0.burst_time ∧
    c.remaining_time = 0 ∧
    c.turnaround_time = c.completion_time - c.arrival_time ∧
    c.waiting_time = c.turnaround_time - c.burst_time

/-- The start state of the loop of `round_robin` on a fresh scheduler. -/
def rrInit (ps : List Process) : RRState := ⟨ps, ps.length, [], [], 0⟩

/-- Work still queued: one unit per queue entry plus the `remaining_time` of the slot it
addresses. -/
def queueWork (buf : List Process) (queue : List Nat) : Nat :=
  (queue.map (fun e => 1 + (deref buf e).remaining_time.toNat)).sum

/-- Number of iterations the loop of `round_robin` still needs at most. -/
def rrRank (ps : List Process) (s : RRState) : Nat :=
  s.size * (ps.length * (1 + (maxBurst ps).toNat) + 1) + queueWork s.buf s.queue +
    (maxArrival ps - s.current_time).toNat

/-- Number of iterations that suffice for `round_robin` on the input `ps`. -/
def rrFuel (ps : List Process) : Nat :=
  ps.length * (ps.length * (1 + (maxBurst ps).toNat) + 1) + (maxArrival ps).toNat

/-- What C2 says of a completed record `c` for the input `ps`. -/
def TimesConsistent (ps : List Process) (c : Process) : Prop :=
  c.turnaround_time = c.completion_time - c.arrival_time ∧
  c.waiting_time = c.turnaround_time - c.burst_time ∧
  c.turnaround_time = c.waiting_time + c.burst_time ∧
  ∃ p ∈ ps, p.pid = c.pid ∧ c.arrival_time = p.arrival_time ∧ c.burst_time = p.burst_time

/-- An input on which an element arrives during the first slice of `round_robin`. -/
def rrOrderInput : List Process :=
  [Process.new 1 1 5, Process.new 2 0 5, Process.new 3 9 9]

/-- The pointers an arrival loop of `round_robin` (lines 147-158, 190-201) pushes when the
iterator is at slot `it` and `l` are the elements from there to `end()`: for an element
with `arrival_time <= current_time` the address of slot `it` is pushed and the element is
erased, which moves the next element into slot `it`; any other element is stepped over. -/
def arrivedPointers (current_time : Int) : Nat → List Process → List Nat
  | _, [] => []
  | it, p :: l =>
      if p.arrival_time ≤ current_time then it :: arrivedPointers current_time it l
      else arrivedPointers current_time (it + 1) l

/-- The tie-break C8 and C9 state, for a selection by the key `key` (`burst_time` for
`sjf`, `remaining_time` for `srtf`): when the picked process shares its key with another
available process, it has the earlier `arrival_time`, or the same `arrival_time` and the
smaller pid. -/
def TieBreakByArrivalThenPid (key : Process → Int) (pick : LoopState → Option Nat)
    (s : LoopState) : Prop :=
  ∀ k, pick s = some k → ∀ y ∈ s.remaining_processes,
    y.arrival_time ≤ s.current_time →
    key y = key (deref s.remaining_processes k) →
    (deref s.remaining_processes k).arrival_time < y.arrival_time ∨
    ((deref s.remaining_processes k).arrival_time = y.arrival_time ∧
      (deref s.remaining_processes k).pid ≤ y.pid)

/-- An input on which two processes with the same `burst_time` wait for `sjf`. -/
def sjfTieInput : List Process :=
  [Process.new 1 5 3, Process.new 2 0 10, Process.new 3 1 3]

/-- An input on which two processes reach the same `remaining_time` under `srtf`. -/
def srtfTieInput : List Process :=
  [Process.new 1 1 2, Process.new 2 0 3]

/-- An input with 17 processes, pids 1 to 17 in this order, that all arrive at time 0
with `burst_time` 1. -/
def fcfsTieInput : List Process :=
  (List.range 17).map (fun i => Process.new (Int.ofNat i + 1) 0 1)

/-- An input on which `round_robin` runs longer than the sum of the burst times plus the
largest arrival time. -/
def rrClockInput : List Process :=
  [Process.new 1 1 1, Process.new 2 0 1, Process.new 3 1 5]

/-- Invariant of the loop of `round_robin` run with a quantum that is not positive. -/
structure RRSpinInv (s : RRState) : Prop where
  size_le : s.size ≤ s.buf.length
  qvalid : ∀ e ∈ s.queue, e < s.buf.length
  pos : ∀ p ∈ s.buf, 0 < p.remaining_time
  busy : 0 < s.size + s.queue.length
  none_done : s.completed_processes = []

/-- Sum of the `burst_time` of the processes of a list. -/
def sumBurst (l : List Process) : Int :=
  (l.map Process.burst_time).sum

/-- Processor time already given to the processes of a list. -/
def progress (l : List Process) : Int :=
  (l.map (fun p => p.burst_time - p.remaining_time)).sum

/-- Clock facts that hold in the loop of `sjf` started on the input `ps`. -/
structure SjfClock (ps : List Process) (s : LoopState) : Prop where
  work : sumBurst s.completed_processes + sumBurst s.remaining_processes = sumBurst ps
  clock_le : s.current_time ≤ maxArrival ps + sumBurst s.completed_processes
  clock_ge : sumBurst s.completed_processes ≤ s.current_time

/-- Clock and response facts that hold in the loop of `srtf` started on the input
`ps`. -/
structure SrtfClock (ps : List Process) (s : LoopState) : Prop where
  work : sumBurst s.completed_processes + sumBurst s.remaining_processes = sumBurst ps
  clock_le : s.current_time ≤
    maxArrival ps + (sumBurst s.completed_processes + progress s.remaining_processes)
  clock_ge : sumBurst s.completed_processes + progress s.remaining_processes ≤
    s.current_time
  resp_live : ∀ q ∈ s.remaining_processes,
    (q.remaining_time = q.burst_time ∧ q.response_time = -1) ∨
    (0 ≤ q.response_time ∧
      q.arrival_time + q.response_time + (q.burst_time - q.remaining_time) ≤
        s.current_time)
  resp_done : ∀ c ∈ s.completed_processes,
    0 ≤ c.response_time ∧
    c.arrival_time + c.response_time + c.burst_time ≤ c.completion_time ∧
    c.completion_time ≤ s.current_time

/-- The states of `round_robin` on the single process `(pid, a, b)`: the process has not
arrived and the clock is at most `a`; or its slot is queued with `r` units left, the clock
at `a + (b - r)`; or it is completed at clock `a + b`. -/
def RRSingle (pid a b : Int) (s : RRState) : Prop :=
  (s.buf = [⟨pid, a, b, b, 0, 0, 0, -1⟩] ∧ s.size = 1 ∧ s.queue = [] ∧
    s.completed_processes = [] ∧ s.current_time ≤ a) ∨
  (∃ r : Int, 0 < r ∧ r < b ∧ s.buf = [⟨pid, a, b, r, 0, 0, 0, 0⟩] ∧ s.size = 0 ∧
    s.queue = [0] ∧ s.completed_processes = [] ∧ s.current_time = a + (b - r)) ∨
  (s.buf = [⟨pid, a, b, 0, a + b, 0, b, 0⟩] ∧ s.size = 0 ∧ s.queue = [] ∧
    s.completed_processes = [⟨pid, a, b, 0, a + b, 0, b, 0⟩] ∧ s.current_time = a + b)

/-- The next arrival time: the smallest `arrival_time` of the processes of `l`. It is
only used when `l` is not empty; for the empty list it is the next clock tick. -/
def nextArrival (l : List Process) (t : Int) : Int :=
  match l with
  | [] => t + 1
  | p :: rest => rest.foldl (fun m q => min m q.arrival_time) p.arrival_time

/-- One iteration of the loop of `sjf` with the idle step replaced by a single jump of the
clock to the next arrival time. -/
def sjfBodyJump (s : LoopState) : LoopState :=
  match sjfPick s with
  | none => { s with current_time := nextArrival s.remaining_processes s.current_time }
  | some _ => sjfBody s

/-- One iteration of the loop of `srtf` with the idle step replaced by a single jump of
the clock to the next arrival time. -/
def srtfBodyJump (s : LoopState) : LoopState :=
  match srtfPick s with
  | none => { s with current_time := nextArrival s.remaining_processes s.current_time }
  | some _ => srtfBody s

/-- One iteration of the loop of `round_robin` with the idle step replaced by a single
jump of the clock to the next arrival time among the elements still in
`remaining_processes`. -/
def rrBodyJump (time_quantum : Int) (s : RRState) : RRState :=
  if (pushArrived s).queue.isEmpty then
    { pushArrived s with
      current_time := nextArrival ((pushArrived s).buf.take (pushArrived s).size)
        (pushArrived s).current_time }
  else rrBody time_quantum s

/-- Method `sjf` with the idle step replaced by a jump. -/
def Scheduler.sjfJump (fuel : Nat) (s : Scheduler) : Option Scheduler :=
  (whileLoop LoopState.running sjfBodyJump fuel
    ⟨s.processes, s.completed_processes, s.current_time⟩).map
    (fun r => ⟨s.processes, r.completed_processes, r.current_time⟩)

/-- Method `srtf` with the idle step replaced by a jump. -/
def Scheduler.srtfJump (fuel : Nat) (s : Scheduler) : Option Scheduler :=
  (whileLoop LoopState.running srtfBodyJump fuel
    ⟨s.processes, s.completed_processes, s.current_time⟩).map
    (fun r => ⟨s.processes, r.completed_processes, r.current_time⟩)

/-- Method `round_robin` with the idle step replaced by a jump. -/
def Scheduler.round_robinJump (time_quantum : Int) (fuel : Nat) (s : Scheduler) :
    Option Scheduler :=
  (whileLoop RRState.running (rrBodyJump time_quantum) fuel
    ⟨s.processes, s.processes.length, [], s.completed_processes, s.current_time⟩).map
    (fun r => ⟨s.processes, r.completed_processes, r.current_time⟩)

/-- An input on which the processor is idle before the first arrival and again between
the two processes. -/
def idleInput : List Process :=
  [Process.new 1 2 3, Process.new 2 9 1]

/-- The relation between a state `s` of the loop of `sjf` and a state `t` of the loop of
`srtf` at a decision point, for an input whose processes all arrive at `a`: same clock,
same untouched remaining processes, and the same completed records up to
`remaining_time`, which `srtf` has brought to 0. -/
def SameArrivalRel (a : Int) (s t : LoopState) : Prop :=
  s.current_time = t.current_time ∧
  s.remaining_processes = t.remaining_processes ∧
  t.completed_processes =
    s.completed_processes.map (fun c => { c with remaining_time := 0 }) ∧
  (∀ p ∈ s.remaining_processes, p = Process.new p.pid p.arrival_time p.burst_time ∧
    0 < p.burst_time ∧ p.arrival_time = a) ∧
  (s.remaining_processes.map Process.pid).Nodup

/-- Key fields of a record: everything but `remaining_time`. -/
def scheduleKey (c : Process) : Int × Int × Int × Int × Int × Int × Int :=
  (c.pid, c.arrival_time, c.burst_time, c.completion_time, c.turnaround_time,
    c.waiting_time, c.response_time)

/-- An input whose processes all arrive at time 2. -/
def sameArrivalInput : List Process :=
  [Process.new 1 2 3, Process.new 2 2 1, Process.new 3 2 3]

/-! ## Loops -/

theorem whileLoop_mono {σ : Type} (cond : σ → Bool) (body : σ → σ) :
    ∀ (fuel : Nat) (s s' : σ), whileLoop cond body fuel s = some s' →
      ∀ k, whileLoop cond body (fuel + k) s = some s' := by
  intro fuel
  induction fuel with
  | zero =>
    intro s s' h k
    by_cases hc : cond s = true
    · simp [whileLoop, hc] at h
    · simp only [whileLoop, hc] at h
      cases k with
      | zero => simpa [whileLoop, hc] using h
      | succ k => simpa [whileLoop, hc] using h
  | succ n ih =>
    intro s s' h k
    by_cases hc : cond s = true
    · simp only [whileLoop, hc, if_true] at h
      have := ih _ _ h k
      rw [Nat.add_right_comm]
      simpa [whileLoop, hc] using this
    · rw [Nat.add_right_comm]
      simp only [whileLoop, hc] at h ⊢
      exact h

/-- A loop whose body preserves `Inv` and decreases `rank` ends within `rank` iterations,
in a state where `Inv` holds and the condition is false. -/
theorem whileLoop_terminates {σ : Type} (cond : σ → Bool) (body : σ → σ)
    (Inv : σ → Prop) (rank : σ → Nat)
    (hstep : ∀ s, Inv s → cond s = true → Inv (body s) ∧ rank (body s) < rank s) :
    ∀ (fuel : Nat) (s : σ), Inv s → rank s ≤ fuel →
      ∃ s', whileLoop cond body fuel s = some s' ∧ Inv s' ∧ cond s' = false := by
  intro fuel
  induction fuel with
  | zero =>
    intro s hI hr
    by_cases hc : cond s = true
    · have := (hstep s hI hc).2
      omega
    · exact ⟨s, by simp [whileLoop, hc], hI, by simpa using hc⟩
  | succ n ih =>
    intro s hI hr
    by_cases hc : cond s = true
    · obtain ⟨hI', hlt⟩ := hstep s hI hc
      obtain ⟨s', h1, h2, h3⟩ := ih (body s) hI' (by omega)
      exact ⟨s', by simpa [whileLoop, hc] using h1, h2, h3⟩
    · exact ⟨s, by simp [whileLoop, hc], hI, by simpa using hc⟩

/-- Form of `whileLoop_terminates` that fixes the result for every larger fuel. -/
theorem whileLoop_result {σ : Type} (cond : σ → Bool) (body : σ → σ)
    (Inv : σ → Prop) (rank : σ → Nat)
    (hstep : ∀ s, Inv s → cond s = true → Inv (body s) ∧ rank (body s) < rank s)
    (s : σ) (hI : Inv s) :
    ∃ s', (∀ fuel, rank s ≤ fuel → whileLoop cond body fuel s = some s') ∧
      Inv s' ∧ cond s' = false := by
  obtain ⟨s', h1, h2, h3⟩ := whileLoop_terminates cond body Inv rank hstep (rank s) s hI le_rfl
  refine ⟨s', ?_, h2, h3⟩
  intro fuel hf
  obtain ⟨k, rfl⟩ := Nat.exists_eq_add_of_le hf
  exact whileLoop_mono cond body _ _ _ h1 k

/-- The states a loop passes through are the iterates of its body on the start state:
a loop that ends did so after some number `n` of iterations, each started with the
condition true. -/
theorem whileLoop_eq_iterate {σ : Type} (cond : σ → Bool) (body : σ → σ) :
    ∀ (fuel : Nat) (s r : σ), whileLoop cond body fuel s = some r →
      ∃ n, n ≤ fuel ∧ r = body^[n] s ∧ cond r = false ∧
        ∀ m, m < n → cond (body^[m] s) = true := by
  intro fuel
  induction fuel with
  | zero =>
    intro s r h
    by_cases hc : cond s = true
    · simp [whileLoop, hc] at h
    · simp only [whileLoop, hc, Bool.false_eq_true, if_false, Option.some.injEq] at h
      subst h
      exact ⟨0, le_refl _, rfl, by simpa using hc, fun m hm => absurd hm (Nat.not_lt_zero m)⟩
  | succ k ih =>
    intro s r h
    by_cases hc : cond s = true
    · simp only [whileLoop, hc, if_true] at h
      obtain ⟨n, hn, hr, hcr, hall⟩ := ih (body s) r h
      refine ⟨n + 1, Nat.succ_le_succ hn, by rw [Function.iterate_succ_apply]; exact hr,
        hcr, ?_⟩
      intro m hm
      cases m with
      | zero => exact hc
      | succ m =>
        rw [Function.iterate_succ_apply]
        exact hall m (Nat.lt_of_succ_lt_succ hm)
    · simp only [whileLoop, hc, Bool.false_eq_true, if_false, Option.some.injEq] at h
      subst h
      exact ⟨0, Nat.zero_le _, rfl, by simpa using hc,
        fun m hm => absurd hm (Nat.not_lt_zero m)⟩

/-! ## `erase(remove_if(...))` through an aliased pointer -/

theorem deref_append_right (A B : List Process) (j : Nat) :
    deref (A ++ B) (A.length + j) = deref B j := by
  simp [deref, List.getElem?_append_right]

theorem removeIfLoop_tail (A : List Process) (b : Process) :
    ∀ (B₂ B₁ : List Process) (z : Process), (∀ y ∈ B₂, y.pid ≠ b.pid) →
      ∃ w, removeIfLoop A.length B₂.length (A.length + B₁.length + 2)
        (A.length + B₁.length + 1) (A ++ (b :: B₁ ++ z :: B₂)) =
        (A ++ (b :: B₁ ++ B₂ ++ [w]), A.length + B₁.length + 1 + B₂.length) := by
  intro B₂
  induction B₂ with
  | nil =>
    intro B₁ z _
    exact ⟨z, by simp [removeIfLoop]⟩
  | cons y B₂ ih =>
    intro B₁ z h
    have hy : y.pid ≠ b.pid := h y (by simp)
    have h1 : deref (A ++ (b :: B₁ ++ z :: y :: B₂)) (A.length + B₁.length + 2) = y := by
      rw [Nat.add_assoc, deref_append_right]
      have : b :: B₁ ++ z :: y :: B₂ = (b :: B₁ ++ [z]) ++ (y :: B₂) := by simp
      rw [this]
      have h2 : B₁.length + 2 = (b :: B₁ ++ [z]).length + 0 := by simp
      rw [h2, deref_append_right]
      simp [deref]
    have h3 : deref (A ++ (b :: B₁ ++ z :: y :: B₂)) A.length = b := by
      have := deref_append_right A (b :: B₁ ++ z :: y :: B₂) 0
      simp only [Nat.add_zero] at this
      rw [this]; simp [deref]
    have h4 : (A ++ (b :: B₁ ++ z :: y :: B₂)).set (A.length + B₁.length + 1) y =
        A ++ (b :: (B₁ ++ [y]) ++ y :: B₂) := by
      have e1 : A ++ (b :: B₁ ++ z :: y :: B₂) = (A ++ b :: B₁) ++ z :: y :: B₂ := by simp
      have e2 : A.length + B₁.length + 1 = (A ++ b :: B₁).length := by simp; omega
      rw [e1, e2, List.set_append_right _ _ (le_refl _)]
      simp
    obtain ⟨w, hw⟩ := ih (B₁ ++ [y]) y (fun y' hy' => h y' (by simp [hy']))
    refine ⟨w, ?_⟩
    simp only [List.length_cons, removeIfLoop, h1, h3, hy, if_false, h4]
    simp only [List.length_append, List.length_singleton, List.length_cons,
      List.length_nil, Nat.zero_add] at hw
    have e3 : A.length + B₁.length + 2 + 1 = A.length + (B₁.length + 1) + 2 := by omega
    have e4 : A.length + B₁.length + 1 + 1 = A.length + (B₁.length + 1) + 1 := by omega
    rw [e3, e4, hw]
    simp
    omega

/-- With pairwise distinct pids, the erase-remove statement removes exactly the slot the
pointer addresses. -/
theorem eraseRemoveIf_eq (buf : List Process) (k : Nat) (hk : k < buf.length)
    (hnd : (buf.map Process.pid).Nodup) : eraseRemoveIf k buf = buf.eraseIdx k := by
  obtain ⟨A, x, B, rfl, rfl⟩ : ∃ A x B, buf = A ++ x :: B ∧ k = A.length := by
    refine ⟨buf.take k, buf[k], buf.drop (k + 1), ?_, ?_⟩
    · rw [← List.drop_eq_getElem_cons hk, List.take_append_drop]
    · simp [Nat.min_eq_left (le_of_lt hk)]
  have hkey : deref (A ++ x :: B) A.length = x := by
    have := deref_append_right A (x :: B) 0
    simp only [Nat.add_zero] at this
    rw [this]; simp [deref]
  simp only [List.map_append, List.map_cons, List.nodup_append, List.nodup_cons,
    List.mem_map, not_exists, not_and] at hnd
  obtain ⟨hA, ⟨hxB, hB⟩, hAB⟩ := hnd
  have hfind : (A ++ x :: B).findIdx (fun p => decide (p.pid = x.pid)) = A.length := by
    rw [List.findIdx_append]
    have h1 : A.findIdx (fun p => decide (p.pid = x.pid)) = A.length := by
      apply List.findIdx_eq_length_of_false
      intro a ha
      simp only [decide_eq_false_iff_not]
      intro h
      exact hAB (List.mem_map_of_mem _ ha) (by simp [h])
    simp [h1, List.findIdx_cons]
  have herase : (A ++ x :: B).eraseIdx A.length = A ++ B := by
    rw [List.eraseIdx_append_of_length_le (le_refl _)]
    simp
  rw [herase]
  unfold eraseRemoveIf
  simp only [hkey, hfind]
  cases B with
  | nil => simp [removeIfLoop]
  | cons y B =>
    have hy : y.pid ≠ x.pid := fun h => hxB y (by simp) h
    have h1 : deref (A ++ x :: y :: B) (A.length + 1) = y := by
      rw [deref_append_right]; simp [deref]
    have h4 : (A ++ x :: y :: B).set A.length y = A ++ (y :: [] ++ y :: B) := by
      rw [List.set_append_right _ _ (le_refl _)]
      simp
    have hB' : ∀ y' ∈ B, y'.pid ≠ y.pid := by
      intro y' hy' h
      simp only [List.map_cons, List.nodup_cons, List.mem_map, not_exists, not_and] at hB
      exact hB.1 y' hy' h
    obtain ⟨w, hw⟩ := removeIfLoop_tail A y B [] y hB'
    simp only [List.length_nil, Nat.add_zero] at hw
    have e1 : (A ++ x :: y :: B).length - (A.length + 1) = B.length + 1 := by
      simp; omega
    have e2 : A.length < (A ++ x :: y :: B).length := by simp
    simp only [e1, e2, if_true, removeIfLoop, h1, hkey, hy, if_false, h4, hw]
    have e3 : A.length + 1 + B.length = (A ++ y :: B).length := by simp; omega
    have e4 : A ++ ([y] ++ B ++ [w]) = (A ++ y :: B) ++ [w] := by simp
    rw [e3, e4, List.take_left']
    rfl

/-! ## `min_element` over the available pointers -/

theorem minElement_foldl {α : Type} (f : α → Int) :
    ∀ (rest pre mid : List α) (r : α),
      (∀ x ∈ pre, f r < f x) → (∀ x ∈ mid, f r ≤ f x) →
      ∃ pre' post', pre ++ r :: mid ++ rest =
          pre' ++ (rest.foldl (fun result x => if decide (f x < f result) then x else result) r)
            :: post' ∧
        (∀ x ∈ pre', f (rest.foldl
          (fun result x => if decide (f x < f result) then x else result) r) < f x) ∧
        (∀ x ∈ post', f (rest.foldl
          (fun result x => if decide (f x < f result) then x else result) r) ≤ f x) := by
  intro rest
  induction rest with
  | nil =>
    intro pre mid r h1 h2
    exact ⟨pre, mid, by simp, h1, h2⟩
  | cons x rest ih =>
    intro pre mid r h1 h2
    by_cases hx : f x < f r
    · obtain ⟨pre', post', e, h3, h4⟩ := ih (pre ++ r :: mid) [] x
        (by
          intro y hy
          simp only [List.mem_append, List.mem_cons] at hy
          rcases hy with hy | rfl | hy
          · exact lt_trans hx (h1 y hy)
          · exact hx
          · exact lt_of_lt_of_le hx (h2 y hy))
        (by simp)
      refine ⟨pre', post', ?_, ?_, ?_⟩
      · simp only [List.foldl_cons, hx, decide_True, if_true]
        rw [← e]; simp
      · simpa only [List.foldl_cons, hx, decide_True, if_true] using h3
      · simpa only [List.foldl_cons, hx, decide_True, if_true] using h4
    · obtain ⟨pre', post', e, h3, h4⟩ := ih pre (mid ++ [x]) r h1
        (by
          intro y hy
          simp only [List.mem_append, List.mem_singleton] at hy
          rcases hy with hy | rfl
          · exact h2 y hy
          · exact not_lt.mp hx)
      refine ⟨pre', post', ?_, ?_, ?_⟩
      · simp only [List.foldl_cons, hx, decide_False, Bool.false_eq_true, if_false]
        rw [← e]; simp
      · simpa only [List.foldl_cons, hx, decide_False, Bool.false_eq_true, if_false] using h3
      · simpa only [List.foldl_cons, hx, decide_False, Bool.false_eq_true, if_false] using h4

/-- The element `min_element` returns for a comparator `f a < f b` is the first one with
the least `f`. -/
theorem minElement_spec {α : Type} (f : α → Int) (l : List α) (m : α)
    (h : minElement (fun a b => decide (f a < f b)) l = some m) :
    ∃ pre post, l = pre ++ m :: post ∧ (∀ x ∈ pre, f m < f x) ∧ (∀ x ∈ post, f m ≤ f x) := by
  cases l with
  | nil => simp [minElement] at h
  | cons a rest =>
    simp only [minElement, Option.some.injEq] at h
    obtain ⟨pre', post', e, h3, h4⟩ := minElement_foldl f rest [] [] a (by simp) (by simp)
    rw [h] at e h3 h4
    exact ⟨pre', post', by simpa using e, h3, h4⟩

theorem minElement_eq_none {α : Type} (comp : α → α → Bool) (l : List α) :
    minElement comp l = none ↔ l = [] := by
  cases l <;> simp [minElement]

theorem mem_availableProcesses (rem : List Process) (t : Int) (i : Nat) :
    i ∈ availableProcesses rem t ↔ i < rem.length ∧ (deref rem i).arrival_time ≤ t := by
  simp [availableProcesses]

theorem availableProcesses_sorted (rem : List Process) (t : Int) :
    (availableProcesses rem t).Pairwise (fun a b => a < b) :=
  (List.pairwise_lt_range _).filter _

/-- The pointer picked among the available ones by the key `f`. -/
theorem pick_spec (f : Process → Int) (rem : List Process) (t : Int) (k : Nat)
    (h : minElement (fun a b => decide (f (deref rem a) < f (deref rem b)))
      (availableProcesses rem t) = some k) :
    k < rem.length ∧ (deref rem k).arrival_time ≤ t ∧
    (∀ j, j < rem.length → (deref rem j).arrival_time ≤ t →
      f (deref rem k) ≤ f (deref rem j)) ∧
    (∀ j, j < k → (deref rem j).arrival_time ≤ t → f (deref rem k) < f (deref rem j)) := by
  obtain ⟨pre, post, e, h1, h2⟩ := minElement_spec (fun i => f (deref rem i)) _ k h
  have hs := availableProcesses_sorted rem t
  rw [e, List.pairwise_append] at hs
  obtain ⟨_, hs2, hs3⟩ := hs
  have hk : k ∈ availableProcesses rem t := by rw [e]; simp
  have hmem : ∀ j, j < rem.length → (deref rem j).arrival_time ≤ t →
      j ∈ pre ∨ j = k ∨ j ∈ post := by
    intro j hj ha
    have : j ∈ availableProcesses rem t := (mem_availableProcesses rem t j).2 ⟨hj, ha⟩
    rw [e] at this
    simpa using this
  rw [mem_availableProcesses] at hk
  refine ⟨hk.1, hk.2, ?_, ?_⟩
  · intro j hj ha
    rcases hmem j hj ha with h | rfl | h
    · exact le_of_lt (h1 j h)
    · exact le_refl _
    · exact h2 j h
  · intro j hj ha
    rcases hmem j (lt_trans hj hk.1) ha with h | rfl | h
    · exact h1 j h
    · omega
    · have := (List.pairwise_cons.1 hs2).1 j h
      omega

theorem pick_eq_none (f : Process → Int) (rem : List Process) (t : Int) :
    minElement (fun a b => decide (f (deref rem a) < f (deref rem b)))
      (availableProcesses rem t) = none ↔ ∀ p ∈ rem, t < p.arrival_time := by
  rw [minElement_eq_none, List.eq_nil_iff_forall_not_mem]
  constructor
  · intro h p hp
    obtain ⟨i, hi, rfl⟩ := List.getElem_of_mem hp
    have := h i
    rw [mem_availableProcesses] at this
    have e : deref rem i = rem[i] := by simp [deref, hi]
    rw [e] at this
    push_neg at this
    exact this hi
  · intro h i hi
    rw [mem_availableProcesses] at hi
    have e : deref rem i = rem[i] := by simp [deref, hi.1]
    rw [e] at hi
    have := h _ (List.getElem_mem hi.1)
    omega

theorem deref_eq_getElem (buf : List Process) (i : Nat) (h : i < buf.length) :
    deref buf i = buf[i] := by
  simp [deref, h]

theorem deref_mem (buf : List Process) (i : Nat) (h : i < buf.length) :
    deref buf i ∈ buf := by
  rw [deref_eq_getElem buf i h]; exact List.getElem_mem h

/-! ## Facts about valid inputs -/

theorem le_maxArrival (ps : List Process) (p : Process) (h : p ∈ ps) :
    p.arrival_time ≤ maxArrival ps := by
  induction ps with
  | nil => simp at h
  | cons a ps ih =>
    simp only [maxArrival, List.foldr_cons]
    rcases List.mem_cons.1 h with rfl | h
    · exact le_max_left _ _
    · exact le_trans (ih h) (le_max_right _ _)

theorem maxArrival_nonneg (ps : List Process) : 0 ≤ maxArrival ps := by
  cases ps with
  | nil => simp [maxArrival]
  | cons a ps =>
    simp only [maxArrival, List.foldr_cons]
    exact le_trans (maxArrival_nonneg ps) (le_max_right _ _)

theorem pick_decomp (f : Process → Int) (rem : List Process) (t : Int) (k : Nat)
    (h : minElement (fun a b => decide (f (deref rem a) < f (deref rem b)))
      (availableProcesses rem t) = some k) :
    ∃ A x B, rem = A ++ x :: B ∧ A.length = k ∧ deref rem k = x ∧ x.arrival_time ≤ t ∧
      (∀ y ∈ A, y.arrival_time ≤ t → f x < f y) ∧
      (∀ y ∈ B, y.arrival_time ≤ t → f x ≤ f y) := by
  obtain ⟨hk, ha, hmin, hfirst⟩ := pick_spec f rem t k h
  have hx : deref rem k = rem[k] := deref_eq_getElem rem k hk
  have hdec : rem = rem.take k ++ rem[k] :: rem.drop (k + 1) := by
    rw [← List.drop_eq_getElem_cons hk, List.take_append_drop]
  refine ⟨rem.take k, rem[k], rem.drop (k + 1), hdec, ?_, hx, ?_, ?_, ?_⟩
  · simp [Nat.min_eq_left (le_of_lt hk)]
  · rw [← hx]; exact ha
  · intro y hy hya
    obtain ⟨j, hj, rfl⟩ := List.getElem_of_mem hy
    simp only [List.length_take, lt_min_iff] at hj
    have := hfirst j hj.1 (by rw [deref_eq_getElem rem j hj.2]; simpa using hya)
    rw [hx, deref_eq_getElem rem j hj.2] at this
    simpa using this
  · intro y hy hya
    obtain ⟨j, hj, rfl⟩ := List.getElem_of_mem hy
    simp only [List.length_drop] at hj
    have hj' : k + 1 + j < rem.length := by omega
    have := hmin (k + 1 + j) hj' (by rw [deref_eq_getElem rem _ hj']; simpa using hya)
    rw [hx, deref_eq_getElem rem _ hj'] at this
    simpa using this

theorem set_eraseRemoveIf (A B : List Process) (x p : Process) (hp : p.pid = x.pid)
    (hnd : ((A ++ x :: B).map Process.pid).Nodup) :
    eraseRemoveIf A.length ((A ++ x :: B).set A.length p) = A ++ B := by
  have e : (A ++ x :: B).set A.length p = A ++ p :: B := by
    rw [List.set_append_right _ _ (le_refl _)]; simp
  rw [e, eraseRemoveIf_eq _ _ (by simp) (by simpa [hp] using hnd),
    List.eraseIdx_append_of_length_le (le_refl _)]
  simp

theorem nodup_of_perm_append (l₁ l₂ l : List Int) (h : (l₁ ++ l₂).Perm l) (hl : l.Nodup) :
    l₂.Nodup :=
  ((h.nodup_iff.2 hl).sublist (List.sublist_append_right l₁ l₂))

/-! ## sjf: the loop invariant -/

theorem sjfInv_init (ps : List Process) : SjfInv ps (loopInit ps) where
  perm := by simp [loopInit]
  sub := List.Sublist.refl _
  done := by simp [loopInit]
  order := by simp [loopInit]
  pending := by simp [loopInit]

/-- The effect of one iteration of `sjf` in which a process is dispatched. -/
theorem sjfBody_dispatch (s : LoopState) (k : Nat) (h : sjfPick s = some k)
    (hnd : (s.remaining_processes.map Process.pid).Nodup) :
    ∃ A x B, s.remaining_processes = A ++ x :: B ∧ A.length = k ∧
      deref s.remaining_processes k = x ∧
      x.arrival_time ≤ s.current_time ∧
      (∀ y ∈ A, y.arrival_time ≤ s.current_time → x.burst_time < y.burst_time) ∧
      (∀ y ∈ B, y.arrival_time ≤ s.current_time → x.burst_time ≤ y.burst_time) ∧
      sjfBody s = ⟨A ++ B, s.completed_processes ++ [sjfRecord x s.current_time],
        s.current_time + x.burst_time⟩ := by
  obtain ⟨A, x, B, e, hk, hx, h1, h2, h3⟩ :=
    pick_decomp Process.burst_time s.remaining_processes s.current_time k h
  refine ⟨A, x, B, e, hk, hx, h1, h2, h3, ?_⟩
  have hrem := set_eraseRemoveIf A B x (sjfRecord x s.current_time) rfl (e ▸ hnd)
  simp only [sjfBody, h, hx]
  rw [← hk, e]
  exact congrArg₂ (fun r (c : Process) => LoopState.mk r (s.completed_processes ++ [c])
    (s.current_time + x.burst_time)) hrem rfl

theorem sjfBody_idle (s : LoopState) (h : sjfPick s = none) :
    sjfBody s = { s with current_time := s.current_time + 1 } ∧
    ∀ p ∈ s.remaining_processes, s.current_time < p.arrival_time := by
  refine ⟨by simp [sjfBody, h], ?_⟩
  exact (pick_eq_none Process.burst_time _ _).1 h

theorem pair_sublist_of_mem {α : Type} (A B : List α) (x q : α) (hq : q ∈ B) :
    [x, q].Sublist (A ++ x :: B) :=
  List.sublist_append_of_sublist_right
    ((List.singleton_sublist.2 hq).cons₂ x)

theorem perm_pids_step (C A B : List Process) (x c : Process) (hc : c.pid = x.pid) :
    ((C ++ [c]).map Process.pid ++ (A ++ B).map Process.pid).Perm
      (C.map Process.pid ++ (A ++ x :: B).map Process.pid) := by
  simp only [List.map_append, List.map_cons, List.map_nil, List.append_assoc, hc]
  apply List.Perm.append_left
  simp only [List.singleton_append]
  exact List.perm_middle.symm

theorem sjfInv_step (ps : List Process) (hv : ValidInput ps) (s : LoopState)
    (hI : SjfInv ps s) : SjfInv ps (sjfBody s) := by
  have hnd : (s.remaining_processes.map Process.pid).Nodup :=
    nodup_of_perm_append _ _ _ hI.perm hv.2.2
  cases h : sjfPick s with
  | none =>
    rw [(sjfBody_idle s h).1]
    refine ⟨hI.perm, hI.sub, ?_, hI.order, hI.pending⟩
    intro c hc
    obtain ⟨p, hp, d, e, h1, h2⟩ := hI.done c hc
    exact ⟨p, hp, d, e, h1, by simp only; omega⟩
  | some k =>
    obtain ⟨A, x, B, e, -, -, hxa, hA, hB, hbody⟩ := sjfBody_dispatch s k h hnd
    have hxrem : x ∈ s.remaining_processes := by rw [e]; simp
    have hxps : x ∈ ps := hI.sub.subset hxrem
    have hsubset : ∀ q ∈ A ++ B, q ∈ s.remaining_processes := by
      intro q hq
      rw [e]
      simp only [List.mem_append, List.mem_cons] at hq ⊢
      tauto
    rw [hbody]
    refine ⟨?_, ?_, ?_, ?_, ?_⟩
    · refine (perm_pids_step s.completed_processes A B x (sjfRecord x s.current_time)
        rfl).trans ?_
      rw [← e]; exact hI.perm
    · refine List.Sublist.trans ?_ hI.sub
      rw [e]
      exact List.Sublist.append_left (List.sublist_cons_self x B) A
    · intro c hc
      simp only [List.mem_append, List.mem_singleton] at hc
      rcases hc with hc | rfl
      · obtain ⟨p, hp, d, e', h1, h2⟩ := hI.done c hc
        have := (hv.2.1 x hxps).2.2
        exact ⟨p, hp, d, e', h1, by simp only; omega⟩
      · exact ⟨x, hxps, s.current_time, rfl, hxa, le_refl _⟩
    · rw [List.pairwise_append]
      refine ⟨hI.order, List.pairwise_singleton _ _, ?_⟩
      intro c hc c' hc'
      rw [List.mem_singleton] at hc'
      subst hc'
      obtain ⟨p, hp, d, e', h1, h2⟩ := hI.done c hc
      refine ⟨?_, ?_⟩
      · simp only [sjfRecord]
        rw [e']; simp only [sjfRecord]; omega
      · intro h3
        exact hI.pending c hc x hxrem h3
    · intro c hc q hq h3
      simp only [List.mem_append, List.mem_singleton] at hc
      rcases hc with hc | rfl
      · exact hI.pending c hc q (hsubset q hq) h3
      · simp only [sjfRecord, add_sub_cancel_right] at h3 ⊢
        rcases List.mem_append.1 hq with hq | hq
        · have := hA q hq h3
          exact ⟨le_of_lt this, fun h => absurd h (ne_of_lt this)⟩
        · refine ⟨hB q hq h3, fun _ => ?_⟩
          have h4 : [x, q].Sublist ps := by
            refine List.Sublist.trans ?_ hI.sub
            rw [e]; exact pair_sublist_of_mem A B x q hq
          exact h4.map Process.pid

theorem sjfRank_step (ps : List Process) (hv : ValidInput ps) (s : LoopState)
    (hI : SjfInv ps s) (hrun : s.running = true) :
    sjfRank ps (sjfBody s) < sjfRank ps s := by
  have hnd : (s.remaining_processes.map Process.pid).Nodup :=
    nodup_of_perm_append _ _ _ hI.perm hv.2.2
  cases h : sjfPick s with
  | none =>
    obtain ⟨hb, hall⟩ := sjfBody_idle s h
    rw [hb]
    cases hr : s.remaining_processes with
    | nil => simp [LoopState.running, hr] at hrun
    | cons q rest =>
      have hq : q ∈ s.remaining_processes := by rw [hr]; simp
      have h1 := hall q hq
      have h2 := le_maxArrival ps q (hI.sub.subset hq)
      simp only [sjfRank, hr]
      omega
  | some k =>
    obtain ⟨A, x, B, e, -, -, hxa, hA, hB, hbody⟩ := sjfBody_dispatch s k h hnd
    have hxps : x ∈ ps := hI.sub.subset (by rw [e]; simp)
    have := (hv.2.1 x hxps).2.2
    rw [hbody]
    simp only [sjfRank, e, List.length_append, List.length_cons]
    omega

/-- The loop of `sjf` on a valid input ends, in a state that satisfies the invariant and
has no remaining process. -/
theorem sjf_run (ps : List Process) (hv : ValidInput ps) :
    ∃ r : LoopState,
      (∀ fuel, ps.length + (maxArrival ps).toNat ≤ fuel →
        whileLoop LoopState.running sjfBody fuel (loopInit ps) = some r) ∧
      SjfInv ps r ∧ r.remaining_processes = [] := by
  obtain ⟨r, h1, h2, h3⟩ := whileLoop_result LoopState.running sjfBody (SjfInv ps)
    (sjfRank ps)
    (fun s hI hc => ⟨sjfInv_step ps hv s hI, sjfRank_step ps hv s hI hc⟩)
    (loopInit ps) (sjfInv_init ps)
  refine ⟨r, ?_, h2, ?_⟩
  · intro fuel hf
    apply h1
    simpa [sjfRank, loopInit] using hf
  · simpa [LoopState.running] using h3

theorem sjfInv_iterate (ps : List Process) (hv : ValidInput ps) (n : Nat) :
    SjfInv ps (sjfBody^[n] (loopInit ps)) := by
  induction n with
  | zero => exact sjfInv_init ps
  | succ n ih =>
    rw [Function.iterate_succ_apply']
    exact sjfInv_step ps hv _ ih

theorem sjf_eq (fuel : Nat) (ps : List Process) (r : LoopState)
    (h : whileLoop LoopState.running sjfBody fuel (loopInit ps) = some r) :
    (Scheduler.new ps).sjf fuel = some ⟨ps, r.completed_processes, r.current_time⟩ := by
  simp only [Scheduler.sjf, Scheduler.new]
  rw [show (LoopState.mk ps [] 0) = loopInit ps from rfl, h]
  rfl

/-! ## srtf: the loop invariant -/

theorem srtfTick_fields (p : Process) (t : Int) :
    (srtfTick p t).pid = p.pid ∧ (srtfTick p t).arrival_time = p.arrival_time ∧
    (srtfTick p t).burst_time = p.burst_time ∧
    (srtfTick p t).remaining_time = p.remaining_time - 1 := by
  unfold srtfTick
  split <;> simp

theorem finishRecord_fields (p : Process) (t : Int) :
    (finishRecord p t).pid = p.pid ∧ (finishRecord p t).arrival_time = p.arrival_time ∧
    (finishRecord p t).burst_time = p.burst_time ∧
    (finishRecord p t).remaining_time = p.remaining_time ∧
    (finishRecord p t).response_time = p.response_time ∧
    (finishRecord p t).completion_time = t ∧
    (finishRecord p t).turnaround_time =
      (finishRecord p t).completion_time - (finishRecord p t).arrival_time ∧
    (finishRecord p t).waiting_time =
      (finishRecord p t).turnaround_time - (finishRecord p t).burst_time := by
  simp [finishRecord]

/-- The effect of one iteration of `srtf` in which a process is run. -/
theorem srtfBody_dispatch (s : LoopState) (k : Nat) (h : srtfPick s = some k)
    (hnd : (s.remaining_processes.map Process.pid).Nodup) :
    ∃ A x B, s.remaining_processes = A ++ x :: B ∧ A.length = k ∧
      deref s.remaining_processes k = x ∧
      x.arrival_time ≤ s.current_time ∧
      (∀ y ∈ A, y.arrival_time ≤ s.current_time → x.remaining_time < y.remaining_time) ∧
      (∀ y ∈ B, y.arrival_time ≤ s.current_time → x.remaining_time ≤ y.remaining_time) ∧
      srtfBody s =
        if x.remaining_time - 1 = 0 then
          ⟨A ++ B, s.completed_processes ++
            [finishRecord (srtfTick x s.current_time) (s.current_time + 1)],
            s.current_time + 1⟩
        else
          ⟨A ++ srtfTick x s.current_time :: B, s.completed_processes,
            s.current_time + 1⟩ := by
  obtain ⟨A, x, B, e, hk, hx, h1, h2, h3⟩ :=
    pick_decomp Process.remaining_time s.remaining_processes s.current_time k h
  refine ⟨A, x, B, e, hk, hx, h1, h2, h3, ?_⟩
  have hf := srtfTick_fields x s.current_time
  have hrem := set_eraseRemoveIf A B x
    (finishRecord (srtfTick x s.current_time) (s.current_time + 1))
    (by simp [(finishRecord_fields _ _).1, hf.1]) (e ▸ hnd)
  have hset : (A ++ x :: B).set A.length (srtfTick x s.current_time) =
      A ++ srtfTick x s.current_time :: B := by
    rw [List.set_append_right _ _ (le_refl _)]; simp
  have hbody : srtfBody s =
      if (srtfTick x s.current_time).remaining_time = 0 then
        ⟨eraseRemoveIf k (s.remaining_processes.set k
            (finishRecord (srtfTick x s.current_time) (s.current_time + 1))),
          s.completed_processes ++
            [finishRecord (srtfTick x s.current_time) (s.current_time + 1)],
          s.current_time + 1⟩
      else
        ⟨s.remaining_processes.set k (srtfTick x s.current_time), s.completed_processes,
          s.current_time + 1⟩ := by
    simp only [srtfBody, h, hx]
    rfl
  rw [hbody, hf.2.2.2, ← hk, e, hrem, hset]

theorem srtfBody_idle (s : LoopState) (h : srtfPick s = none) :
    srtfBody s = { s with current_time := s.current_time + 1 } ∧
    ∀ p ∈ s.remaining_processes, s.current_time < p.arrival_time := by
  refine ⟨by simp [srtfBody, h], ?_⟩
  exact (pick_eq_none Process.remaining_time _ _).1 h

theorem srtfInv_init (ps : List Process) (hv : ValidInput ps) :
    SrtfInv ps (loopInit ps) where
  perm := by simp [loopInit]
  sub := List.Sublist.refl _
  live := by
    intro q hq
    obtain ⟨h1, h2, h3⟩ := hv.2.1 q hq
    refine ⟨q, hq, rfl, rfl, rfl, ?_, ?_⟩
    · rw [h1]; exact h3
    · rw [h1]; exact le_refl _
  done := by simp [loopInit]

theorem srtfInv_step (ps : List Process) (hv : ValidInput ps) (s : LoopState)
    (hI : SrtfInv ps s) : SrtfInv ps (srtfBody s) := by
  have hnd : (s.remaining_processes.map Process.pid).Nodup :=
    nodup_of_perm_append _ _ _ hI.perm hv.2.2
  cases h : srtfPick s with
  | none =>
    rw [(srtfBody_idle s h).1]
    exact ⟨hI.perm, hI.sub, hI.live, hI.done⟩
  | some k =>
    obtain ⟨A, x, B, e, -, -, hxa, hA, hB, hbody⟩ := srtfBody_dispatch s k h hnd
    have hxrem : x ∈ s.remaining_processes := by rw [e]; simp
    obtain ⟨p, hp, hx1, hx2, hx3, hx4, hx5⟩ := hI.live x hxrem
    obtain ⟨f1, f2, f3, f4⟩ := srtfTick_fields x s.current_time
    have hsubset : ∀ q ∈ A ++ B, q ∈ s.remaining_processes := by
      intro q hq
      rw [e]
      simp only [List.mem_append, List.mem_cons] at hq ⊢
      tauto
    rw [hbody]
    by_cases hz : x.remaining_time - 1 = 0
    · simp only [hz, if_true]
      obtain ⟨g1, g2, g3, g4, -, -, g7, g8⟩ :=
        finishRecord_fields (srtfTick x s.current_time) (s.current_time + 1)
      refine ⟨?_, ?_, ?_, ?_⟩
      · refine (perm_pids_step s.completed_processes A B x _ (by rw [g1, f1])).trans ?_
        rw [← e]; exact hI.perm
      · refine List.Sublist.trans ?_ hI.sub
        rw [e]
        exact (List.Sublist.append_left (List.sublist_cons_self x B) A).map _
      · intro q hq
        exact hI.live q (hsubset q hq)
      · intro c hc
        simp only [List.mem_append, List.mem_singleton] at hc
        rcases hc with hc | rfl
        · exact hI.done c hc
        · exact ⟨p, hp, by rw [g1, f1, hx1], by rw [g2, f2, hx2], by rw [g3, f3, hx3],
            by rw [g4, f4, hz], g7, g8⟩
    · simp only [hz, if_false]
      have hpid : (A ++ srtfTick x s.current_time :: B).map Process.pid =
          s.remaining_processes.map Process.pid := by
        rw [e]; simp [f1]
      refine ⟨?_, ?_, ?_, hI.done⟩
      · simp only [hpid]; exact hI.perm
      · simp only [hpid]; exact hI.sub
      · intro q hq
        simp only [List.mem_append, List.mem_cons] at hq
        rcases hq with hq | rfl | hq
        · exact hI.live q (by rw [e]; simp [hq])
        · exact ⟨p, hp, by rw [f1, hx1], by rw [f2, hx2], by rw [f3, hx3],
            by rw [f4]; omega, by rw [f4, f3]; omega⟩
        · exact hI.live q (by rw [e]; simp [hq])

theorem sumRemaining_append (A B : List Process) :
    sumRemaining (A ++ B) = sumRemaining A + sumRemaining B := by
  simp [sumRemaining]

theorem sumRemaining_cons (x : Process) (B : List Process) :
    sumRemaining (x :: B) = x.remaining_time.toNat + sumRemaining B := by
  simp [sumRemaining]

theorem live_arrival_le (ps : List Process) (s : LoopState) (hI : SrtfInv ps s)
    (q : Process) (hq : q ∈ s.remaining_processes) : q.arrival_time ≤ maxArrival ps := by
  obtain ⟨p, hp, -, h2, -⟩ := hI.live q hq
  rw [h2]; exact le_maxArrival ps p hp

theorem srtfRank_step (ps : List Process) (hv : ValidInput ps) (s : LoopState)
    (hI : SrtfInv ps s) (hrun : s.running = true) :
    srtfRank ps (srtfBody s) < srtfRank ps s := by
  have hnd : (s.remaining_processes.map Process.pid).Nodup :=
    nodup_of_perm_append _ _ _ hI.perm hv.2.2
  cases h : srtfPick s with
  | none =>
    obtain ⟨hb, hall⟩ := srtfBody_idle s h
    rw [hb]
    cases hr : s.remaining_processes with
    | nil => simp [LoopState.running, hr] at hrun
    | cons q rest =>
      have hq : q ∈ s.remaining_processes := by rw [hr]; simp
      have h1 := hall q hq
      have h2 := live_arrival_le ps s hI q hq
      simp only [srtfRank, hr]
      omega
  | some k =>
    obtain ⟨A, x, B, e, -, -, hxa, hA, hB, hbody⟩ := srtfBody_dispatch s k h hnd
    have hxrem : x ∈ s.remaining_processes := by rw [e]; simp
    obtain ⟨p, hp, hx1, hx2, hx3, hx4, hx5⟩ := hI.live x hxrem
    obtain ⟨f1, f2, f3, f4⟩ := srtfTick_fields x s.current_time
    rw [hbody]
    by_cases hz : x.remaining_time - 1 = 0
    · simp only [hz, if_true, srtfRank, e, sumRemaining_append, sumRemaining_cons]
      omega
    · simp only [hz, if_false, srtfRank, e, sumRemaining_append, sumRemaining_cons, f4]
      omega

/-- The loop of `srtf` on a valid input ends, in a state that satisfies the invariant
and has no remaining process. -/
theorem srtf_run (ps : List Process) (hv : ValidInput ps) :
    ∃ r : LoopState,
      (∀ fuel, sumRemaining ps + (maxArrival ps).toNat ≤ fuel →
        whileLoop LoopState.running srtfBody fuel (loopInit ps) = some r) ∧
      SrtfInv ps r ∧ r.remaining_processes = [] := by
  obtain ⟨r, h1, h2, h3⟩ := whileLoop_result LoopState.running srtfBody (SrtfInv ps)
    (srtfRank ps)
    (fun s hI hc => ⟨srtfInv_step ps hv s hI, srtfRank_step ps hv s hI hc⟩)
    (loopInit ps) (srtfInv_init ps hv)
  refine ⟨r, ?_, h2, ?_⟩
  · intro fuel hf
    apply h1
    simpa [srtfRank, loopInit] using hf
  · simpa [LoopState.running] using h3

theorem srtfInv_iterate (ps : List Process) (hv : ValidInput ps) (n : Nat) :
    SrtfInv ps (srtfBody^[n] (loopInit ps)) := by
  induction n with
  | zero => exact srtfInv_init ps hv
  | succ n ih =>
    rw [Function.iterate_succ_apply']
    exact srtfInv_step ps hv _ ih

theorem srtf_eq (fuel : Nat) (ps : List Process) (r : LoopState)
    (h : whileLoop LoopState.running srtfBody fuel (loopInit ps) = some r) :
    (Scheduler.new ps).srtf fuel = some ⟨ps, r.completed_processes, r.current_time⟩ := by
  simp only [Scheduler.srtf, Scheduler.new]
  rw [show (LoopState.mk ps [] 0) = loopInit ps from rfl, h]
  rfl

/-! ## fcfs: the loop -/

theorem fcfsLoop_eq (todo : List Process) :
    ∀ (done completed : List Process) (t : Int),
      fcfsLoop todo done completed t =
        ⟨done ++ fcfsRecords t todo, completed ++ fcfsRecords t todo, fcfsClock t todo⟩ := by
  induction todo with
  | nil => intro done completed t; simp [fcfsLoop, fcfsRecords, fcfsClock]
  | cons p rest ih =>
    intro done completed t
    simp only [fcfsLoop, fcfsRecords, fcfsClock, ih]
    simp

theorem fcfs_eq (sort : List Process → List Process) (ps : List Process) :
    (Scheduler.new ps).fcfs sort =
      ⟨fcfsRecords 0 (sort ps), fcfsRecords 0 (sort ps), fcfsClock 0 (sort ps)⟩ := by
  simp [Scheduler.fcfs, Scheduler.new, fcfsLoop_eq]

theorem fcfsBody_eq (t : Int) (p : Process) :
    fcfsBody t p = (sjfRecord p (max t p.arrival_time), max t p.arrival_time + p.burst_time) := by
  unfold fcfsBody
  by_cases h : t < p.arrival_time
  · simp only [h, if_true, max_eq_right (le_of_lt h)]; rfl
  · simp only [h, if_false, max_eq_left (not_lt.1 h)]; rfl

theorem fcfsRecords_pid (l : List Process) :
    ∀ t, (fcfsRecords t l).map Process.pid = l.map Process.pid := by
  induction l with
  | nil => intro t; rfl
  | cons p rest ih =>
    intro t
    simp only [fcfsRecords, List.map_cons, ih, fcfsBody_eq]
    rfl

theorem fcfsRecords_arrival (l : List Process) :
    ∀ t, (fcfsRecords t l).map Process.arrival_time = l.map Process.arrival_time := by
  induction l with
  | nil => intro t; rfl
  | cons p rest ih =>
    intro t
    simp only [fcfsRecords, List.map_cons, ih, fcfsBody_eq]
    rfl

theorem fcfsRecords_mem (l : List Process) :
    ∀ t c, c ∈ fcfsRecords t l → ∃ p ∈ l, ∃ d, c = sjfRecord p d ∧ p.arrival_time ≤ d := by
  induction l with
  | nil => intro t c h; simp [fcfsRecords] at h
  | cons p rest ih =>
    intro t c h
    simp only [fcfsRecords, List.mem_cons, fcfsBody_eq] at h
    rcases h with rfl | h
    · exact ⟨p, by simp, _, rfl, le_max_right _ _⟩
    · obtain ⟨q, hq, d, e, hd⟩ := ih _ c h
      exact ⟨q, by simp [hq], d, e, hd⟩

theorem fcfsRecords_completion (l : List Process) :
    ∀ t, (fcfsRecords t l).map Process.completion_time = fcfsCompletionTimes t l := by
  induction l with
  | nil => intro t; rfl
  | cons p rest ih =>
    intro t
    simp only [fcfsRecords, List.map_cons, ih, fcfsBody_eq, fcfsCompletionTimes]
    rfl

theorem fcfsClock_eq (l : List Process) :
    ∀ t, fcfsClock t l = (fcfsCompletionTimes t l).getLastD t := by
  induction l with
  | nil => intro t; rfl
  | cons p rest ih =>
    intro t
    simp only [fcfsClock, ih, fcfsBody_eq, fcfsCompletionTimes]
    cases rest with
    | nil => simp [fcfsCompletionTimes]
    | cons q rest =>
      simp only [fcfsCompletionTimes, List.getLastD_eq_getLast?]
      rw [List.getLast?_eq_getLast _ (List.cons_ne_nil _ _),
        List.getLast?_eq_getLast _ (List.cons_ne_nil _ _)]
      simp

/-- Two arrangements of the same processes that are both in `arrival_time` order are
equal when the arrival times are pairwise distinct. -/
theorem sorted_unique (l₁ l₂ : List Process) (hp : l₁.Perm l₂)
    (h₁ : l₁.Pairwise (fun a b => ¬ (b.arrival_time < a.arrival_time)))
    (h₂ : l₂.Pairwise (fun a b => a.arrival_time < b.arrival_time)) : l₁ = l₂ := by
  have hnd : l₂.Pairwise (fun a b => a.arrival_time ≠ b.arrival_time) :=
    h₂.imp (fun h => ne_of_lt h)
  have hnd₁ : l₁.Pairwise (fun a b => a.arrival_time ≠ b.arrival_time) :=
    hp.symm.pairwise hnd (fun h => fun e => h e.symm)
  have h₁' : l₁.Pairwise (fun a b => a.arrival_time < b.arrival_time) := by
    have := h₁.and hnd₁
    exact this.imp (fun h => lt_of_le_of_ne (not_lt.1 h.1) h.2)
  haveI : IsAntisymm Process (fun a b => a.arrival_time < b.arrival_time) :=
    ⟨fun a b h1 h2 => absurd h1 (not_lt.2 (le_of_lt h2))⟩
  exact List.eq_of_perm_of_sorted hp h₁' h₂

theorem insertionSortByArrival_spec : StdSortSpec insertionSortByArrival := by
  intro l
  refine ⟨List.perm_insertionSort _ l, ?_⟩
  haveI : IsTotal Process (fun a b => a.arrival_time ≤ b.arrival_time) :=
    ⟨fun a b => le_total _ _⟩
  haveI : IsTrans Process (fun a b => a.arrival_time ≤ b.arrival_time) :=
    ⟨fun a b c h1 h2 => le_trans h1 h2⟩
  have := List.sorted_insertionSort (fun a b : Process => a.arrival_time ≤ b.arrival_time) l
  exact List.Pairwise.imp (fun h => not_lt.2 h) this

/-! ## round_robin: the arrival loops -/

theorem length_vectorErase (buf : List Process) (size i : Nat) (hi : i < size)
    (hs : size ≤ buf.length) : (vectorErase buf size i).length = buf.length := by
  simp only [vectorErase, List.length_append, List.length_take, List.length_drop]
  omega

theorem mem_vectorErase (buf : List Process) (size i : Nat) (x : Process)
    (h : x ∈ vectorErase buf size i) : x ∈ buf := by
  simp only [vectorErase, List.mem_append] at h
  rcases h with (h | h) | h
  · exact List.mem_of_mem_take h
  · exact List.mem_of_mem_drop (List.mem_of_mem_take h)
  · exact List.mem_of_mem_drop h

/-- What the arrival loop does to the vector and the queue: it only moves records between
slots, every element it erases has its address pushed, and when it erases nothing the
elements from `it` on have not arrived yet. -/
theorem pushArrivedLoop_spec (t : Int) :
    ∀ (fuel it : Nat) (buf : List Process) (size : Nat) (queue : List Nat),
      size ≤ buf.length → size - it ≤ fuel →
      (pushArrivedLoop t fuel it (buf, size, queue)).1.length = buf.length ∧
      (∀ x ∈ (pushArrivedLoop t fuel it (buf, size, queue)).1, x ∈ buf) ∧
      (pushArrivedLoop t fuel it (buf, size, queue)).2.1 ≤ size ∧
      (∃ adm, (pushArrivedLoop t fuel it (buf, size, queue)).2.2 = queue ++ adm ∧
        (pushArrivedLoop t fuel it (buf, size, queue)).2.1 + adm.length = size ∧
        ∀ e ∈ adm, e < size) ∧
      ((pushArrivedLoop t fuel it (buf, size, queue)).2.1 = size →
        (pushArrivedLoop t fuel it (buf, size, queue)).1 = buf ∧
        (pushArrivedLoop t fuel it (buf, size, queue)).2.2 = queue ∧
        ∀ i, it ≤ i → i < size → t < (deref buf i).arrival_time) := by
  intro fuel
  induction fuel with
  | zero =>
    intro it buf size queue _ hf
    simp only [pushArrivedLoop]
    exact ⟨trivial, fun x h => h, le_refl _, ⟨[], by simp⟩,
      fun _ => ⟨trivial, trivial, fun i h1 h2 => by omega⟩⟩
  | succ n ih =>
    intro it buf size queue hs hf
    by_cases hit : it < size
    · by_cases ha : (deref buf it).arrival_time ≤ t
      · simp only [pushArrivedLoop, hit, ha, if_true]
        have hlen := length_vectorErase buf size it hit hs
        obtain ⟨h1, h2, h3, ⟨adm, h4, h5, h6⟩, -⟩ :=
          ih it (vectorErase buf size it) (size - 1) (queue ++ [it])
            (by rw [hlen]; omega) (by omega)
        refine ⟨by rw [h1, hlen], fun x hx => mem_vectorErase _ _ _ _ (h2 x hx),
          by omega, ⟨it :: adm, by rw [h4]; simp, by simp only [List.length_cons]; omega,
            ?_⟩, fun h => by omega⟩
        intro e he
        rcases List.mem_cons.1 he with rfl | he
        · exact hit
        · have := h6 e he; omega
      · simp only [pushArrivedLoop, hit, ha, if_true, if_false]
        obtain ⟨h1, h2, h3, h4, h5⟩ := ih (it + 1) buf size queue hs (by omega)
        refine ⟨h1, h2, h3, h4, fun h => ?_⟩
        obtain ⟨h6, h7, h8⟩ := h5 h
        refine ⟨h6, h7, fun i hi1 hi2 => ?_⟩
        rcases Nat.eq_or_lt_of_le hi1 with rfl | hlt
        · exact not_le.1 ha
        · exact h8 i hlt hi2
    · simp only [pushArrivedLoop, hit, if_false]
      exact ⟨trivial, fun x h => h, le_refl _, ⟨[], by simp⟩,
        fun _ => ⟨trivial, trivial, fun i h1 h2 => by omega⟩⟩

/-- Form of `pushArrivedLoop_spec` for a whole arrival loop. -/
theorem pushArrived_spec (s : RRState) (hs : s.size ≤ s.buf.length) :
    (pushArrived s).buf.length = s.buf.length ∧
    (∀ x ∈ (pushArrived s).buf, x ∈ s.buf) ∧
    (pushArrived s).size ≤ s.size ∧
    (∃ adm, (pushArrived s).queue = s.queue ++ adm ∧ (pushArrived s).size + adm.length = s.size ∧
      ∀ e ∈ adm, e < s.size) ∧
    ((pushArrived s).size = s.size →
      pushArrived s = s ∧ ∀ i, i < s.size → s.current_time < (deref s.buf i).arrival_time) ∧
    (pushArrived s).completed_processes = s.completed_processes ∧
    (pushArrived s).current_time = s.current_time := by
  obtain ⟨h1, h2, h3, h4, h5⟩ :=
    pushArrivedLoop_spec s.current_time s.size 0 s.buf s.size s.queue hs (by omega)
  refine ⟨h1, h2, h3, h4, fun h => ?_, rfl, rfl⟩
  obtain ⟨h6, h7, h8⟩ := h5 h
  refine ⟨?_, fun i hi => h8 i (Nat.zero_le _) hi⟩
  simp only [pushArrived] at h h6 h7 ⊢
  rw [h6, h7, h]

/-! ## round_robin: the loop invariant -/

theorem le_maxBurst (ps : List Process) (p : Process) (h : p ∈ ps) :
    p.burst_time ≤ maxBurst ps := by
  induction ps with
  | nil => simp at h
  | cons a ps ih =>
    simp only [maxBurst, List.foldr_cons]
    rcases List.mem_cons.1 h with rfl | h
    · exact le_max_left _ _
    · exact le_trans (ih h) (le_max_right _ _)

theorem rrSlice_fields (q : Int) (p : Process) (t : Int) :
    (rrSlice q p t).pid = p.pid ∧ (rrSlice q p t).arrival_time = p.arrival_time ∧
    (rrSlice q p t).burst_time = p.burst_time ∧
    (rrSlice q p t).remaining_time = p.remaining_time - min q p.remaining_time := by
  unfold rrSlice
  split <;> simp

theorem rrDispatch_eq (q : Int) (s : RRState) (h : Nat) (tl : List Nat)
    (hq : s.queue = h :: tl) :
    rrDispatch q s =
      if (deref s.buf h).remaining_time - min q (deref s.buf h).remaining_time = 0 then
        ⟨s.buf.set h (finishRecord (rrSlice q (deref s.buf h) s.current_time)
            (s.current_time + min q (deref s.buf h).remaining_time)),
          s.size, tl,
          s.completed_processes ++ [finishRecord (rrSlice q (deref s.buf h) s.current_time)
            (s.current_time + min q (deref s.buf h).remaining_time)],
          s.current_time + min q (deref s.buf h).remaining_time⟩
      else
        ⟨s.buf.set h (rrSlice q (deref s.buf h) s.current_time), s.size, tl ++ [h],
          s.completed_processes,
          s.current_time + min q (deref s.buf h).remaining_time⟩ := by
  obtain ⟨buf, size, queue, comp, t⟩ := s
  simp only at hq
  subst hq
  by_cases hresp : (deref buf h).response_time = -1
  · simp only [rrDispatch, rrSlice, hresp, if_true]
    rfl
  · simp only [rrDispatch, rrSlice, hresp, if_false]
    rfl

theorem rrInv_init (ps : List Process) (hv : ValidInput ps) : RRInv ps (rrInit ps) where
  len := rfl
  size_le := by simp [rrInit]
  qvalid := by simp [rrInit]
  slots := by
    intro q hq
    obtain ⟨h1, h2, h3⟩ := hv.2.1 q hq
    refine ⟨q, hq, rfl, rfl, rfl, ?_, ?_⟩
    · rw [h1]; exact le_of_lt h3
    · rw [h1]; exact le_refl _
  done := by simp [rrInit]

theorem rrInv_pushArrived (ps : List Process) (s : RRState) (hI : RRInv ps s) :
    RRInv ps (pushArrived s) := by
  have hs : s.size ≤ s.buf.length := by have := hI.size_le; rw [hI.len]; omega
  obtain ⟨h1, h2, h3, ⟨adm, h4, h5, h6⟩, -, h8, -⟩ := pushArrived_spec s hs
  refine ⟨by rw [h1, hI.len], ?_, ?_, fun p hp => hI.slots p (h2 p hp), ?_⟩
  · rw [h4, List.length_append]
    have := hI.size_le
    omega
  · intro e he
    rw [h4, List.mem_append] at he
    rcases he with he | he
    · exact hI.qvalid e he
    · have := h6 e he
      have := hI.size_le
      omega
  · rw [h8]; exact hI.done

theorem rrInv_dispatch (ps : List Process) (q : Int) (hq : 0 < q) (s : RRState)
    (hI : RRInv ps s) : RRInv ps (rrDispatch q s) := by
  cases hqueue : s.queue with
  | nil => simp only [rrDispatch, hqueue]; exact hI
  | cons h tl =>
    have hh : h < s.buf.length := by
      rw [hI.len]; exact hI.qvalid h (by rw [hqueue]; simp)
    obtain ⟨p0, hp0, a1, a2, a3, a4, a5⟩ := hI.slots _ (deref_mem s.buf h hh)
    obtain ⟨f1, f2, f3, f4⟩ := rrSlice_fields q (deref s.buf h) s.current_time
    have hmin : 0 ≤ min q (deref s.buf h).remaining_time := le_min (le_of_lt hq) a4
    have hmin' : min q (deref s.buf h).remaining_time ≤ (deref s.buf h).remaining_time :=
      min_le_right _ _
    have hsl := hI.size_le
    rw [hqueue] at hsl
    simp only [List.length_cons] at hsl
    rw [rrDispatch_eq q s h tl hqueue]
    by_cases hz : (deref s.buf h).remaining_time -
        min q (deref s.buf h).remaining_time = 0
    · simp only [hz, if_true]
      obtain ⟨g1, g2, g3, g4, -, -, g7, g8⟩ :=
        finishRecord_fields (rrSlice q (deref s.buf h) s.current_time)
          (s.current_time + min q (deref s.buf h).remaining_time)
      have hrec : ∃ p0 ∈ ps,
          (finishRecord (rrSlice q (deref s.buf h) s.current_time)
            (s.current_time + min q (deref s.buf h).remaining_time)).pid = p0.pid ∧
          (finishRecord (rrSlice q (deref s.buf h) s.current_time)
            (s.current_time + min q (deref s.buf h).remaining_time)).arrival_time =
              p0.arrival_time ∧
          (finishRecord (rrSlice q (deref s.buf h) s.current_time)
            (s.current_time + min q (deref s.buf h).remaining_time)).burst_time =
              p0.burst_time ∧
          (finishRecord (rrSlice q (deref s.buf h) s.current_time)
            (s.current_time + min q (deref s.buf h).remaining_time)).remaining_time = 0 :=
        ⟨p0, hp0, by rw [g1, f1, a1], by rw [g2, f2, a2], by rw [g3, f3, a3],
          by rw [g4, f4, hz]⟩
      refine ⟨by simp [hI.len], by simp only; omega, ?_, ?_, ?_⟩
      · intro e he
        exact hI.qvalid e (by rw [hqueue]; simp [he])
      · intro p hp
        rcases List.mem_or_eq_of_mem_set hp with hp | rfl
        · exact hI.slots p hp
        · obtain ⟨p1, hp1, b1, b2, b3, b4⟩ := hrec
          exact ⟨p1, hp1, b1, b2, b3, by rw [b4], by rw [b4, g3, f3]; omega⟩
      · intro c hc
        simp only [List.mem_append, List.mem_singleton] at hc
        rcases hc with hc | rfl
        · exact hI.done c hc
        · obtain ⟨p1, hp1, b1, b2, b3, b4⟩ := hrec
          exact ⟨p1, hp1, b1, b2, b3, b4, g7, g8⟩
    · simp only [hz, if_false]
      refine ⟨by simp [hI.len], by simp only [List.length_append, List.length_singleton]; omega,
        ?_, ?_, hI.done⟩
      · intro e he
        exact hI.qvalid e (by
          rw [hqueue]
          simp only [List.mem_append, List.mem_singleton] at he
          rcases he with he | rfl <;> simp [*])
      · intro p hp
        rcases List.mem_or_eq_of_mem_set hp with hp | rfl
        · exact hI.slots p hp
        · exact ⟨p0, hp0, by rw [f1, a1], by rw [f2, a2], by rw [f3, a3],
            by rw [f4]; omega, by rw [f4, f3]; omega⟩

theorem rrInv_step (ps : List Process) (q : Int) (hq : 0 < q) (s : RRState)
    (hI : RRInv ps s) : RRInv ps (rrBody q s) := by
  have h1 := rrInv_pushArrived ps s hI
  unfold rrBody
  by_cases he : (pushArrived s).queue.isEmpty = true
  · simp only [he, if_true]
    exact ⟨h1.len, h1.size_le, h1.qvalid, h1.slots, h1.done⟩
  · simp only [he]
    exact rrInv_pushArrived ps _ (rrInv_dispatch ps q hq _ h1)

/-! ## round_robin: termination -/

theorem queueWork_mono (buf₁ buf₂ : List Process) (queue : List Nat)
    (h : ∀ e ∈ queue, (deref buf₂ e).remaining_time.toNat ≤
      (deref buf₁ e).remaining_time.toNat) :
    queueWork buf₂ queue ≤ queueWork buf₁ queue := by
  induction queue with
  | nil => simp [queueWork]
  | cons e tl ih =>
    have h1 := h e (by simp)
    have h2 := ih (fun e' he' => h e' (by simp [he']))
    simp only [queueWork, List.map_cons, List.sum_cons] at h2 ⊢
    omega

theorem queueWork_bound (buf : List Process) (queue : List Nat) (B : Nat)
    (h : ∀ e ∈ queue, (deref buf e).remaining_time.toNat ≤ B) :
    queueWork buf queue ≤ queue.length * (1 + B) := by
  induction queue with
  | nil => simp [queueWork]
  | cons e tl ih =>
    have h1 := h e (by simp)
    have h2 := ih (fun e' he' => h e' (by simp [he']))
    simp only [queueWork, List.map_cons, List.sum_cons, List.length_cons] at h2 ⊢
    rw [Nat.succ_mul]
    omega

theorem queueWork_append (buf : List Process) (q₁ q₂ : List Nat) :
    queueWork buf (q₁ ++ q₂) = queueWork buf q₁ + queueWork buf q₂ := by
  simp [queueWork]

theorem deref_set_self (buf : List Process) (h : Nat) (p : Process) (hh : h < buf.length) :
    deref (buf.set h p) h = p := by
  simp [deref, hh]

theorem deref_set_ne (buf : List Process) (h e : Nat) (p : Process) (hne : e ≠ h) :
    deref (buf.set h p) e = deref buf e := by
  simp [deref, List.getElem?_set_ne (Ne.symm hne)]

theorem rrInv_queueWork (ps : List Process) (s : RRState) (hI : RRInv ps s) :
    queueWork s.buf s.queue ≤ ps.length * (1 + (maxBurst ps).toNat) := by
  have h1 : queueWork s.buf s.queue ≤ s.queue.length * (1 + (maxBurst ps).toNat) := by
    apply queueWork_bound
    intro e he
    have hh : e < s.buf.length := by rw [hI.len]; exact hI.qvalid e he
    obtain ⟨p0, hp0, -, -, a3, a4, a5⟩ := hI.slots _ (deref_mem s.buf e hh)
    have := le_maxBurst ps p0 hp0
    omega
  have h2 : s.queue.length ≤ ps.length := by have := hI.size_le; omega
  exact le_trans h1 (Nat.mul_le_mul_right _ h2)

/-- A dispatch lowers the queued work and does not turn the clock back. -/
theorem rrDispatch_work (ps : List Process) (q : Int) (hq : 0 < q) (s : RRState)
    (hI : RRInv ps s) (hne : s.queue ≠ []) :
    queueWork (rrDispatch q s).buf (rrDispatch q s).queue < queueWork s.buf s.queue ∧
    s.current_time ≤ (rrDispatch q s).current_time ∧
    (rrDispatch q s).size = s.size := by
  cases hqueue : s.queue with
  | nil => exact absurd hqueue hne
  | cons h tl =>
    have hh : h < s.buf.length := by
      rw [hI.len]; exact hI.qvalid h (by rw [hqueue]; simp)
    obtain ⟨p0, hp0, a1, a2, a3, a4, a5⟩ := hI.slots _ (deref_mem s.buf h hh)
    obtain ⟨f1, f2, f3, f4⟩ := rrSlice_fields q (deref s.buf h) s.current_time
    have hmin : 0 ≤ min q (deref s.buf h).remaining_time := le_min (le_of_lt hq) a4
    have hmin' : min q (deref s.buf h).remaining_time ≤ (deref s.buf h).remaining_time :=
      min_le_right _ _
    have hmono : ∀ (p : Process), p.remaining_time ≤ (deref s.buf h).remaining_time →
        ∀ e ∈ tl, (deref (s.buf.set h p) e).remaining_time.toNat ≤
          (deref s.buf e).remaining_time.toNat := by
      intro p hp e _
      by_cases he : e = h
      · subst he
        rw [deref_set_self _ _ _ hh]
        omega
      · rw [deref_set_ne _ _ _ _ he]
    rw [rrDispatch_eq q s h tl hqueue]
    by_cases hz : (deref s.buf h).remaining_time -
        min q (deref s.buf h).remaining_time = 0
    · simp only [hz, if_true]
      refine ⟨?_, by omega, trivial⟩
      have := queueWork_mono s.buf (s.buf.set h
        (finishRecord (rrSlice q (deref s.buf h) s.current_time)
          (s.current_time + min q (deref s.buf h).remaining_time))) tl
        (hmono _ (by rw [(finishRecord_fields _ _).2.2.2.1, f4]; omega))
      have h2 : queueWork s.buf (h :: tl) =
          1 + (deref s.buf h).remaining_time.toNat + queueWork s.buf tl := by
        simp [queueWork]
      omega
    · simp only [hz, if_false]
      refine ⟨?_, by omega, trivial⟩
      have := queueWork_mono s.buf (s.buf.set h
        (rrSlice q (deref s.buf h) s.current_time)) tl
        (hmono _ (by rw [f4]; omega))
      have h2 : queueWork s.buf (h :: tl) =
          1 + (deref s.buf h).remaining_time.toNat + queueWork s.buf tl := by
        simp [queueWork]
      have h3 : queueWork (s.buf.set h (rrSlice q (deref s.buf h) s.current_time)) [h] =
          1 + ((deref s.buf h).remaining_time -
            min q (deref s.buf h).remaining_time).toNat := by
        simp [queueWork, deref_set_self _ _ _ hh, f4]
      have h4 : 1 ≤ min q (deref s.buf h).remaining_time := by
        rcases le_total q (deref s.buf h).remaining_time with hle | hle
        · rw [min_eq_left hle]; omega
        · rw [min_eq_right hle] at hz ⊢; omega
      rw [queueWork_append, h3]
      omega

theorem rrRank_step (ps : List Process) (q : Int) (hq : 0 < q) (s : RRState)
    (hI : RRInv ps s) (hrun : s.running = true) :
    rrRank ps (rrBody q s) < rrRank ps s := by
  have hs : s.size ≤ s.buf.length := by have := hI.size_le; rw [hI.len]; omega
  have hI1 := rrInv_pushArrived ps s hI
  obtain ⟨-, hsub, hsz, ⟨adm, hadm, hadm2, -⟩, hsame, -, htime⟩ := pushArrived_spec s hs
  unfold rrBody
  by_cases he : (pushArrived s).queue.isEmpty = true
  · simp only [he, if_true]
    have hq1 : (pushArrived s).queue = [] := by simpa using he
    rw [hq1] at hadm
    have hq0 : s.queue = [] := (List.append_eq_nil.1 hadm.symm).1
    have hadm0 : adm = [] := (List.append_eq_nil.1 hadm.symm).2
    have hsize : (pushArrived s).size = s.size := by rw [hadm0] at hadm2; simpa using hadm2
    obtain ⟨heq, hall⟩ := hsame hsize
    have hpos : 0 < s.size := by
      simp only [RRState.running, hq0, List.isEmpty_nil, Bool.not_true, Bool.or_false,
        Bool.not_eq_true', beq_eq_false_iff_ne, ne_eq] at hrun
      omega
    have h1 := hall 0 hpos
    obtain ⟨p0, hp0, -, a2, -⟩ := hI.slots _ (deref_mem s.buf 0 (by omega))
    have h2 := le_maxArrival ps p0 hp0
    simp only [rrRank, heq]
    omega
  · simp only [he, Bool.false_eq_true, if_false]
    have hne : (pushArrived s).queue ≠ [] := by simpa using he
    have hI2 := rrInv_dispatch ps q hq _ hI1
    obtain ⟨hw, ht, hsz2⟩ := rrDispatch_work ps q hq (pushArrived s) hI1 hne
    have hs2 : (rrDispatch q (pushArrived s)).size ≤ (rrDispatch q (pushArrived s)).buf.length := by
      have := hI2.size_le; rw [hI2.len]; omega
    obtain ⟨-, -, hsz3, -, hsame3, -, htime3⟩ := pushArrived_spec (rrDispatch q (pushArrived s)) hs2
    have hI3 := rrInv_pushArrived ps _ hI2
    have hb3 := rrInv_queueWork ps _ hI3
    simp only [rrRank]
    rw [htime3]
    rw [htime] at ht
    by_cases hfix : (pushArrived (rrDispatch q (pushArrived s))).size = s.size
    · have e1 : (pushArrived (rrDispatch q (pushArrived s))).size = (rrDispatch q (pushArrived s)).size := by
        omega
      have e2 : (pushArrived s).size = s.size := by omega
      have a1 := (hsame3 e1).1
      have a2 := (hsame e2).1
      rw [a1]
      rw [a2] at hw hsz2 ht ⊢
      rw [hsz2]
      omega
    · have hlt : (pushArrived (rrDispatch q (pushArrived s))).size + 1 ≤ s.size := by omega
      have := Nat.mul_le_mul_right (ps.length * (1 + (maxBurst ps).toNat) + 1) hlt
      rw [Nat.add_mul] at this
      omega

/-- The loop of `round_robin` on a valid input with a positive quantum ends, in a state
that satisfies the invariant. -/
theorem rr_run (ps : List Process) (hv : ValidInput ps) (q : Int) (hq : 0 < q) :
    ∃ r : RRState,
      (∀ fuel, rrFuel ps ≤ fuel →
        whileLoop RRState.running (rrBody q) fuel (rrInit ps) = some r) ∧
      RRInv ps r ∧ r.size = 0 ∧ r.queue = [] := by
  obtain ⟨r, h1, h2, h3⟩ := whileLoop_result RRState.running (rrBody q) (RRInv ps)
    (rrRank ps)
    (fun s hI hc => ⟨rrInv_step ps q hq s hI, rrRank_step ps q hq s hI hc⟩)
    (rrInit ps) (rrInv_init ps hv)
  refine ⟨r, ?_, h2, ?_⟩
  · intro fuel hf
    apply h1
    simpa [rrRank, rrInit, rrFuel, queueWork] using hf
  · simpa [RRState.running] using h3

theorem rr_eq (q : Int) (fuel : Nat) (ps : List Process) (r : RRState)
    (h : whileLoop RRState.running (rrBody q) fuel (rrInit ps) = some r) :
    (Scheduler.new ps).round_robin q fuel =
      some ⟨ps, r.completed_processes, r.current_time⟩ := by
  simp only [Scheduler.round_robin, Scheduler.new]
  rw [show (RRState.mk ps ps.length [] [] 0) = rrInit ps from rfl, h]
  rfl

/-! ## The claims -/

/-- C1: for every valid input, `fcfs`, `sjf` and `srtf` terminate and the pids of
`completed_processes` are a rearrangement of the input pids, so every input process is
appended exactly once and nothing else is appended. For `fcfs` the sort may be any
that meets the contract of `std::sort`. -/
theorem completed_pids_perm (sort : List Process → List Process)
    (hsort : StdSortSpec sort) (ps : List Process) (hv : ValidInput ps) :
    ((((Scheduler.new ps).fcfs sort).completed_processes.map Process.pid).Perm
        (ps.map Process.pid) ∧
      (((Scheduler.new ps).fcfs sort).completed_processes.map Process.pid).Nodup) ∧
    (∃ r : Scheduler,
      (∀ fuel, ps.length + (maxArrival ps).toNat ≤ fuel →
        (Scheduler.new ps).sjf fuel = some r) ∧
      (r.completed_processes.map Process.pid).Perm (ps.map Process.pid) ∧
      (r.completed_processes.map Process.pid).Nodup) ∧
    (∃ r : Scheduler,
      (∀ fuel, sumRemaining ps + (maxArrival ps).toNat ≤ fuel →
        (Scheduler.new ps).srtf fuel = some r) ∧
      (r.completed_processes.map Process.pid).Perm (ps.map Process.pid) ∧
      (r.completed_processes.map Process.pid).Nodup) := by
  refine ⟨?_, ?_, ?_⟩
  · have hp : (((Scheduler.new ps).fcfs sort).completed_processes.map Process.pid).Perm
        (ps.map Process.pid) := by
      rw [fcfs_eq]
      simp only [fcfsRecords_pid]
      exact (hsort ps).1.map _
    exact ⟨hp, hp.nodup_iff.2 hv.2.2⟩
  · obtain ⟨r, h1, h2, h3⟩ := sjf_run ps hv
    have hp : (r.completed_processes.map Process.pid).Perm (ps.map Process.pid) := by
      have := h2.perm
      rwa [h3, List.map_nil, List.append_nil] at this
    exact ⟨⟨ps, r.completed_processes, r.current_time⟩,
      fun fuel hf => sjf_eq fuel ps r (h1 fuel hf), hp, hp.nodup_iff.2 hv.2.2⟩
  · obtain ⟨r, h1, h2, h3⟩ := srtf_run ps hv
    have hp : (r.completed_processes.map Process.pid).Perm (ps.map Process.pid) := by
      have := h2.perm
      rwa [h3, List.map_nil, List.append_nil] at this
    exact ⟨⟨ps, r.completed_processes, r.current_time⟩,
      fun fuel hf => srtf_eq fuel ps r (h1 fuel hf), hp, hp.nodup_iff.2 hv.2.2⟩

/-- C1 on the demo dataset. -/
theorem completed_pids_perm_witness :
    StdSortSpec insertionSortByArrival ∧ ValidInput demo ∧
    ∃ r : Scheduler,
      (∀ fuel, demo.length + (maxArrival demo).toNat ≤ fuel →
        (Scheduler.new demo).sjf fuel = some r) ∧
      (r.completed_processes.map Process.pid).Perm (demo.map Process.pid) ∧
      (r.completed_processes.map Process.pid).Nodup :=
  ⟨insertionSortByArrival_spec, by decide,
    (completed_pids_perm insertionSortByArrival insertionSortByArrival_spec demo
      (by decide)).2.1⟩

theorem timesConsistent_of (ps : List Process) (c : Process)
    (h : ∃ p0 ∈ ps, c.pid = p0.pid ∧ c.arrival_time = p0.arrival_time ∧
      c.burst_time = p0.burst_time ∧
      c.turnaround_time = c.completion_time - c.arrival_time ∧
      c.waiting_time = c.turnaround_time - c.burst_time) : TimesConsistent ps c := by
  obtain ⟨p, hp, h1, h2, h3, h4, h5⟩ := h
  exact ⟨h4, h5, by omega, p, hp, h1.symm, h2, h3⟩

/-- C2: for every valid input and each of the four policies (`round_robin` with a
positive quantum) the run ends and every record of `completed_processes` has
`turnaround_time = completion_time - arrival_time`,
`waiting_time = turnaround_time - burst_time`, hence
`turnaround_time = waiting_time + burst_time`, with the `arrival_time` and `burst_time`
of the input process that has its pid. -/
theorem completed_times_consistent (sort : List Process → List Process)
    (hsort : StdSortSpec sort) (ps : List Process) (hv : ValidInput ps)
    (time_quantum : Int) (hq : 0 < time_quantum) :
    (∀ c ∈ ((Scheduler.new ps).fcfs sort).completed_processes, TimesConsistent ps c) ∧
    (∃ r : Scheduler,
      (∀ fuel, ps.length + (maxArrival ps).toNat ≤ fuel →
        (Scheduler.new ps).sjf fuel = some r) ∧
      ∀ c ∈ r.completed_processes, TimesConsistent ps c) ∧
    (∃ r : Scheduler,
      (∀ fuel, sumRemaining ps + (maxArrival ps).toNat ≤ fuel →
        (Scheduler.new ps).srtf fuel = some r) ∧
      ∀ c ∈ r.completed_processes, TimesConsistent ps c) ∧
    (∃ r : Scheduler,
      (∀ fuel, rrFuel ps ≤ fuel →
        (Scheduler.new ps).round_robin time_quantum fuel = some r) ∧
      ∀ c ∈ r.completed_processes, TimesConsistent ps c) := by
  refine ⟨?_, ?_, ?_, ?_⟩
  · intro c hc
    rw [fcfs_eq] at hc
    obtain ⟨p, hp, d, rfl, -⟩ := fcfsRecords_mem _ _ c hc
    exact timesConsistent_of ps _
      ⟨p, (hsort ps).1.subset hp, rfl, rfl, rfl, rfl, rfl⟩
  · obtain ⟨r, h1, h2, -⟩ := sjf_run ps hv
    refine ⟨⟨ps, r.completed_processes, r.current_time⟩,
      fun fuel hf => sjf_eq fuel ps r (h1 fuel hf), fun c hc => ?_⟩
    obtain ⟨p, hp, d, rfl, -⟩ := h2.done c hc
    exact timesConsistent_of ps _ ⟨p, hp, rfl, rfl, rfl, rfl, rfl⟩
  · obtain ⟨r, h1, h2, -⟩ := srtf_run ps hv
    refine ⟨⟨ps, r.completed_processes, r.current_time⟩,
      fun fuel hf => srtf_eq fuel ps r (h1 fuel hf), fun c hc => ?_⟩
    obtain ⟨p, hp, a1, a2, a3, -, a5, a6⟩ := h2.done c hc
    exact timesConsistent_of ps _ ⟨p, hp, a1, a2, a3, a5, a6⟩
  · obtain ⟨r, h1, h2, -⟩ := rr_run ps hv time_quantum hq
    refine ⟨⟨ps, r.completed_processes, r.current_time⟩,
      fun fuel hf => rr_eq time_quantum fuel ps r (h1 fuel hf), fun c hc => ?_⟩
    obtain ⟨p, hp, a1, a2, a3, -, a5, a6⟩ := h2.done c hc
    exact timesConsistent_of ps _ ⟨p, hp, a1, a2, a3, a5, a6⟩

/-- C2 on the demo dataset with quantum 2. -/
theorem completed_times_consistent_witness :
    StdSortSpec insertionSortByArrival ∧ ValidInput demo ∧ (0 : Int) < 2 ∧
    ∃ r : Scheduler,
      (∀ fuel, rrFuel demo ≤ fuel → (Scheduler.new demo).round_robin 2 fuel = some r) ∧
      ∀ c ∈ r.completed_processes, TimesConsistent demo c :=
  ⟨insertionSortByArrival_spec, by decide, by decide,
    (completed_times_consistent insertionSortByArrival insertionSortByArrival_spec demo
      (by decide) 2 (by decide)).2.2.2⟩

/-- C3: `fcfs` starts from clock 0 and walks the processes in the order `std::sort` leaves
them, which is `arrival_time` order; the completion times follow the recurrence
`max(clock, arrival_time) + burst_time` with the clock set to each completion time in
turn, and the final clock is the last of them. On the demo dataset the completion order
is 1, 2, 3, 4 with completion times 10, 16, 18, 22 and final clock 22, whatever sort
meets the contract. -/
theorem fcfs_recurrence (sort : List Process → List Process) (hsort : StdSortSpec sort)
    (ps : List Process) :
    (Scheduler.new ps).current_time = 0 ∧
    ((Scheduler.new ps).fcfs sort).completed_processes.map Process.pid =
      (sort ps).map Process.pid ∧
    (sort ps).Pairwise (fun a b => a.arrival_time ≤ b.arrival_time) ∧
    ((Scheduler.new ps).fcfs sort).completed_processes.map Process.completion_time =
      fcfsCompletionTimes 0 (sort ps) ∧
    ((Scheduler.new ps).fcfs sort).current_time =
      (fcfsCompletionTimes 0 (sort ps)).getLastD 0 ∧
    ((Scheduler.new demo).fcfs sort).completed_processes.map
      (fun c => (c.pid, c.completion_time)) = [(1, 10), (2, 16), (3, 18), (4, 22)] ∧
    ((Scheduler.new demo).fcfs sort).current_time = 22 := by
  have hdemo : sort demo = demo :=
    sorted_unique _ _ (hsort demo).1 (hsort demo).2 (by decide)
  refine ⟨rfl, ?_, ?_, ?_, ?_, ?_, ?_⟩
  · rw [fcfs_eq]; exact fcfsRecords_pid _ _
  · exact (hsort ps).2.imp (fun h => not_lt.1 h)
  · rw [fcfs_eq]; exact fcfsRecords_completion _ _
  · rw [fcfs_eq]; exact fcfsClock_eq _ _
  · rw [fcfs_eq, hdemo]; decide
  · rw [fcfs_eq, hdemo]; decide

/-- C3 with insertion sort as the sort. -/
theorem fcfs_recurrence_witness :
    StdSortSpec insertionSortByArrival ∧
    ((Scheduler.new demo).fcfs insertionSortByArrival).current_time = 22 :=
  ⟨insertionSortByArrival_spec,
    (fcfs_recurrence insertionSortByArrival insertionSortByArrival_spec demo).2.2.2.2.2.2⟩

theorem sjf_clock_mono (ps : List Process) (hv : ValidInput ps) (s : LoopState)
    (hI : SjfInv ps s) : s.current_time ≤ (sjfBody s).current_time := by
  have hnd : (s.remaining_processes.map Process.pid).Nodup :=
    nodup_of_perm_append _ _ _ hI.perm hv.2.2
  cases h : sjfPick s with
  | none => rw [(sjfBody_idle s h).1]; simp
  | some k =>
    obtain ⟨A, x, B, e, -, -, -, -, -, hbody⟩ := sjfBody_dispatch s k h hnd
    have hxps : x ∈ ps := hI.sub.subset (by rw [e]; simp)
    have := (hv.2.1 x hxps).2.2
    rw [hbody]
    simp only
    omega

theorem sjf_clock_mono_iterate (ps : List Process) (hv : ValidInput ps) (n m : Nat) :
    (sjfBody^[n] (loopInit ps)).current_time ≤
      (sjfBody^[n + m] (loopInit ps)).current_time := by
  induction m with
  | zero => exact le_refl _
  | succ m ih =>
    rw [← Nat.add_assoc, Function.iterate_succ_apply']
    exact le_trans ih (sjf_clock_mono ps hv _ (sjfInv_iterate ps hv _))

/-- C4: take any valid input and any iteration of the loop of `sjf` in which a process is
dispatched (`s` is the state before it, `k` the slot picked). The process in slot `k` is
one of the not-yet-completed processes, has `arrival_time <= current_time`, and its
`burst_time` is at most that of every not-yet-completed process that has arrived. It runs
without preemption: the record appended has `completion_time = current_time + burst_time`,
the clock is set to that value, and the clock is at least that value in all later
iterations. The run ends, and in its result each record was dispatched at or after its
arrival, at or after the completion of the records before it, with a burst no larger than
any later record that had arrived by then. On the demo dataset the completion order is
1, 3, 4, 2 with completion times 10, 12, 16, 22. -/
theorem sjf_dispatch_shortest (ps : List Process) (hv : ValidInput ps) :
    (∀ (n : Nat) (s : LoopState), s = sjfBody^[n] (loopInit ps) →
      ∀ k, sjfPick s = some k →
        (s.completed_processes.map Process.pid ++
          s.remaining_processes.map Process.pid).Perm (ps.map Process.pid) ∧
        deref s.remaining_processes k ∈ s.remaining_processes ∧
        (deref s.remaining_processes k).arrival_time ≤ s.current_time ∧
        (∀ y ∈ s.remaining_processes, y.arrival_time ≤ s.current_time →
          (deref s.remaining_processes k).burst_time ≤ y.burst_time) ∧
        (∃ c, (sjfBody s).completed_processes = s.completed_processes ++ [c] ∧
          c.pid = (deref s.remaining_processes k).pid ∧
          c.arrival_time = (deref s.remaining_processes k).arrival_time ∧
          c.burst_time = (deref s.remaining_processes k).burst_time ∧
          c.completion_time = s.current_time + c.burst_time ∧
          (sjfBody s).current_time = c.completion_time ∧
          ∀ m, c.completion_time ≤ (sjfBody^[n + 1 + m] (loopInit ps)).current_time) ∧
        (sjfBody s).remaining_processes = s.remaining_processes.eraseIdx k) ∧
    (∃ r : Scheduler,
      (∀ fuel, ps.length + (maxArrival ps).toNat ≤ fuel →
        (Scheduler.new ps).sjf fuel = some r) ∧
      (∀ c ∈ r.completed_processes,
        c.arrival_time ≤ c.completion_time - c.burst_time ∧
        c.response_time = c.completion_time - c.burst_time - c.arrival_time) ∧
      r.completed_processes.Pairwise (fun c c' =>
        c.completion_time ≤ c'.completion_time - c'.burst_time ∧
        (c'.arrival_time ≤ c.completion_time - c.burst_time →
          c.burst_time ≤ c'.burst_time))) ∧
    ((Scheduler.new demo).sjf 9).map
      (fun r => (r.completed_processes.map (fun c => (c.pid, c.completion_time)),
        r.current_time)) = some ([(1, 10), (3, 12), (4, 16), (2, 22)], 22) := by
  refine ⟨?_, ?_, by decide⟩
  · intro n s hs k hk
    have hI : SjfInv ps s := hs ▸ sjfInv_iterate ps hv n
    have hnd : (s.remaining_processes.map Process.pid).Nodup :=
      nodup_of_perm_append _ _ _ hI.perm hv.2.2
    obtain ⟨A, x, B, e, hlen, hx, hxa, hA, hB, hbody⟩ := sjfBody_dispatch s k hk hnd
    rw [hx, hbody]
    refine ⟨hI.perm, by rw [e]; simp, hxa, ?_, ⟨sjfRecord x s.current_time, rfl, rfl, rfl,
      rfl, rfl, rfl, ?_⟩, ?_⟩
    · intro y hy hya
      rw [e] at hy
      simp only [List.mem_append, List.mem_cons] at hy
      rcases hy with hy | rfl | hy
      · exact le_of_lt (hA y hy hya)
      · exact le_refl _
      · exact hB y hy hya
    · intro m
      have h1 := sjf_clock_mono_iterate ps hv (n + 1) m
      rw [Function.iterate_succ_apply', ← hs, hbody] at h1
      exact h1
    · rw [e, ← hlen, List.eraseIdx_append_of_length_le (le_refl _)]
      simp
  · obtain ⟨r, h1, h2, -⟩ := sjf_run ps hv
    refine ⟨⟨ps, r.completed_processes, r.current_time⟩,
      fun fuel hf => sjf_eq fuel ps r (h1 fuel hf), fun c hc => ?_, ?_⟩
    · obtain ⟨p, hp, d, rfl, hd, -⟩ := h2.done c hc
      simp only [sjfRecord]
      constructor <;> omega
    · exact h2.order.imp (fun h => ⟨h.1, fun h' => (h.2 h').1⟩)

/-- C4 on the demo dataset. -/
theorem sjf_dispatch_shortest_witness :
    ValidInput demo ∧
    ∃ r : Scheduler,
      (∀ fuel, demo.length + (maxArrival demo).toNat ≤ fuel →
        (Scheduler.new demo).sjf fuel = some r) ∧
      (∀ c ∈ r.completed_processes,
        c.arrival_time ≤ c.completion_time - c.burst_time ∧
        c.response_time = c.completion_time - c.burst_time - c.arrival_time) ∧
      r.completed_processes.Pairwise (fun c c' =>
        c.completion_time ≤ c'.completion_time - c'.burst_time ∧
        (c'.arrival_time ≤ c.completion_time - c.burst_time →
          c.burst_time ≤ c'.burst_time)) :=
  ⟨by decide, (sjf_dispatch_shortest demo (by decide)).2.1⟩

/-- C5: take any valid input and any iteration of the loop of `srtf` at whose start some
unfinished process has `arrival_time <= current_time` (`s` is the state before it).
Exactly one process `x` of `remaining_processes` is run: it has arrived, its
`remaining_time` is at most that of every unfinished process that has arrived, the clock
advances by exactly 1, and `x` is left with `remaining_time` one less (and is moved to
`completed_processes` when that is 0) while every other process stays as it was. -/
theorem srtf_tick (ps : List Process) (hv : ValidInput ps) :
    ∀ (n : Nat) (s : LoopState), s = srtfBody^[n] (loopInit ps) →
      (∃ q ∈ s.remaining_processes, q.arrival_time ≤ s.current_time) →
      ∃ A x B x',
        s.remaining_processes = A ++ x :: B ∧
        x.arrival_time ≤ s.current_time ∧
        (∀ y ∈ s.remaining_processes, y.arrival_time ≤ s.current_time →
          x.remaining_time ≤ y.remaining_time) ∧
        x'.pid = x.pid ∧ x'.arrival_time = x.arrival_time ∧
        x'.burst_time = x.burst_time ∧
        x'.remaining_time = x.remaining_time - 1 ∧
        (srtfBody s).current_time = s.current_time + 1 ∧
        ((x'.remaining_time ≠ 0 ∧
            (srtfBody s).remaining_processes = A ++ x' :: B ∧
            (srtfBody s).completed_processes = s.completed_processes) ∨
          (x'.remaining_time = 0 ∧
            (srtfBody s).remaining_processes = A ++ B ∧
            (srtfBody s).completed_processes = s.completed_processes ++ [x'] ∧
            x'.completion_time = s.current_time + 1)) := by
  intro n s hs hav
  have hI : SrtfInv ps s := hs ▸ srtfInv_iterate ps hv n
  have hnd : (s.remaining_processes.map Process.pid).Nodup :=
    nodup_of_perm_append _ _ _ hI.perm hv.2.2
  cases hk : srtfPick s with
  | none =>
    obtain ⟨q, hq, hqa⟩ := hav
    have := (srtfBody_idle s hk).2 q hq
    omega
  | some k =>
    obtain ⟨A, x, B, e, -, -, hxa, hA, hB, hbody⟩ := srtfBody_dispatch s k hk hnd
    obtain ⟨f1, f2, f3, f4⟩ := srtfTick_fields x s.current_time
    have hmin : ∀ y ∈ s.remaining_processes, y.arrival_time ≤ s.current_time →
        x.remaining_time ≤ y.remaining_time := by
      intro y hy hya
      rw [e] at hy
      simp only [List.mem_append, List.mem_cons] at hy
      rcases hy with hy | rfl | hy
      · exact le_of_lt (hA y hy hya)
      · exact le_refl _
      · exact hB y hy hya
    by_cases hz : x.remaining_time - 1 = 0
    · obtain ⟨g1, g2, g3, g4, -, g6, -, -⟩ :=
        finishRecord_fields (srtfTick x s.current_time) (s.current_time + 1)
      rw [hbody.trans (if_pos hz)]
      exact ⟨A, x, B, finishRecord (srtfTick x s.current_time) (s.current_time + 1), e, hxa,
        hmin, by rw [g1, f1], by rw [g2, f2], by rw [g3, f3], by rw [g4, f4, hz], rfl,
        Or.inr ⟨by rw [g4, f4, hz], rfl, rfl, g6⟩⟩
    · rw [hbody.trans (if_neg hz)]
      exact ⟨A, x, B, srtfTick x s.current_time, e, hxa, hmin, f1, f2, f3, f4, rfl,
        Or.inl ⟨by rw [f4]; exact hz, rfl, rfl⟩⟩

/-- C5 on the demo dataset, at the first iteration. -/
theorem srtf_tick_witness :
    ValidInput demo ∧
    (∃ q ∈ (loopInit demo).remaining_processes,
      q.arrival_time ≤ (loopInit demo).current_time) ∧
    ∃ A x B x',
      (loopInit demo).remaining_processes = A ++ x :: B ∧
      x.arrival_time ≤ (loopInit demo).current_time ∧
      (∀ y ∈ (loopInit demo).remaining_processes,
        y.arrival_time ≤ (loopInit demo).current_time →
          x.remaining_time ≤ y.remaining_time) ∧
      x'.pid = x.pid ∧ x'.arrival_time = x.arrival_time ∧
      x'.burst_time = x.burst_time ∧
      x'.remaining_time = x.remaining_time - 1 ∧
      (srtfBody (loopInit demo)).current_time = (loopInit demo).current_time + 1 ∧
      ((x'.remaining_time ≠ 0 ∧
          (srtfBody (loopInit demo)).remaining_processes = A ++ x' :: B ∧
          (srtfBody (loopInit demo)).completed_processes =
            (loopInit demo).completed_processes) ∨
        (x'.remaining_time = 0 ∧
          (srtfBody (loopInit demo)).remaining_processes = A ++ B ∧
          (srtfBody (loopInit demo)).completed_processes =
            (loopInit demo).completed_processes ++ [x'] ∧
          x'.completion_time = (loopInit demo).current_time + 1)) :=
  ⟨by decide, ⟨Process.new 1 0 10, by decide, by decide⟩,
    srtf_tick demo (by decide) 0 (loopInit demo) rfl
      ⟨Process.new 1 0 10, by decide, by decide⟩⟩

theorem round_robin_mono (q : Int) (fuel k : Nat) (s r : Scheduler)
    (h : s.round_robin q fuel = some r) : s.round_robin q (fuel + k) = some r := by
  unfold Scheduler.round_robin at h ⊢
  cases hw : whileLoop RRState.running (rrBody q) fuel
      ⟨s.processes, s.processes.length, [], s.completed_processes, s.current_time⟩ with
  | none => rw [hw] at h; simp at h
  | some r0 =>
    rw [hw] at h
    rw [whileLoop_mono _ _ _ _ _ hw k]
    exact h

/-- C7 fails on the demo dataset with quantum 2: the run ends, within 40 iterations,
with four records whose pids are 3, 4, 4, 4 and with final clock 8. The pointer pushed on
line 151 addresses the slot of the element that line 152 then erases, so it reads
whatever element the vector moves into that slot. -/
theorem rr_demo_completed :
    ValidInput demo ∧
    ∀ k : Nat,
      ((Scheduler.new demo).round_robin 2 (40 + k)).map
        (fun r => (r.completed_processes.map
          (fun c => (c.pid, c.remaining_time, c.completion_time)), r.current_time)) =
        some ([(3, 0, 4), (4, 0, 8), (4, 0, 8), (4, 0, 8)], 8) := by
  refine ⟨by decide, ?_⟩
  intro k
  cases h : (Scheduler.new demo).round_robin 2 40 with
  | none => exact absurd h (by decide)
  | some r =>
    rw [round_robin_mono 2 40 k _ r h]
    have h2 : ((Scheduler.new demo).round_robin 2 40).map
        (fun r => (r.completed_processes.map
          (fun c => (c.pid, c.remaining_time, c.completion_time)), r.current_time)) =
        some ([(3, 0, 4), (4, 0, 8), (4, 0, 8), (4, 0, 8)], 8) := by decide
    rw [h] at h2
    exact h2

/-- C8 fails as stated: on the valid input `sjfTieInput`, after process 2 has run the
clock is 10 and processes 1 (arrival 5) and 3 (arrival 1) are available with the same
`burst_time` 3; `sjf` dispatches process 1, the first in the vector, although process 3
arrived earlier. The completion order is 2, 1, 3. -/
theorem sjf_tie_break_counterexample :
    ValidInput sjfTieInput ∧
    (sjfBody^[1] (loopInit sjfTieInput)).current_time = 10 ∧
    (sjfBody^[1] (loopInit sjfTieInput)).remaining_processes =
      [Process.new 1 5 3, Process.new 3 1 3] ∧
    sjfPick (sjfBody^[1] (loopInit sjfTieInput)) = some 0 ∧
    ¬ TieBreakByArrivalThenPid Process.burst_time sjfPick
      (sjfBody^[1] (loopInit sjfTieInput)) ∧
    ((Scheduler.new sjfTieInput).sjf 4).map
      (fun r => r.completed_processes.map Process.pid) = some [2, 1, 3] := by
  refine ⟨by decide, by decide, by decide, by decide, ?_, by decide⟩
  intro h
  have h1 := h 0 (by decide) (Process.new 3 1 3) (by decide) (by decide) (by decide)
  revert h1
  decide

/-- C8, as amended: at every dispatch of `sjf` on a valid input, `remaining_processes` is
the input with the completed processes removed, in input order, and the process picked
is the first of its available elements with the least `burst_time`: every available
element before it has a strictly larger `burst_time`. In the result, a record placed
before another that had arrived at its dispatch with the same `burst_time` has its pid
before the other's in the input. -/
theorem sjf_tie_break_input_order (ps : List Process) (hv : ValidInput ps) :
    (∀ (n : Nat) (s : LoopState), s = sjfBody^[n] (loopInit ps) →
      ∀ k, sjfPick s = some k →
        s.remaining_processes.Sublist ps ∧
        k < s.remaining_processes.length ∧
        (∀ j, j < s.remaining_processes.length →
          (deref s.remaining_processes j).arrival_time ≤ s.current_time →
          (deref s.remaining_processes k).burst_time ≤
            (deref s.remaining_processes j).burst_time) ∧
        (∀ j, j < k → (deref s.remaining_processes j).arrival_time ≤ s.current_time →
          (deref s.remaining_processes k).burst_time <
            (deref s.remaining_processes j).burst_time)) ∧
    (∃ r : Scheduler,
      (∀ fuel, ps.length + (maxArrival ps).toNat ≤ fuel →
        (Scheduler.new ps).sjf fuel = some r) ∧
      r.completed_processes.Pairwise (fun c c' =>
        c'.arrival_time ≤ c.completion_time - c.burst_time →
        c.burst_time = c'.burst_time →
        [c.pid, c'.pid].Sublist (ps.map Process.pid))) := by
  refine ⟨?_, ?_⟩
  · intro n s hs k hk
    have hI : SjfInv ps s := hs ▸ sjfInv_iterate ps hv n
    obtain ⟨h1, -, h3, h4⟩ :=
      pick_spec Process.burst_time s.remaining_processes s.current_time k hk
    exact ⟨hI.sub, h1, h3, h4⟩
  · obtain ⟨r, h1, h2, -⟩ := sjf_run ps hv
    exact ⟨⟨ps, r.completed_processes, r.current_time⟩,
      fun fuel hf => sjf_eq fuel ps r (h1 fuel hf),
      h2.order.imp (fun h h' => (h.2 h').2)⟩

/-- C8, as amended, on `sjfTieInput`. -/
theorem sjf_tie_break_input_order_witness :
    ValidInput sjfTieInput ∧
    ∃ r : Scheduler,
      (∀ fuel, sjfTieInput.length + (maxArrival sjfTieInput).toNat ≤ fuel →
        (Scheduler.new sjfTieInput).sjf fuel = some r) ∧
      r.completed_processes.Pairwise (fun c c' =>
        c'.arrival_time ≤ c.completion_time - c.burst_time →
        c.burst_time = c'.burst_time →
        [c.pid, c'.pid].Sublist (sjfTieInput.map Process.pid)) :=
  ⟨by decide, (sjf_tie_break_input_order sjfTieInput (by decide)).2⟩

/-- C9 fails as stated: on the valid input `srtfTieInput`, after one tick the clock is 1
and processes 1 (arrival 1) and 2 (arrival 0) are available with the same
`remaining_time` 2; `srtf` runs process 1, the first in the vector, although process 2
arrived earlier. The completion order is 1, 2. -/
theorem srtf_tie_break_counterexample :
    ValidInput srtfTieInput ∧
    (srtfBody^[1] (loopInit srtfTieInput)).current_time = 1 ∧
    (srtfBody^[1] (loopInit srtfTieInput)).remaining_processes.map
      (fun p => (p.pid, p.arrival_time, p.remaining_time)) = [(1, 1, 2), (2, 0, 2)] ∧
    srtfPick (srtfBody^[1] (loopInit srtfTieInput)) = some 0 ∧
    ¬ TieBreakByArrivalThenPid Process.remaining_time srtfPick
      (srtfBody^[1] (loopInit srtfTieInput)) ∧
    ((Scheduler.new srtfTieInput).srtf 5).map
      (fun r => r.completed_processes.map Process.pid) = some [1, 2] := by
  refine ⟨by decide, by decide, by decide, by decide, ?_, by decide⟩
  intro h
  have h1 := h 0 (by decide) (Process.mk 2 0 3 2 0 0 0 0) (by decide) (by decide)
    (by decide)
  revert h1
  decide

/-- C9, as amended: at every tick of `srtf` on a valid input, the pids of
`remaining_processes` are in input order and the process run is the first of the
available elements with the least `remaining_time`: every available element before it
has a strictly larger `remaining_time`. -/
theorem srtf_tie_break_input_order (ps : List Process) (hv : ValidInput ps) :
    ∀ (n : Nat) (s : LoopState), s = srtfBody^[n] (loopInit ps) →
      ∀ k, srtfPick s = some k →
        (s.remaining_processes.map Process.pid).Sublist (ps.map Process.pid) ∧
        k < s.remaining_processes.length ∧
        (∀ j, j < s.remaining_processes.length →
          (deref s.remaining_processes j).arrival_time ≤ s.current_time →
          (deref s.remaining_processes k).remaining_time ≤
            (deref s.remaining_processes j).remaining_time) ∧
        (∀ j, j < k → (deref s.remaining_processes j).arrival_time ≤ s.current_time →
          (deref s.remaining_processes k).remaining_time <
            (deref s.remaining_processes j).remaining_time) := by
  intro n s hs k hk
  have hI : SrtfInv ps s := hs ▸ srtfInv_iterate ps hv n
  obtain ⟨h1, -, h3, h4⟩ :=
    pick_spec Process.remaining_time s.remaining_processes s.current_time k hk
  exact ⟨hI.sub, h1, h3, h4⟩

/-- C9, as amended, on `srtfTieInput` after one tick. -/
theorem srtf_tie_break_input_order_witness :
    ValidInput srtfTieInput ∧
    srtfPick (srtfBody^[1] (loopInit srtfTieInput)) = some 0 ∧
    ((srtfBody^[1] (loopInit srtfTieInput)).remaining_processes.map Process.pid).Sublist
      (srtfTieInput.map Process.pid) :=
  ⟨by decide, by decide,
    (srtf_tie_break_input_order srtfTieInput (by decide) 1 _ rfl 0 (by decide)).1⟩

/-- C10 fails as stated: `fcfs` sorts with `std::sort`, which is not stable. On the valid
input `fcfsTieInput`, 17 processes with pids 1 to 17 in this order that all arrive at
time 0, the `std::sort` of libstdc++ partitions the range once (more than 16 elements)
and the completed sequence starts with the pids 9, 17, 16; sorting the input stably by
`arrival_time` leaves the pids in input order. -/
theorem fcfs_stable_counterexample :
    ValidInput fcfsTieInput ∧
    fcfsTieInput.map (fun p => (p.pid, p.arrival_time)) =
      [(1, 0), (2, 0), (3, 0), (4, 0), (5, 0), (6, 0), (7, 0), (8, 0), (9, 0), (10, 0),
        (11, 0), (12, 0), (13, 0), (14, 0), (15, 0), (16, 0), (17, 0)] ∧
    ((Scheduler.new fcfsTieInput).fcfs stdSort).completed_processes.map Process.pid =
      [9, 17, 16, 15, 14, 13, 12, 11, 10, 1, 8, 7, 6, 5, 4, 3, 2] ∧
    (insertionSortByArrival fcfsTieInput).map Process.pid =
      [1, 2, 3, 4, 5, 6, 7, 8, 9, 10, 11, 12, 13, 14, 15, 16, 17] ∧
    ((Scheduler.new fcfsTieInput).fcfs stdSort).completed_processes.map Process.pid ≠
      fcfsTieInput.map Process.pid := by
  decide

/-- On the demo dataset the `std::sort` of libstdc++ and the stable insertion sort give the
same sequence. -/
theorem stdSort_demo : stdSort demo = insertionSortByArrival demo := by
  decide

/-- C10, as amended: whatever sort meets the contract of `std::sort`, the completed
sequence of `fcfs` is the input as the sort arranges it, a rearrangement of the input in
non-decreasing `arrival_time` order; when no two processes share an `arrival_time` it is
the input sorted stably by `arrival_time`. -/
theorem fcfs_completed_sorted (sort : List Process → List Process)
    (hsort : StdSortSpec sort) (ps : List Process) :
    ((Scheduler.new ps).fcfs sort).completed_processes.map
      (fun c => (c.pid, c.arrival_time, c.burst_time)) =
      (sort ps).map (fun c => (c.pid, c.arrival_time, c.burst_time)) ∧
    (((Scheduler.new ps).fcfs sort).completed_processes.map Process.pid).Perm
      (ps.map Process.pid) ∧
    ((Scheduler.new ps).fcfs sort).completed_processes.Pairwise
      (fun a b => a.arrival_time ≤ b.arrival_time) ∧
    ((ps.map Process.arrival_time).Nodup →
      ((Scheduler.new ps).fcfs sort).completed_processes.map Process.pid =
        (insertionSortByArrival ps).map Process.pid) := by
  have hkey : ∀ (l : List Process) (t : Int),
      (fcfsRecords t l).map (fun c => (c.pid, c.arrival_time, c.burst_time)) =
        l.map (fun c => (c.pid, c.arrival_time, c.burst_time)) := by
    intro l
    induction l with
    | nil => intro t; rfl
    | cons p rest ih =>
      intro t
      simp only [fcfsRecords, List.map_cons, ih, fcfsBody_eq]
      rfl
  have harr : ((Scheduler.new ps).fcfs sort).completed_processes.Pairwise
      (fun a b => a.arrival_time ≤ b.arrival_time) := by
    rw [fcfs_eq]
    have h1 : ((fcfsRecords 0 (sort ps)).map Process.arrival_time).Pairwise (· ≤ ·) := by
      rw [fcfsRecords_arrival, List.pairwise_map]
      exact (hsort ps).2.imp (fun h => not_lt.1 h)
    exact List.pairwise_map.1 h1
  refine ⟨?_, ?_, harr, ?_⟩
  · rw [fcfs_eq]; exact hkey _ _
  · rw [fcfs_eq]
    simp only [fcfsRecords_pid]
    exact (hsort ps).1.map _
  · intro hnd
    rw [fcfs_eq]
    simp only [fcfsRecords_pid]
    have hs := insertionSortByArrival_spec ps
    have hnd2 : (insertionSortByArrival ps).Pairwise
        (fun a b => a.arrival_time ≠ b.arrival_time) := by
      have : ((insertionSortByArrival ps).map Process.arrival_time).Nodup :=
        (hs.1.map Process.arrival_time).nodup_iff.2 hnd
      exact List.pairwise_map.1 this
    have hlt : (insertionSortByArrival ps).Pairwise
        (fun a b => a.arrival_time < b.arrival_time) :=
      (hs.2.and hnd2).imp (fun h => lt_of_le_of_ne (not_lt.1 h.1) h.2)
    rw [sorted_unique (sort ps) (insertionSortByArrival ps)
      ((hsort ps).1.trans hs.1.symm) (hsort ps).2 hlt]

/-- C10, as amended, on the demo dataset, whose arrival times are pairwise distinct. -/
theorem fcfs_completed_sorted_witness :
    StdSortSpec insertionSortByArrival ∧ (demo.map Process.arrival_time).Nodup ∧
    ((Scheduler.new demo).fcfs insertionSortByArrival).completed_processes.map Process.pid =
      (insertionSortByArrival demo).map Process.pid :=
  ⟨insertionSortByArrival_spec, by decide,
    (fcfs_completed_sorted insertionSortByArrival insertionSortByArrival_spec demo).2.2.2
      (by decide)⟩

/-! ## Empty input and non-positive quantum -/

/-- A loop whose condition holds in every state it can reach never ends. -/
theorem whileLoop_none {σ : Type} (cond : σ → Bool) (body : σ → σ) (Inv : σ → Prop)
    (hcond : ∀ s, Inv s → cond s = true) (hstep : ∀ s, Inv s → Inv (body s)) :
    ∀ (fuel : Nat) (s : σ), Inv s → whileLoop cond body fuel s = none := by
  intro fuel
  induction fuel with
  | zero => intro s hI; simp [whileLoop, hcond s hI]
  | succ n ih =>
    intro s hI
    simp only [whileLoop, hcond s hI, if_true]
    exact ih _ (hstep s hI)

theorem sort_nil (sort : List Process → List Process) (hsort : StdSortSpec sort) :
    sort [] = [] :=
  List.perm_nil.1 (hsort []).1

/-- C14, as amended: the four policies do not check their input. On an empty process
list each of them returns at once, without entering its loop, and leaves an empty
`completed_processes` and the clock at 0. -/
theorem empty_input_returns_empty (sort : List Process → List Process)
    (hsort : StdSortSpec sort) (time_quantum : Int) (fuel : Nat) :
    (Scheduler.new []).fcfs sort = ⟨[], [], 0⟩ ∧
    (Scheduler.new []).sjf fuel = some ⟨[], [], 0⟩ ∧
    (Scheduler.new []).srtf fuel = some ⟨[], [], 0⟩ ∧
    (Scheduler.new []).round_robin time_quantum fuel = some ⟨[], [], 0⟩ ∧
    LoopState.running (loopInit []) = false ∧
    RRState.running (rrInit []) = false := by
  refine ⟨?_, ?_, ?_, ?_, rfl, rfl⟩
  · rw [fcfs_eq, sort_nil sort hsort]; rfl
  · cases fuel <;> rfl
  · cases fuel <;> rfl
  · cases fuel <;> rfl

/-- C14, as amended, with insertion sort, quantum 2 and no fuel at all. -/
theorem empty_input_returns_empty_witness :
    StdSortSpec insertionSortByArrival ∧
    (Scheduler.new []).round_robin 2 0 = some ⟨[], [], 0⟩ :=
  ⟨insertionSortByArrival_spec,
    (empty_input_returns_empty insertionSortByArrival insertionSortByArrival_spec 2
      0).2.2.2.1⟩

/-- C14 fails as stated: the methods have no error result, and on the empty list every
policy returns the empty completed sequence, even when its loop is given no iteration at
all. -/
theorem empty_input_counterexample :
    ¬ ValidInput [] ∧
    ((Scheduler.new []).fcfs insertionSortByArrival).completed_processes = [] ∧
    ((Scheduler.new []).sjf 0).map Scheduler.completed_processes = some [] ∧
    ((Scheduler.new []).srtf 0).map Scheduler.completed_processes = some [] ∧
    ((Scheduler.new []).round_robin 2 0).map Scheduler.completed_processes = some [] := by
  decide

theorem rrSpinInv_init (ps : List Process) (hv : ValidInput ps) : RRSpinInv (rrInit ps) where
  size_le := le_refl _
  qvalid := by simp [rrInit]
  pos := by
    intro p hp
    obtain ⟨h1, -, h3⟩ := hv.2.1 p hp
    rw [h1]; exact h3
  busy := by
    have : 0 < ps.length := List.length_pos.2 hv.1
    simpa [rrInit] using this
  none_done := rfl

theorem rrSpinInv_pushArrived (s : RRState) (hI : RRSpinInv s) :
    RRSpinInv (pushArrived s) := by
  obtain ⟨h1, h2, h3, ⟨adm, h4, h5, h6⟩, -, h8, -⟩ := pushArrived_spec s hI.size_le
  refine ⟨by rw [h1]; exact le_trans h3 hI.size_le, ?_, fun p hp => hI.pos p (h2 p hp), ?_,
    by rw [h8]; exact hI.none_done⟩
  · intro e he
    rw [h4, List.mem_append] at he
    rw [h1]
    rcases he with he | he
    · exact hI.qvalid e he
    · exact lt_of_lt_of_le (h6 e he) hI.size_le
  · rw [h4, List.length_append]
    have := hI.busy
    omega

theorem rrSpinInv_dispatch (q : Int) (hq : q ≤ 0) (s : RRState) (hI : RRSpinInv s) :
    RRSpinInv (rrDispatch q s) := by
  cases hqueue : s.queue with
  | nil => simp only [rrDispatch, hqueue]; exact hI
  | cons h tl =>
    have hh : h < s.buf.length := hI.qvalid h (by rw [hqueue]; simp)
    have hpos := hI.pos _ (deref_mem s.buf h hh)
    obtain ⟨-, -, -, f4⟩ := rrSlice_fields q (deref s.buf h) s.current_time
    have hmin : min q (deref s.buf h).remaining_time ≤ 0 := le_trans (min_le_left _ _) hq
    have hz : ¬ ((deref s.buf h).remaining_time -
        min q (deref s.buf h).remaining_time = 0) := by omega
    have hbusy := hI.busy
    rw [hqueue] at hbusy
    rw [rrDispatch_eq q s h tl hqueue, if_neg hz]
    refine ⟨by simpa using hI.size_le, ?_, ?_, ?_, hI.none_done⟩
    · intro e he
      simp only [List.length_set]
      apply hI.qvalid e
      rw [hqueue]
      simp only [List.mem_append, List.mem_singleton] at he
      rcases he with he | rfl <;> simp [*]
    · intro p hp
      rcases List.mem_or_eq_of_mem_set hp with hp | rfl
      · exact hI.pos p hp
      · rw [f4]; omega
    · simp only [List.length_append, List.length_singleton, List.length_cons] at hbusy ⊢
      omega

theorem rrSpinInv_step (q : Int) (hq : q ≤ 0) (s : RRState) (hI : RRSpinInv s) :
    RRSpinInv (rrBody q s) := by
  have h1 := rrSpinInv_pushArrived s hI
  unfold rrBody
  by_cases he : (pushArrived s).queue.isEmpty = true
  · simp only [he, if_true]
    exact ⟨h1.size_le, h1.qvalid, h1.pos, h1.busy, h1.none_done⟩
  · simp only [he, Bool.false_eq_true, if_false]
    exact rrSpinInv_pushArrived _ (rrSpinInv_dispatch q hq _ h1)

theorem rrSpinInv_running (s : RRState) (hI : RRSpinInv s) : s.running = true := by
  have := hI.busy
  simp only [RRState.running, Bool.or_eq_true, Bool.not_eq_true', beq_eq_false_iff_ne, ne_eq]
  by_cases hs : s.size = 0
  · right
    cases hq : s.queue with
    | nil => rw [hs, hq] at this; simp at this
    | cons a l => rfl
  · left; exact hs

theorem rrSpinInv_iterate (ps : List Process) (hv : ValidInput ps) (q : Int) (hq : q ≤ 0)
    (n : Nat) : RRSpinInv ((rrBody q)^[n] (rrInit ps)) := by
  induction n with
  | zero => exact rrSpinInv_init ps hv
  | succ n ih =>
    rw [Function.iterate_succ_apply']
    exact rrSpinInv_step q hq _ ih

/-- C15, as amended: `round_robin` does not check `time_quantum`. Invoked on a valid input
with a quantum that is 0 or negative it enters its loop and never leaves it: whatever
the number of iterations, the loop condition still holds and no process has been
completed. -/
theorem round_robin_nonpositive_quantum_spins (ps : List Process) (hv : ValidInput ps)
    (time_quantum : Int) (hq : time_quantum ≤ 0) :
    (∀ fuel, (Scheduler.new ps).round_robin time_quantum fuel = none) ∧
    ∀ n, ((rrBody time_quantum)^[n] (rrInit ps)).running = true ∧
      ((rrBody time_quantum)^[n] (rrInit ps)).completed_processes = [] := by
  refine ⟨?_, ?_⟩
  · intro fuel
    have := whileLoop_none RRState.running (rrBody time_quantum) RRSpinInv
      rrSpinInv_running (rrSpinInv_step time_quantum hq) fuel (rrInit ps)
      (rrSpinInv_init ps hv)
    simp only [Scheduler.round_robin, Scheduler.new]
    rw [show (RRState.mk ps ps.length [] [] 0) = rrInit ps from rfl, this]
    rfl
  · intro n
    have hI := rrSpinInv_iterate ps hv time_quantum hq n
    exact ⟨rrSpinInv_running _ hI, hI.none_done⟩

/-- C15, as amended, on the demo dataset with quantum 0. -/
theorem round_robin_nonpositive_quantum_spins_witness :
    ValidInput demo ∧ (0 : Int) ≤ 0 ∧
    ∀ fuel, (Scheduler.new demo).round_robin 0 fuel = none :=
  ⟨by decide, by decide,
    (round_robin_nonpositive_quantum_spins demo (by decide) 0 (by decide)).1⟩

/-- C15 fails as stated: on the demo dataset with quantum 0 the loop is entered and its
first iteration pushes a pointer, runs the slot it addresses for 0 time units and pushes
the pointer back; after 50 iterations the clock is still 0, nothing is completed and the
loop condition still holds. -/
theorem round_robin_zero_quantum_counterexample :
    ValidInput demo ∧ ¬ ((0 : Int) < 0) ∧
    (rrInit demo).running = true ∧
    (rrBody 0 (rrInit demo)).queue = [0] ∧
    (rrBody 0 (rrInit demo)).running = true ∧
    ((rrBody 0)^[50] (rrInit demo)).current_time = 0 ∧
    ((rrBody 0)^[50] (rrInit demo)).completed_processes = [] ∧
    ((rrBody 0)^[50] (rrInit demo)).running = true ∧
    (Scheduler.new demo).round_robin 0 50 = none := by
  decide

/-! ## round_robin on concrete inputs -/

theorem round_robin_map_mono {β : Type} (f : Scheduler → β) (q : Int) (fuel : Nat)
    (s : Scheduler) (v : β) (h : (s.round_robin q fuel).map f = some v) (k : Nat) :
    (s.round_robin q (fuel + k)).map f = some v := by
  cases hr : s.round_robin q fuel with
  | none => rw [hr] at h; simp at h
  | some r =>
    rw [round_robin_mono q fuel k s r hr]
    rw [hr] at h
    exact h

/-- C12 fails for `round_robin` on the valid input `rrClockInput` with quantum 1: the sum
of the burst times plus the largest arrival time is 8, and the run ends with the clock
at 9. After the first slice the records of slots 0 and 1 are both copies of process 3,
and each copy is run to the end. -/
theorem rr_clock_exceeds_bound :
    ValidInput rrClockInput ∧ (0 : Int) < 1 ∧
    (rrClockInput.map Process.burst_time).sum + maxArrival rrClockInput = 8 ∧
    ((rrBody 1 (rrInit rrClockInput)).buf.map
      (fun p => (p.pid, p.remaining_time)) = [(3, 4), (3, 4), (3, 5)] ∧
      (rrBody 1 (rrInit rrClockInput)).queue = [1, 0, 0]) ∧
    ∀ k : Nat, ((Scheduler.new rrClockInput).round_robin 1 (10 + k)).map
      (fun r => (r.completed_processes.map Process.pid, r.current_time)) =
        some ([3, 3, 3], 9) :=
  ⟨by decide, by decide, by decide, by decide,
    round_robin_map_mono _ 1 10 _ _ (by decide)⟩

/-- C13 fails for `round_robin` on the demo dataset with quantum 2: the burst times of
the records of `completed_processes` add up to 14 while the final clock is 8, so the
utilization printed is above 100%. -/
theorem rr_demo_utilization :
    ValidInput demo ∧ (0 : Int) < 2 ∧
    ∀ k : Nat, ((Scheduler.new demo).round_robin 2 (40 + k)).map
      (fun r => ((r.completed_processes.map Process.burst_time).sum, r.current_time)) =
        some (14, 8) :=
  ⟨by decide, by decide, round_robin_map_mono _ 2 40 _ _ (by decide)⟩

/-- C16 fails for `round_robin` on the demo dataset with quantum 2: the record of
process 3 (arrival 3, burst 2) has `completion_time` 4 and the records of process 4
(arrival 5, burst 4) have `completion_time` 8, so their `waiting_time` is -1. -/
theorem rr_demo_waiting :
    ValidInput demo ∧ (0 : Int) < 2 ∧
    ∀ k : Nat, ((Scheduler.new demo).round_robin 2 (40 + k)).map
      (fun r => r.completed_processes.map
        (fun c => (c.pid, c.arrival_time, c.burst_time, c.completion_time,
          c.waiting_time))) =
        some [(3, 3, 2, 4, -1), (4, 5, 4, 8, -1), (4, 5, 4, 8, -1), (4, 5, 4, 8, -1)] :=
  ⟨by decide, by decide, round_robin_map_mono _ 2 40 _ _ (by decide)⟩

/-- C17 fails for `round_robin` on the demo dataset with quantum 2: the record of
process 3 is completed with `response_time` -1, set when its slot was run at clock 2,
before its arrival at 3. The slot of process 4 is first run at clock 4, which leaves
`response_time = 4 - 5 = -1`, and the next dispatch at clock 6 overwrites it with 1. -/
theorem rr_demo_response :
    ValidInput demo ∧ (0 : Int) < 2 ∧
    ((rrBody 2)^[2] (rrInit demo)).current_time = 4 ∧
    (deref ((rrBody 2)^[3] (rrInit demo)).buf 0).pid = 4 ∧
    (deref ((rrBody 2)^[3] (rrInit demo)).buf 0).response_time = -1 ∧
    (deref ((rrBody 2)^[3] (rrInit demo)).buf 0).remaining_time = 2 ∧
    ((rrBody 2)^[3] (rrInit demo)).current_time = 6 ∧
    (deref ((rrBody 2)^[4] (rrInit demo)).buf 0).pid = 4 ∧
    (deref ((rrBody 2)^[4] (rrInit demo)).buf 0).response_time = 1 ∧
    ∀ k : Nat, ((Scheduler.new demo).round_robin 2 (40 + k)).map
      (fun r => r.completed_processes.map
        (fun c => (c.pid, c.arrival_time, c.response_time))) =
        some [(3, 3, -1), (4, 5, 1), (4, 5, 1), (4, 5, 1)] :=
  ⟨by decide, by decide, by decide, by decide, by decide, by decide, by decide, by decide,
    by decide, round_robin_map_mono _ 2 40 _ _ (by decide)⟩

/-! ## Clock bounds for sjf and srtf -/

theorem sumBurst_append (A B : List Process) :
    sumBurst (A ++ B) = sumBurst A + sumBurst B := by
  simp [sumBurst]

theorem sumBurst_cons (x : Process) (B : List Process) :
    sumBurst (x :: B) = x.burst_time + sumBurst B := by
  simp [sumBurst]

theorem sumBurst_nil : sumBurst [] = 0 := rfl

theorem progress_append (A B : List Process) :
    progress (A ++ B) = progress A + progress B := by
  simp [progress]

theorem progress_cons (x : Process) (B : List Process) :
    progress (x :: B) = x.burst_time - x.remaining_time + progress B := by
  simp [progress]

theorem progress_nil : progress [] = 0 := rfl

theorem progress_fresh (ps : List Process) (hv : ValidInput ps) : progress ps = 0 := by
  have h : ∀ l : List Process, (∀ p ∈ l, p.remaining_time = p.burst_time) →
      progress l = 0 := by
    intro l
    induction l with
    | nil => intro _; rfl
    | cons a l ih =>
      intro h
      rw [progress_cons, ih (fun p hp => h p (by simp [hp])), h a (by simp)]
      omega
  apply h
  intro p hp
  have := (hv.2.1 p hp).1
  rw [this]; rfl

theorem sjfClock_init (ps : List Process) : SjfClock ps (loopInit ps) where
  work := by simp [loopInit, sumBurst]
  clock_le := by
    have := maxArrival_nonneg ps
    simpa [loopInit, sumBurst] using this
  clock_ge := by simp [loopInit, sumBurst]

theorem sjfClock_step (ps : List Process) (hv : ValidInput ps) (s : LoopState)
    (hI : SjfInv ps s) (hC : SjfClock ps s) (hrun : s.running = true) :
    SjfClock ps (sjfBody s) := by
  have hnd : (s.remaining_processes.map Process.pid).Nodup :=
    nodup_of_perm_append _ _ _ hI.perm hv.2.2
  obtain ⟨h1, h2, h3⟩ := hC
  cases h : sjfPick s with
  | none =>
    obtain ⟨hb, hall⟩ := sjfBody_idle s h
    rw [hb]
    cases hr : s.remaining_processes with
    | nil => simp [LoopState.running, hr] at hrun
    | cons q rest =>
      have hq : q ∈ s.remaining_processes := by rw [hr]; simp
      have h4 := hall q hq
      have h5 := le_maxArrival ps q (hI.sub.subset hq)
      have hpos : 0 ≤ sumBurst s.completed_processes := by
        have hd := hI.done
        generalize s.completed_processes = cs at hd
        induction cs with
        | nil => simp [sumBurst]
        | cons c cs ih =>
          rw [sumBurst_cons]
          have := ih (fun c' hc' => hd c' (by simp [hc']))
          obtain ⟨p, hp, d, e, -, -⟩ := hd c (by simp)
          have hb := (hv.2.1 p hp).2.2
          rw [e]
          simp only [sjfRecord]
          omega
      refine ⟨?_, ?_, ?_⟩
      · simpa [hr] using h1
      · simp only; omega
      · simp only; omega
  | some k =>
    obtain ⟨A, x, B, e, -, -, hxa, -, -, hbody⟩ := sjfBody_dispatch s k h hnd
    have hxps : x ∈ ps := hI.sub.subset (by rw [e]; simp)
    have hb := (hv.2.1 x hxps).2.2
    rw [hbody]
    rw [e, sumBurst_append, sumBurst_cons] at h1
    have hrec : (sjfRecord x s.current_time).burst_time = x.burst_time := rfl
    refine ⟨?_, ?_, ?_⟩
    · simp only [sumBurst_append, sumBurst_cons, sumBurst_nil, hrec]
      omega
    · simp only [sumBurst_append, sumBurst_cons, sumBurst_nil, hrec]
      omega
    · simp only [sumBurst_append, sumBurst_cons, sumBurst_nil, hrec]
      omega

/-- The loop of `sjf` on a valid input ends in a state that satisfies the invariant and
the clock facts and has no remaining process. -/
theorem sjf_run_clock (ps : List Process) (hv : ValidInput ps) :
    ∃ r : LoopState,
      (∀ fuel, ps.length + (maxArrival ps).toNat ≤ fuel →
        whileLoop LoopState.running sjfBody fuel (loopInit ps) = some r) ∧
      SjfInv ps r ∧ SjfClock ps r ∧ r.remaining_processes = [] := by
  obtain ⟨r, h1, h2, h3⟩ := whileLoop_result LoopState.running sjfBody
    (fun s => SjfInv ps s ∧ SjfClock ps s) (sjfRank ps)
    (fun s hI hc => ⟨⟨sjfInv_step ps hv s hI.1, sjfClock_step ps hv s hI.1 hI.2 hc⟩,
      sjfRank_step ps hv s hI.1 hc⟩)
    (loopInit ps) ⟨sjfInv_init ps, sjfClock_init ps⟩
  refine ⟨r, ?_, h2.1, h2.2, ?_⟩
  · intro fuel hf
    apply h1
    simpa [sjfRank, loopInit] using hf
  · simpa [LoopState.running] using h3

theorem srtfTick_response (p : Process) (t : Int) :
    (srtfTick p t).response_time =
      if p.response_time = -1 then t - p.arrival_time else p.response_time := by
  unfold srtfTick
  split <;> simp

theorem srtfClock_init (ps : List Process) (hv : ValidInput ps) :
    SrtfClock ps (loopInit ps) where
  work := by simp [loopInit, sumBurst]
  clock_le := by
    have := maxArrival_nonneg ps
    simpa [loopInit, sumBurst, progress_fresh ps hv] using this
  clock_ge := by simp [loopInit, sumBurst, progress_fresh ps hv]
  resp_live := by
    intro q hq
    have := (hv.2.1 q hq).1
    left
    rw [this]
    exact ⟨rfl, rfl⟩
  resp_done := by simp [loopInit]

theorem sumBurst_nonneg (l : List Process) (h : ∀ c ∈ l, 0 ≤ c.burst_time) :
    0 ≤ sumBurst l := by
  induction l with
  | nil => simp [sumBurst]
  | cons c l ih =>
    rw [sumBurst_cons]
    have := ih (fun c' hc' => h c' (by simp [hc']))
    have := h c (by simp)
    omega

theorem progress_nonneg (l : List Process)
    (h : ∀ c ∈ l, c.remaining_time ≤ c.burst_time) : 0 ≤ progress l := by
  induction l with
  | nil => simp [progress]
  | cons c l ih =>
    rw [progress_cons]
    have := ih (fun c' hc' => h c' (by simp [hc']))
    have := h c (by simp)
    omega

theorem srtfInv_work_nonneg (ps : List Process) (hv : ValidInput ps) (s : LoopState)
    (hI : SrtfInv ps s) :
    0 ≤ sumBurst s.completed_processes ∧ 0 ≤ progress s.remaining_processes := by
  constructor
  · apply sumBurst_nonneg
    intro c hc
    obtain ⟨p, hp, -, -, a3, -⟩ := hI.done c hc
    have := (hv.2.1 p hp).2.2
    omega
  · apply progress_nonneg
    intro c hc
    obtain ⟨p, hp, -, -, -, -, a5⟩ := hI.live c hc
    exact a5

theorem srtfClock_step (ps : List Process) (hv : ValidInput ps) (s : LoopState)
    (hI : SrtfInv ps s) (hC : SrtfClock ps s) (hrun : s.running = true) :
    SrtfClock ps (srtfBody s) := by
  have hnd : (s.remaining_processes.map Process.pid).Nodup :=
    nodup_of_perm_append _ _ _ hI.perm hv.2.2
  obtain ⟨h1, h2, h3, h4, h5⟩ := hC
  cases h : srtfPick s with
  | none =>
    obtain ⟨hb, hall⟩ := srtfBody_idle s h
    rw [hb]
    cases hr : s.remaining_processes with
    | nil => simp [LoopState.running, hr] at hrun
    | cons q rest =>
      have hq : q ∈ s.remaining_processes := by rw [hr]; simp
      have h6 := hall q hq
      have h7 := live_arrival_le ps s hI q hq
      have h8 := srtfInv_work_nonneg ps hv s hI
      rw [hr] at h1 h2 h3 h4 h8
      refine ⟨h1, ?_, ?_, ?_, ?_⟩
      · simp only; omega
      · simp only; omega
      · intro q' hq'
        rcases h4 q' hq' with h | h
        · exact Or.inl h
        · exact Or.inr ⟨h.1, by simp only; omega⟩
      · intro c hc
        obtain ⟨a1, a2, a3⟩ := h5 c hc
        exact ⟨a1, a2, by simp only; omega⟩
  | some k =>
    obtain ⟨A, x, B, e, -, -, hxa, -, -, hbody⟩ := srtfBody_dispatch s k h hnd
    have hxrem : x ∈ s.remaining_processes := by rw [e]; simp
    obtain ⟨p, hp, hx1, hx2, hx3, hx4, hx5⟩ := hI.live x hxrem
    obtain ⟨f1, f2, f3, f4⟩ := srtfTick_fields x s.current_time
    have f5 := srtfTick_response x s.current_time
    have hx' : 0 ≤ (srtfTick x s.current_time).response_time ∧
        (srtfTick x s.current_time).arrival_time +
          (srtfTick x s.current_time).response_time +
          ((srtfTick x s.current_time).burst_time -
            (srtfTick x s.current_time).remaining_time) ≤ s.current_time + 1 := by
      rw [f2, f3, f4, f5]
      rcases h4 x hxrem with hfresh | hrun'
      · rw [if_pos hfresh.2]
        constructor <;> omega
      · have hne : x.response_time ≠ -1 := by omega
        rw [if_neg hne]
        constructor <;> omega
    have hothers : ∀ q ∈ A ++ B,
        (q.remaining_time = q.burst_time ∧ q.response_time = -1) ∨
        (0 ≤ q.response_time ∧
          q.arrival_time + q.response_time + (q.burst_time - q.remaining_time) ≤
            s.current_time + 1) := by
      intro q hq
      have hq' : q ∈ s.remaining_processes := by
        rw [e]
        simp only [List.mem_append, List.mem_cons] at hq ⊢
        tauto
      rcases h4 q hq' with h | h
      · exact Or.inl h
      · exact Or.inr ⟨h.1, by omega⟩
    have hdone : ∀ c ∈ s.completed_processes,
        0 ≤ c.response_time ∧
        c.arrival_time + c.response_time + c.burst_time ≤ c.completion_time ∧
        c.completion_time ≤ s.current_time + 1 := by
      intro c hc
      obtain ⟨a1, a2, a3⟩ := h5 c hc
      exact ⟨a1, a2, by omega⟩
    rw [e, sumBurst_append, sumBurst_cons] at h1
    rw [e, progress_append, progress_cons] at h2 h3
    rw [hbody]
    by_cases hz : x.remaining_time - 1 = 0
    · rw [if_pos hz]
      obtain ⟨g1, g2, g3, g4, g5, g6, -, -⟩ :=
        finishRecord_fields (srtfTick x s.current_time) (s.current_time + 1)
      refine ⟨?_, ?_, ?_, hothers, ?_⟩
      · simp only [sumBurst_append, sumBurst_cons, sumBurst_nil, g3, f3]
        omega
      · simp only [sumBurst_append, sumBurst_cons, sumBurst_nil, g3, f3, progress_append]
        omega
      · simp only [sumBurst_append, sumBurst_cons, sumBurst_nil, g3, f3, progress_append]
        omega
      · intro c hc
        simp only [List.mem_append, List.mem_singleton] at hc
        rcases hc with hc | rfl
        · exact hdone c hc
        · rw [g2, g3, g5, g6]
          rw [f4, hz] at hx'
          exact ⟨hx'.1, by omega, le_refl _⟩
    · rw [if_neg hz]
      refine ⟨?_, ?_, ?_, ?_, hdone⟩
      · simp only [sumBurst_append, sumBurst_cons, f3]
        omega
      · simp only [progress_append, progress_cons, f3, f4]
        omega
      · simp only [progress_append, progress_cons, f3, f4]
        omega
      · intro q hq
        simp only [List.mem_append, List.mem_cons] at hq
        rcases hq with hq | rfl | hq
        · exact hothers q (by simp [hq])
        · exact Or.inr hx'
        · exact hothers q (by simp [hq])

/-- The loop of `srtf` on a valid input ends in a state that satisfies the invariant and
the clock facts and has no remaining process. -/
theorem srtf_run_clock (ps : List Process) (hv : ValidInput ps) :
    ∃ r : LoopState,
      (∀ fuel, sumRemaining ps + (maxArrival ps).toNat ≤ fuel →
        whileLoop LoopState.running srtfBody fuel (loopInit ps) = some r) ∧
      SrtfInv ps r ∧ SrtfClock ps r ∧ r.remaining_processes = [] := by
  obtain ⟨r, h1, h2, h3⟩ := whileLoop_result LoopState.running srtfBody
    (fun s => SrtfInv ps s ∧ SrtfClock ps s) (srtfRank ps)
    (fun s hI hc => ⟨⟨srtfInv_step ps hv s hI.1, srtfClock_step ps hv s hI.1 hI.2 hc⟩,
      srtfRank_step ps hv s hI.1 hc⟩)
    (loopInit ps) ⟨srtfInv_init ps hv, srtfClock_init ps hv⟩
  refine ⟨r, ?_, h2.1, h2.2, ?_⟩
  · intro fuel hf
    apply h1
    simpa [srtfRank, loopInit] using hf
  · simpa [LoopState.running] using h3

/-! ## A single process -/

theorem pushArrived_size_zero (s : RRState) (h : s.size = 0) : pushArrived s = s := by
  obtain ⟨buf, size, queue, comp, t⟩ := s
  simp only at h
  subst h
  rfl

theorem rrDispatch_single (q t : Int) (x : Process) (comp : List Process) :
    rrDispatch q ⟨[x], 0, [0], comp, t⟩ =
      if x.remaining_time - min q x.remaining_time = 0 then
        ⟨[finishRecord (rrSlice q x t) (t + min q x.remaining_time)], 0, [],
          comp ++ [finishRecord (rrSlice q x t) (t + min q x.remaining_time)],
          t + min q x.remaining_time⟩
      else
        ⟨[rrSlice q x t], 0, [0], comp, t + min q x.remaining_time⟩ := by
  rw [rrDispatch_eq q ⟨[x], 0, [0], comp, t⟩ 0 [] rfl]
  simp [deref]

theorem rrBody_single_queued (q t : Int) (x : Process) (comp : List Process) :
    rrBody q ⟨[x], 0, [0], comp, t⟩ = rrDispatch q ⟨[x], 0, [0], comp, t⟩ := by
  have h1 : pushArrived ⟨[x], 0, [0], comp, t⟩ = ⟨[x], 0, [0], comp, t⟩ :=
    pushArrived_size_zero _ rfl
  simp only [rrBody, h1, List.isEmpty_cons, Bool.false_eq_true, if_false]
  apply pushArrived_size_zero
  rw [rrDispatch_single]
  split <;> rfl

theorem rrSlice_fresh (q pid a b t : Int) :
    rrSlice q ⟨pid, a, b, b, 0, 0, 0, -1⟩ t = ⟨pid, a, b, b - min q b, 0, 0, 0, t - a⟩ := by
  simp [rrSlice]

theorem rrSlice_started (q pid a b r t : Int) :
    rrSlice q ⟨pid, a, b, r, 0, 0, 0, 0⟩ t = ⟨pid, a, b, r - min q r, 0, 0, 0, 0⟩ := by
  simp [rrSlice]

theorem finishRecord_mk (pid a b r c w u resp t : Int) :
    finishRecord ⟨pid, a, b, r, c, w, u, resp⟩ t = ⟨pid, a, b, r, t, t - a - b, t - a, resp⟩ :=
  rfl

theorem min_cases (q r : Int) (hr : 0 < r) :
    (min q r = r ∧ r - min q r = 0) ∨ (min q r = q ∧ q < r ∧ r - min q r ≠ 0) := by
  rcases le_total q r with h | h
  · rcases eq_or_lt_of_le h with h' | h'
    · left; subst h'; simp
    · right; rw [min_eq_left h]; exact ⟨rfl, h', by omega⟩
  · left; rw [min_eq_right h]; exact ⟨rfl, by omega⟩

theorem rrSingle_step (pid a b q : Int) (hb : 0 < b) (hq : 0 < q) (s : RRState)
    (hS : RRSingle pid a b s) (hrun : s.running = true) :
    RRSingle pid a b (rrBody q s) := by
  obtain ⟨buf, size, queue, comp, t⟩ := s
  rcases hS with ⟨h1, h2, h3, h4, h5⟩ | ⟨r, hr0, hrb, h1, h2, h3, h4, h5⟩ |
    ⟨h1, h2, h3, h4, h5⟩
  · simp only at h1 h2 h3 h4 h5
    subst h1 h2 h3 h4
    by_cases hat : a ≤ t
    · have hta : t = a := le_antisymm h5 hat
      subst hta
      have hp : pushArrived ⟨[⟨pid, t, b, b, 0, 0, 0, -1⟩], 1, [], [], t⟩ =
          ⟨[⟨pid, t, b, b, 0, 0, 0, -1⟩], 0, [0], [], t⟩ := by
        simp [pushArrived, pushArrivedLoop, deref, vectorErase]
      have hbody : rrBody q ⟨[⟨pid, t, b, b, 0, 0, 0, -1⟩], 1, [], [], t⟩ =
          rrDispatch q ⟨[⟨pid, t, b, b, 0, 0, 0, -1⟩], 0, [0], [], t⟩ := by
        rw [← rrBody_single_queued]
        simp only [rrBody, hp]
        rw [pushArrived_size_zero ⟨[⟨pid, t, b, b, 0, 0, 0, -1⟩], 0, [0], [], t⟩ rfl]
      rw [hbody, rrDispatch_single, rrSlice_fresh, finishRecord_mk]
      dsimp only
      rcases min_cases q b hb with ⟨hmin, hz⟩ | ⟨hmin, hqb, hz⟩
      · rw [if_pos hz, hmin]
        right; right
        refine ⟨?_, rfl, rfl, ?_, rfl⟩
        · simp only [List.cons.injEq, Process.mk.injEq, and_true, true_and]; omega
        · simp only [List.nil_append, List.cons.injEq, Process.mk.injEq, and_true, true_and]
          omega
      · rw [if_neg hz, hmin]
        right; left
        refine ⟨b - q, by omega, by omega, ?_, rfl, rfl, rfl, ?_⟩
        · simp only [List.cons.injEq, Process.mk.injEq, and_true, true_and]; omega
        · simp only; omega
    · have hp : pushArrived ⟨[⟨pid, a, b, b, 0, 0, 0, -1⟩], 1, [], [], t⟩ =
          ⟨[⟨pid, a, b, b, 0, 0, 0, -1⟩], 1, [], [], t⟩ := by
        simp [pushArrived, pushArrivedLoop, deref, hat]
      left
      simp only [rrBody, hp, List.isEmpty_nil, if_true]
      exact ⟨trivial, trivial, trivial, trivial, by omega⟩
  · simp only at h1 h2 h3 h4 h5
    subst h1 h2 h3 h4 h5
    rw [rrBody_single_queued, rrDispatch_single, rrSlice_started, finishRecord_mk]
    dsimp only
    rcases min_cases q r hr0 with ⟨hmin, hz⟩ | ⟨hmin, hqb, hz⟩
    · rw [if_pos hz, hmin]
      right; right
      refine ⟨?_, rfl, rfl, ?_, ?_⟩
      · simp only [List.cons.injEq, Process.mk.injEq, and_true, true_and]; omega
      · simp only [List.nil_append, List.cons.injEq, Process.mk.injEq, and_true, true_and]
        omega
      · simp only; omega
    · rw [if_neg hz, hmin]
      right; left
      refine ⟨r - q, by omega, by omega, rfl, rfl, rfl, rfl, ?_⟩
      simp only; omega
  · simp only at h2 h3
    subst h2 h3
    simp [RRState.running] at hrun

theorem validInput_single (pid a b : Int) (ha : 0 ≤ a) (hb : 0 < b) :
    ValidInput [Process.new pid a b] := by
  refine ⟨by simp, ?_, by simp⟩
  intro p hp
  rw [List.mem_singleton] at hp
  subst hp
  exact ⟨rfl, ha, hb⟩

theorem maxArrival_single (pid a b : Int) (ha : 0 ≤ a) :
    maxArrival [Process.new pid a b] = a := by
  simp [maxArrival, Process.new, ha]

theorem eq_singleton_of_map_perm (l : List Process) (pid : Int)
    (h : (l.map Process.pid).Perm [pid]) : ∃ c, l = [c] ∧ c.pid = pid := by
  have h1 := List.perm_singleton.1 h
  cases l with
  | nil => simp at h1
  | cons c l =>
    cases l with
    | nil => exact ⟨c, rfl, by simpa using h1⟩
    | cons c' l => simp at h1

/-- C11: a single process with `arrival_time = a >= 0` and `burst_time = b > 0` is
completed by each of the four policies (`round_robin` with any positive quantum) as
exactly one record, with `waiting_time = 0`, `response_time = 0` and
`completion_time = a + b`, and the final clock is `a + b`. -/
theorem single_process_schedule (sort : List Process → List Process)
    (hsort : StdSortSpec sort) (pid a b time_quantum : Int) (ha : 0 ≤ a) (hb : 0 < b)
    (hq : 0 < time_quantum) :
    (((Scheduler.new [Process.new pid a b]).fcfs sort).completed_processes.map
        (fun c => (c.pid, c.waiting_time, c.response_time, c.completion_time)) =
        [(pid, 0, 0, a + b)] ∧
      ((Scheduler.new [Process.new pid a b]).fcfs sort).current_time = a + b) ∧
    (∃ r : Scheduler,
      (∀ fuel, 1 + a.toNat ≤ fuel →
        (Scheduler.new [Process.new pid a b]).sjf fuel = some r) ∧
      r.completed_processes.map
        (fun c => (c.pid, c.waiting_time, c.response_time, c.completion_time)) =
        [(pid, 0, 0, a + b)] ∧
      r.current_time = a + b) ∧
    (∃ r : Scheduler,
      (∀ fuel, b.toNat + a.toNat ≤ fuel →
        (Scheduler.new [Process.new pid a b]).srtf fuel = some r) ∧
      r.completed_processes.map
        (fun c => (c.pid, c.waiting_time, c.response_time, c.completion_time)) =
        [(pid, 0, 0, a + b)] ∧
      r.current_time = a + b) ∧
    (∃ r : Scheduler,
      (∀ fuel, rrFuel [Process.new pid a b] ≤ fuel →
        (Scheduler.new [Process.new pid a b]).round_robin time_quantum fuel = some r) ∧
      r.completed_processes.map
        (fun c => (c.pid, c.waiting_time, c.response_time, c.completion_time)) =
        [(pid, 0, 0, a + b)] ∧
      r.current_time = a + b) := by
  have hv := validInput_single pid a b ha hb
  have hM := maxArrival_single pid a b ha
  refine ⟨?_, ?_, ?_, ?_⟩
  · have hs : sort [Process.new pid a b] = [Process.new pid a b] :=
      List.perm_singleton.1 (hsort _).1
    rw [fcfs_eq, hs]
    simp only [fcfsRecords, fcfsClock, fcfsBody_eq, List.map_cons, List.map_nil]
    simp only [sjfRecord, Process.new, max_eq_right ha]
    refine ⟨?_, trivial⟩
    simp only [List.cons.injEq, Prod.mk.injEq, and_true, true_and]
    omega
  · obtain ⟨r, h1, h2, h3, h4⟩ := sjf_run_clock _ hv
    have hperm := h2.perm
    rw [h4, List.map_nil, List.append_nil] at hperm
    obtain ⟨c, hc, -⟩ := eq_singleton_of_map_perm _ pid hperm
    obtain ⟨p, hp, d, e, hd1, hd2⟩ := h2.done c (by rw [hc]; simp)
    rw [List.mem_singleton] at hp
    subst hp
    have hle := h3.clock_le
    rw [hc, hM, sumBurst_cons, sumBurst_nil, e] at hle
    simp only [sjfRecord, Process.new] at hle hd1 hd2
    refine ⟨⟨[Process.new pid a b], r.completed_processes, r.current_time⟩, ?_, ?_, ?_⟩
    · intro fuel hf
      exact sjf_eq fuel _ r (h1 fuel (by rw [hM]; simpa using hf))
    · simp only [hc, e, sjfRecord, Process.new, List.map_cons, List.map_nil,
        List.cons.injEq, Prod.mk.injEq, and_true, true_and]
      omega
    · simp only; omega
  · obtain ⟨r, h1, h2, h3, h4⟩ := srtf_run_clock _ hv
    have hperm := h2.perm
    rw [h4, List.map_nil, List.append_nil] at hperm
    obtain ⟨c, hc, -⟩ := eq_singleton_of_map_perm _ pid hperm
    obtain ⟨p, hp, a1, a2, a3, a4, a5, a6⟩ := h2.done c (by rw [hc]; simp)
    rw [List.mem_singleton] at hp
    subst hp
    obtain ⟨b1, b2, b3⟩ := h3.resp_done c (by rw [hc]; simp)
    have hle := h3.clock_le
    rw [hc, h4, hM, sumBurst_cons, sumBurst_nil, progress_nil] at hle
    simp only [Process.new] at a1 a2 a3
    refine ⟨⟨[Process.new pid a b], r.completed_processes, r.current_time⟩, ?_, ?_, ?_⟩
    · intro fuel hf
      refine srtf_eq fuel _ r (h1 fuel ?_)
      rw [hM]
      simpa [sumRemaining, Process.new] using hf
    · simp only [hc, List.map_cons, List.map_nil, List.cons.injEq, Prod.mk.injEq, and_true]
      omega
    · simp only; omega
  · obtain ⟨r, h1, h2, h3⟩ := whileLoop_result RRState.running (rrBody time_quantum)
      (fun s => RRInv [Process.new pid a b] s ∧ RRSingle pid a b s)
      (rrRank [Process.new pid a b])
      (fun s hI hc => ⟨⟨rrInv_step _ time_quantum hq s hI.1,
          rrSingle_step pid a b time_quantum hb hq s hI.2 hc⟩,
        rrRank_step _ time_quantum hq s hI.1 hc⟩)
      (rrInit [Process.new pid a b])
      ⟨rrInv_init _ hv, Or.inl ⟨rfl, rfl, rfl, rfl, ha⟩⟩
    have hfin : r.completed_processes = [⟨pid, a, b, 0, a + b, 0, b, 0⟩] ∧
        r.current_time = a + b := by
      rcases h2.2 with ⟨-, g2, -⟩ | ⟨_, -, -, -, -, g3, -⟩ | ⟨-, -, -, g4, g5⟩
      · simp [RRState.running, g2] at h3
      · simp [RRState.running, g3] at h3
      · exact ⟨g4, g5⟩
    refine ⟨⟨[Process.new pid a b], r.completed_processes, r.current_time⟩, ?_, ?_, hfin.2⟩
    · intro fuel hf
      refine rr_eq time_quantum fuel _ r (h1 fuel ?_)
      simpa [rrRank, rrInit, rrFuel, queueWork] using hf
    · simp only [hfin.1, List.map_cons, List.map_nil]

/-- C11 for the process `(1, 4, 3)` with insertion sort and quantum 2. -/
theorem single_process_schedule_witness :
    StdSortSpec insertionSortByArrival ∧ (0 : Int) ≤ 4 ∧ (0 : Int) < 3 ∧ (0 : Int) < 2 ∧
    ∃ r : Scheduler,
      (∀ fuel, rrFuel [Process.new 1 4 3] ≤ fuel →
        (Scheduler.new [Process.new 1 4 3]).round_robin 2 fuel = some r) ∧
      r.completed_processes.map
        (fun c => (c.pid, c.waiting_time, c.response_time, c.completion_time)) =
        [(1, 0, 0, 4 + 3)] ∧
      r.current_time = 4 + 3 :=
  ⟨insertionSortByArrival_spec, by decide, by decide, by decide,
    (single_process_schedule insertionSortByArrival insertionSortByArrival_spec 1 4 3 2
      (by decide) (by decide) (by decide)).2.2.2⟩

/-! ## Coarser loops -/

/-- A loop that ends, and whose condition holds on the first `k` iterates, runs those
`k` iterations first. -/
theorem whileLoop_skip {σ : Type} (cond : σ → Bool) (body : σ → σ) :
    ∀ (k n : Nat) (s r : σ), (∀ m, m < k → cond (body^[m] s) = true) →
      whileLoop cond body n s = some r →
      k ≤ n ∧ whileLoop cond body (n - k) (body^[k] s) = some r := by
  intro k
  induction k with
  | zero => intro n s r _ h; exact ⟨Nat.zero_le _, h⟩
  | succ k ih =>
    intro n s r hall h
    have hc : cond s = true := hall 0 (Nat.succ_pos _)
    cases n with
    | zero => simp [whileLoop, hc] at h
    | succ n =>
      simp only [whileLoop, hc, if_true] at h
      obtain ⟨h1, h2⟩ := ih n (body s) r
        (fun m hm => by
          have := hall (m + 1) (Nat.succ_lt_succ hm)
          rwa [Function.iterate_succ_apply] at this) h
      refine ⟨Nat.succ_le_succ h1, ?_⟩
      rw [Function.iterate_succ_apply, Nat.succ_sub_succ]
      exact h2

/-- If one iteration of the body `b₁` does what `k >= 1` iterations of `b₂` do, related
by `R`, and the loop with `b₂` ends, then the loop with `b₁` ends within the same fuel in
a related state. -/
theorem whileLoop_coarsen {σ τ : Type} (c₁ : σ → Bool) (b₁ : σ → σ) (c₂ : τ → Bool)
    (b₂ : τ → τ) (R : σ → τ → Prop) (hcond : ∀ s t, R s t → c₁ s = c₂ t)
    (hstep : ∀ s t, R s t → c₁ s = true →
      ∃ k, 1 ≤ k ∧ R (b₁ s) (b₂^[k] t) ∧ ∀ m, m < k → c₂ (b₂^[m] t) = true) :
    ∀ (n : Nat) (s : σ) (t r : τ), R s t → whileLoop c₂ b₂ n t = some r →
      ∃ r', whileLoop c₁ b₁ n s = some r' ∧ R r' r := by
  intro n
  induction n using Nat.strong_induction_on with
  | _ n ih =>
    intro s t r hR h
    by_cases hc : c₁ s = true
    · obtain ⟨k, hk, hR', hall⟩ := hstep s t hR hc
      obtain ⟨hkn, h2⟩ := whileLoop_skip c₂ b₂ k n t r hall h
      obtain ⟨r', h3, h4⟩ := ih (n - k) (by omega) (b₁ s) (b₂^[k] t) r hR' h2
      refine ⟨r', ?_, h4⟩
      obtain ⟨n', rfl⟩ : ∃ n', n = n' + 1 := ⟨n - 1, by omega⟩
      simp only [whileLoop, hc, if_true]
      have h5 := whileLoop_mono c₁ b₁ (n' + 1 - k) (b₁ s) r' h3 (k - 1)
      have e : n' + 1 - k + (k - 1) = n' := by omega
      rwa [e] at h5
    · have hc2 : c₂ t = false := by
        rw [← hcond s t hR]; simpa using hc
      have hr : r = t := by
        cases n with
        | zero => simpa [whileLoop, hc2] using h.symm
        | succ n => simpa [whileLoop, hc2] using h.symm
      refine ⟨s, ?_, hr ▸ hR⟩
      cases n with
      | zero => simp [whileLoop, hc]
      | succ n => simp [whileLoop, hc]

/-! ## The idle step as a jump -/

theorem nextArrival_foldl_le (rest : List Process) :
    ∀ m : Int, rest.foldl (fun m q => min m q.arrival_time) m ≤ m ∧
      (∀ p ∈ rest, rest.foldl (fun m q => min m q.arrival_time) m ≤ p.arrival_time) ∧
      (rest.foldl (fun m q => min m q.arrival_time) m = m ∨
        ∃ p ∈ rest, p.arrival_time = rest.foldl (fun m q => min m q.arrival_time) m) := by
  induction rest with
  | nil => intro m; simp
  | cons a rest ih =>
    intro m
    obtain ⟨h1, h2, h3⟩ := ih (min m a.arrival_time)
    simp only [List.foldl_cons]
    refine ⟨le_trans h1 (min_le_left _ _), ?_, ?_⟩
    · intro p hp
      rcases List.mem_cons.1 hp with rfl | hp
      · exact le_trans h1 (min_le_right _ _)
      · exact h2 p hp
    · rcases h3 with h3 | ⟨p, hp, h3⟩
      · rcases le_total m a.arrival_time with h | h
        · left; rw [h3, min_eq_left h]
        · right; exact ⟨a, by simp, by rw [h3, min_eq_right h]⟩
      · right; exact ⟨p, by simp [hp], h3⟩

/-- The next arrival time of a non-empty list is the least of its arrival times. -/
theorem nextArrival_spec (l : List Process) (t : Int) (hl : l ≠ []) :
    (∀ p ∈ l, nextArrival l t ≤ p.arrival_time) ∧
    ∃ p ∈ l, p.arrival_time = nextArrival l t := by
  cases l with
  | nil => exact absurd rfl hl
  | cons a rest =>
    obtain ⟨h1, h2, h3⟩ := nextArrival_foldl_le rest a.arrival_time
    simp only [nextArrival]
    refine ⟨?_, ?_⟩
    · intro p hp
      rcases List.mem_cons.1 hp with rfl | hp
      · exact h1
      · exact h2 p hp
    · rcases h3 with h3 | ⟨p, hp, h3⟩
      · exact ⟨a, by simp, h3.symm⟩
      · exact ⟨p, by simp [hp], h3⟩

/-- Idle iterations of a loop over `LoopState` whose body ticks the clock when nothing is
available: as long as the clock stays at or below every arrival time, `m` iterations
only add `m` to the clock. -/
theorem idle_iterate (body : LoopState → LoopState) (pick : LoopState → Option Nat)
    (hpick : ∀ s, pick s = none ↔ ∀ p ∈ s.remaining_processes,
      s.current_time < p.arrival_time)
    (hidle : ∀ s, pick s = none → body s = { s with current_time := s.current_time + 1 })
    (s : LoopState) :
    ∀ m : Nat, (∀ p ∈ s.remaining_processes, s.current_time + m ≤ p.arrival_time) →
      body^[m] s = { s with current_time := s.current_time + m } := by
  intro m
  induction m with
  | zero => intro _; simp
  | succ m ih =>
    intro h
    have h1 := ih (fun p hp => by have := h p hp; push_cast at this; omega)
    rw [Function.iterate_succ_apply', h1]
    have h2 : pick { s with current_time := s.current_time + m } = none := by
      rw [hpick]
      intro p hp
      have := h p hp
      push_cast at this
      simp only at hp ⊢
      omega
    rw [hidle _ h2]
    simp only [LoopState.mk.injEq, true_and]
    push_cast
    omega

/-- The idle steps of a loop over `LoopState` up to the next dispatch amount to one jump
of the clock to the next arrival time. -/
theorem idle_jump (body : LoopState → LoopState) (pick : LoopState → Option Nat)
    (hpick : ∀ s, pick s = none ↔ ∀ p ∈ s.remaining_processes,
      s.current_time < p.arrival_time)
    (hidle : ∀ s, pick s = none → body s = { s with current_time := s.current_time + 1 })
    (s : LoopState) (hrun : s.running = true) (hnone : pick s = none) :
    ∃ k : Nat, 1 ≤ k ∧
      s.current_time + k = nextArrival s.remaining_processes s.current_time ∧
      body^[k] s =
        { s with current_time := nextArrival s.remaining_processes s.current_time } ∧
      (∀ m, m < k → pick (body^[m] s) = none ∧ (body^[m] s).running = true) ∧
      pick (body^[k] s) ≠ none := by
  have hne : s.remaining_processes ≠ [] := by
    intro h
    simp [LoopState.running, h] at hrun
  obtain ⟨h1, p, hp, h2⟩ := nextArrival_spec s.remaining_processes s.current_time hne
  have h3 := (hpick s).1 hnone p hp
  have hk : s.current_time +
      ((nextArrival s.remaining_processes s.current_time - s.current_time).toNat : Int) =
        nextArrival s.remaining_processes s.current_time := by
    omega
  have hit : ∀ m : Nat,
      m ≤ (nextArrival s.remaining_processes s.current_time - s.current_time).toNat →
      body^[m] s = { s with current_time := s.current_time + m } := by
    intro m hm
    apply idle_iterate body pick hpick hidle s m
    intro q hq
    have := h1 q hq
    omega
  refine ⟨(nextArrival s.remaining_processes s.current_time - s.current_time).toNat,
    by omega, hk, ?_, ?_, ?_⟩
  · rw [hit _ (le_refl _), hk]
  · intro m hm
    rw [hit m (le_of_lt hm)]
    refine ⟨?_, hrun⟩
    rw [hpick]
    intro q hq
    have := h1 q hq
    simp only at hq ⊢
    omega
  · rw [hit _ (le_refl _), hk]
    intro h
    have := (hpick _).1 h p hp
    simp only at this
    omega

theorem sjfPick_eq_none (s : LoopState) :
    sjfPick s = none ↔ ∀ p ∈ s.remaining_processes, s.current_time < p.arrival_time :=
  pick_eq_none Process.burst_time _ _

theorem srtfPick_eq_none (s : LoopState) :
    srtfPick s = none ↔ ∀ p ∈ s.remaining_processes, s.current_time < p.arrival_time :=
  pick_eq_none Process.remaining_time _ _

/-- The loop of `sjf` with jumps ends in the same state as the loop of `sjf`. -/
theorem sjf_jump_refines (n : Nat) (s r : LoopState)
    (h : whileLoop LoopState.running sjfBody n s = some r) :
    whileLoop LoopState.running sjfBodyJump n s = some r := by
  obtain ⟨r', h1, h2⟩ := whileLoop_coarsen LoopState.running sjfBodyJump LoopState.running
    sjfBody (fun a b => a = b) (fun a b hab => by rw [hab])
    (fun a b hab hc => by
      subst hab
      cases hp : sjfPick a with
      | none =>
        obtain ⟨k, hk, -, h3, h4, -⟩ := idle_jump sjfBody sjfPick sjfPick_eq_none
          (fun s hs => (sjfBody_idle s hs).1) a hc hp
        exact ⟨k, hk, by simp only [sjfBodyJump, hp]; exact h3.symm, fun m hm => (h4 m hm).2⟩
      | some j =>
        refine ⟨1, le_refl _, by simp [sjfBodyJump, hp], fun m hm => ?_⟩
        obtain rfl : m = 0 := by omega
        exact hc)
    n s s r rfl h
  rw [h1, h2]

/-- The loop of `srtf` with jumps ends in the same state as the loop of `srtf`. -/
theorem srtf_jump_refines (n : Nat) (s r : LoopState)
    (h : whileLoop LoopState.running srtfBody n s = some r) :
    whileLoop LoopState.running srtfBodyJump n s = some r := by
  obtain ⟨r', h1, h2⟩ := whileLoop_coarsen LoopState.running srtfBodyJump LoopState.running
    srtfBody (fun a b => a = b) (fun a b hab => by rw [hab])
    (fun a b hab hc => by
      subst hab
      cases hp : srtfPick a with
      | none =>
        obtain ⟨k, hk, -, h3, h4, -⟩ := idle_jump srtfBody srtfPick srtfPick_eq_none
          (fun s hs => (srtfBody_idle s hs).1) a hc hp
        exact ⟨k, hk, by simp only [srtfBodyJump, hp]; exact h3.symm,
          fun m hm => (h4 m hm).2⟩
      | some j =>
        refine ⟨1, le_refl _, by simp [srtfBodyJump, hp], fun m hm => ?_⟩
        obtain rfl : m = 0 := by omega
        exact hc)
    n s s r rfl h
  rw [h1, h2]

theorem pushArrivedLoop_none (t : Int) :
    ∀ (fuel it : Nat) (buf : List Process) (size : Nat) (queue : List Nat),
      (∀ i, it ≤ i → i < size → t < (deref buf i).arrival_time) →
      pushArrivedLoop t fuel it (buf, size, queue) = (buf, size, queue) := by
  intro fuel
  induction fuel with
  | zero => intro it buf size queue _; rfl
  | succ n ih =>
    intro it buf size queue h
    by_cases hit : it < size
    · have ha : ¬ (deref buf it).arrival_time ≤ t := not_le.2 (h it (le_refl _) hit)
      simp only [pushArrivedLoop, hit, ha, if_true, if_false]
      exact ih (it + 1) buf size queue (fun i hi1 hi2 => h i (by omega) hi2)
    · simp only [pushArrivedLoop, hit, if_false]

theorem pushArrived_none (s : RRState)
    (h : ∀ i, i < s.size → s.current_time < (deref s.buf i).arrival_time) :
    pushArrived s = s := by
  simp only [pushArrived]
  rw [pushArrivedLoop_none s.current_time s.size 0 s.buf s.size s.queue
    (fun i _ hi => h i hi)]

theorem mem_take_iff_deref (buf : List Process) (size : Nat) (hs : size ≤ buf.length)
    (P : Process → Prop) :
    (∀ p ∈ buf.take size, P p) ↔ ∀ i, i < size → P (deref buf i) := by
  constructor
  · intro h i hi
    have hi' : i < buf.length := lt_of_lt_of_le hi hs
    rw [deref_eq_getElem buf i hi']
    apply h
    rw [List.mem_iff_getElem]
    exact ⟨i, by simp [hi, hi'], by simp⟩
  · intro h p hp
    obtain ⟨i, hi, rfl⟩ := List.getElem_of_mem hp
    simp only [List.length_take, lt_min_iff] at hi
    have := h i hi.1
    rw [deref_eq_getElem buf i hi.2] at this
    simpa using this

theorem rrDispatch_shape (q : Int) (s : RRState) :
    (rrDispatch q s).size = s.size ∧ (rrDispatch q s).buf.length = s.buf.length := by
  cases hq : s.queue with
  | nil => simp [rrDispatch, hq]
  | cons h tl =>
    rw [rrDispatch_eq q s h tl hq]
    split <;> simp

theorem rrWf_step (q : Int) (s : RRState) (h : s.size ≤ s.buf.length) :
    (rrBody q s).size ≤ (rrBody q s).buf.length := by
  obtain ⟨h1, -, h3, -⟩ := pushArrived_spec s h
  have h4 : (pushArrived s).size ≤ (pushArrived s).buf.length := by omega
  unfold rrBody
  by_cases he : (pushArrived s).queue.isEmpty = true
  · simp only [he, if_true]; exact h4
  · simp only [he, Bool.false_eq_true, if_false]
    obtain ⟨g1, g2⟩ := rrDispatch_shape q (pushArrived s)
    obtain ⟨k1, -, k3, -⟩ := pushArrived_spec (rrDispatch q (pushArrived s)) (by omega)
    omega

theorem rrWf_iterate (q : Int) (s : RRState) (h : s.size ≤ s.buf.length) (n : Nat) :
    ((rrBody q)^[n] s).size ≤ ((rrBody q)^[n] s).buf.length := by
  induction n with
  | zero => exact h
  | succ n ih =>
    rw [Function.iterate_succ_apply']
    exact rrWf_step q _ ih

/-- Idle iterations of the loop of `round_robin`: with an empty queue, as long as the
clock stays at or below the arrival time of every element of the vector, `m` iterations
only add `m` to the clock. -/
theorem rr_idle_iterate (q : Int) (s : RRState) (hs : s.size ≤ s.buf.length)
    (hqueue : s.queue = []) :
    ∀ m : Nat, (∀ p ∈ s.buf.take s.size, s.current_time + m ≤ p.arrival_time) →
      (rrBody q)^[m] s = { s with current_time := s.current_time + m } := by
  obtain ⟨buf, size, queue, comp, t⟩ := s
  simp only at hqueue hs
  subst hqueue
  intro m
  induction m with
  | zero => intro _; simp
  | succ m ih =>
    intro h
    simp only at h ih ⊢
    have h1 := ih (fun p hp => by have := h p hp; push_cast at this; omega)
    rw [Function.iterate_succ_apply', h1]
    have h2 : pushArrived ⟨buf, size, [], comp, t + m⟩ = ⟨buf, size, [], comp, t + m⟩ := by
      apply pushArrived_none
      intro i hi
      have := (mem_take_iff_deref buf size hs
        (fun p => t + ((m + 1 : Nat) : Int) ≤ p.arrival_time)).1 h i hi
      push_cast at this
      simp only
      omega
    simp only [rrBody, h2, List.isEmpty_nil, if_true, RRState.mk.injEq, true_and]
    push_cast
    omega

/-- The idle steps of the loop of `round_robin` up to the next dispatch amount to one
jump of the clock to the next arrival time among the elements of the vector. -/
theorem rr_idle_jump (q : Int) (s : RRState) (hs : s.size ≤ s.buf.length)
    (hrun : s.running = true) (hidle : (pushArrived s).queue.isEmpty = true) :
    ∃ k : Nat, 1 ≤ k ∧
      s.current_time + k = nextArrival (s.buf.take s.size) s.current_time ∧
      (rrBody q)^[k] s = rrBodyJump q s ∧
      rrBodyJump q s =
        { s with current_time := nextArrival (s.buf.take s.size) s.current_time } ∧
      (∀ m, m < k → ((rrBody q)^[m] s).running = true ∧
        (pushArrived ((rrBody q)^[m] s)).queue.isEmpty = true) ∧
      (pushArrived ((rrBody q)^[k] s)).queue.isEmpty = false := by
  obtain ⟨-, -, -, ⟨adm, hadm, hadm2, -⟩, hsame, -, -⟩ := pushArrived_spec s hs
  have hq1 : (pushArrived s).queue = [] := by simpa using hidle
  rw [hq1] at hadm
  have hq0 : s.queue = [] := (List.append_eq_nil.1 hadm.symm).1
  have hadm0 : adm = [] := (List.append_eq_nil.1 hadm.symm).2
  have hsize : (pushArrived s).size = s.size := by rw [hadm0] at hadm2; simpa using hadm2
  obtain ⟨heq, hall⟩ := hsame hsize
  have hpos : 0 < s.size := by
    simp only [RRState.running, hq0, List.isEmpty_nil, Bool.not_true, Bool.or_false,
      Bool.not_eq_true', beq_eq_false_iff_ne, ne_eq] at hrun
    omega
  have hne : s.buf.take s.size ≠ [] := by
    intro h
    have := congrArg List.length h
    simp only [List.length_take, List.length_nil] at this
    omega
  obtain ⟨h1, p, hp, h2⟩ := nextArrival_spec (s.buf.take s.size) s.current_time hne
  have hall' := (mem_take_iff_deref s.buf s.size hs
    (fun p => s.current_time < p.arrival_time)).2 hall
  have h3 := hall' p hp
  have hk : s.current_time +
      ((nextArrival (s.buf.take s.size) s.current_time - s.current_time).toNat : Int) =
        nextArrival (s.buf.take s.size) s.current_time := by
    omega
  have hit : ∀ m : Nat,
      m ≤ (nextArrival (s.buf.take s.size) s.current_time - s.current_time).toNat →
      (rrBody q)^[m] s = { s with current_time := s.current_time + m } := by
    intro m hm
    apply rr_idle_iterate q s hs hq0 m
    intro p' hp'
    have := h1 p' hp'
    omega
  have hjump : rrBodyJump q s =
      { s with current_time := nextArrival (s.buf.take s.size) s.current_time } := by
    simp only [rrBodyJump, hidle, if_true]
    rw [heq]
  refine ⟨(nextArrival (s.buf.take s.size) s.current_time - s.current_time).toNat,
    by omega, hk, ?_, hjump, ?_, ?_⟩
  · rw [hit _ (le_refl _), hk, hjump]
  · intro m hm
    rw [hit m (le_of_lt hm)]
    refine ⟨hrun, ?_⟩
    rw [pushArrived_none]
    · simp [hq0]
    · intro i hi
      have := h1 _ ((List.mem_iff_getElem).2 ⟨i, by simp [hi, lt_of_lt_of_le hi hs], rfl⟩)
      rw [List.getElem_take, ← deref_eq_getElem] at this
      simp only
      omega
  · rw [hit _ (le_refl _), hk]
    by_contra hcon
    have hcon' : (pushArrived
        { s with current_time := nextArrival (s.buf.take s.size) s.current_time }).queue
        = [] := by
      simpa using hcon
    obtain ⟨-, -, -, ⟨adm', hadm', hadm2', -⟩, hsame', -, -⟩ := pushArrived_spec
      { s with current_time := nextArrival (s.buf.take s.size) s.current_time } hs
    rw [hcon'] at hadm'
    have hadm0' : adm' = [] := (List.append_eq_nil.1 hadm'.symm).2
    rw [hadm0'] at hadm2'
    obtain ⟨-, hall2⟩ := hsame' (by simpa using hadm2')
    have := (mem_take_iff_deref s.buf s.size hs
      (fun p => nextArrival (s.buf.take s.size) s.current_time < p.arrival_time)).2
      hall2 p hp
    simp only at this
    omega

/-- The loop of `round_robin` with jumps ends in the same state as the loop of
`round_robin`. -/
theorem rr_jump_refines (q : Int) (n : Nat) (s r : RRState) (hs : s.size ≤ s.buf.length)
    (h : whileLoop RRState.running (rrBody q) n s = some r) :
    whileLoop RRState.running (rrBodyJump q) n s = some r := by
  obtain ⟨r', h1, h2⟩ := whileLoop_coarsen RRState.running (rrBodyJump q) RRState.running
    (rrBody q) (fun a b => a = b ∧ b.size ≤ b.buf.length) (fun a b hab => by rw [hab.1])
    (fun a b hab hc => by
      obtain ⟨rfl, hwf⟩ := hab
      by_cases hidle : (pushArrived a).queue.isEmpty = true
      · obtain ⟨k, hk, -, h3, -, h4, -⟩ := rr_idle_jump q a hwf hc hidle
        exact ⟨k, hk, ⟨h3.symm, rrWf_iterate q a hwf k⟩, fun m hm => (h4 m hm).1⟩
      · refine ⟨1, le_refl _, ⟨by simp [rrBodyJump, hidle], rrWf_step q a hwf⟩,
          fun m hm => ?_⟩
        obtain rfl : m = 0 := by omega
        exact hc)
    n s s r ⟨rfl, hs⟩ h
  rw [h1, h2.1]

theorem sjfJump_eq (fuel : Nat) (ps : List Process) (r : LoopState)
    (h : whileLoop LoopState.running sjfBodyJump fuel (loopInit ps) = some r) :
    (Scheduler.new ps).sjfJump fuel = some ⟨ps, r.completed_processes, r.current_time⟩ := by
  simp only [Scheduler.sjfJump, Scheduler.new]
  rw [show (LoopState.mk ps [] 0) = loopInit ps from rfl, h]
  rfl

theorem srtfJump_eq (fuel : Nat) (ps : List Process) (r : LoopState)
    (h : whileLoop LoopState.running srtfBodyJump fuel (loopInit ps) = some r) :
    (Scheduler.new ps).srtfJump fuel =
      some ⟨ps, r.completed_processes, r.current_time⟩ := by
  simp only [Scheduler.srtfJump, Scheduler.new]
  rw [show (LoopState.mk ps [] 0) = loopInit ps from rfl, h]
  rfl

theorem rrJump_eq (q : Int) (fuel : Nat) (ps : List Process) (r : RRState)
    (h : whileLoop RRState.running (rrBodyJump q) fuel (rrInit ps) = some r) :
    (Scheduler.new ps).round_robinJump q fuel =
      some ⟨ps, r.completed_processes, r.current_time⟩ := by
  simp only [Scheduler.round_robinJump, Scheduler.new]
  rw [show (RRState.mk ps ps.length [] [] 0) = rrInit ps from rfl, h]
  rfl

/-- C19: for every valid input, in `sjf`, `srtf` and `round_robin` (positive quantum), take
any state of the loop in which the loop goes on and nothing is available (for
`round_robin`: the queue is empty after the arrival loop). Then the unit steps of the
clock go on for `k >= 1` iterations that dispatch nothing and change nothing but the
clock, which ends at the smallest `arrival_time` of the processes still in
`remaining_processes`, and the next iteration dispatches. Replacing the unit step by one
jump of the clock to that arrival time gives the same completed sequence and the same
final clock. -/
theorem idle_loop_equals_jump (ps : List Process) (hv : ValidInput ps)
    (time_quantum : Int) (hq : 0 < time_quantum) :
    ((∃ r : Scheduler, ∀ fuel, ps.length + (maxArrival ps).toNat ≤ fuel →
        (Scheduler.new ps).sjf fuel = some r ∧ (Scheduler.new ps).sjfJump fuel = some r) ∧
      ∀ s : LoopState, s.running = true → sjfPick s = none →
        (∀ p ∈ s.remaining_processes,
          nextArrival s.remaining_processes s.current_time ≤ p.arrival_time) ∧
        (∃ p ∈ s.remaining_processes,
          p.arrival_time = nextArrival s.remaining_processes s.current_time) ∧
        ∃ k : Nat, 1 ≤ k ∧
          sjfBody^[k] s =
            { s with current_time := nextArrival s.remaining_processes s.current_time } ∧
          (∀ m, m < k → sjfPick (sjfBody^[m] s) = none) ∧
          sjfPick (sjfBody^[k] s) ≠ none) ∧
    ((∃ r : Scheduler, ∀ fuel, sumRemaining ps + (maxArrival ps).toNat ≤ fuel →
        (Scheduler.new ps).srtf fuel = some r ∧
        (Scheduler.new ps).srtfJump fuel = some r) ∧
      ∀ s : LoopState, s.running = true → srtfPick s = none →
        (∀ p ∈ s.remaining_processes,
          nextArrival s.remaining_processes s.current_time ≤ p.arrival_time) ∧
        (∃ p ∈ s.remaining_processes,
          p.arrival_time = nextArrival s.remaining_processes s.current_time) ∧
        ∃ k : Nat, 1 ≤ k ∧
          srtfBody^[k] s =
            { s with current_time := nextArrival s.remaining_processes s.current_time } ∧
          (∀ m, m < k → srtfPick (srtfBody^[m] s) = none) ∧
          srtfPick (srtfBody^[k] s) ≠ none) ∧
    ((∃ r : Scheduler, ∀ fuel, rrFuel ps ≤ fuel →
        (Scheduler.new ps).round_robin time_quantum fuel = some r ∧
        (Scheduler.new ps).round_robinJump time_quantum fuel = some r) ∧
      ∀ (n : Nat) (s : RRState), s = (rrBody time_quantum)^[n] (rrInit ps) →
        s.running = true → (pushArrived s).queue.isEmpty = true →
        (∀ p ∈ s.buf.take s.size,
          nextArrival (s.buf.take s.size) s.current_time ≤ p.arrival_time) ∧
        (∃ p ∈ s.buf.take s.size,
          p.arrival_time = nextArrival (s.buf.take s.size) s.current_time) ∧
        ∃ k : Nat, 1 ≤ k ∧
          (rrBody time_quantum)^[k] s =
            { s with current_time := nextArrival (s.buf.take s.size) s.current_time } ∧
          (∀ m, m < k →
            (pushArrived ((rrBody time_quantum)^[m] s)).queue.isEmpty = true) ∧
          (pushArrived ((rrBody time_quantum)^[k] s)).queue.isEmpty = false) := by
  refine ⟨⟨?_, ?_⟩, ⟨?_, ?_⟩, ⟨?_, ?_⟩⟩
  · obtain ⟨r, h1, -, -⟩ := sjf_run ps hv
    exact ⟨⟨ps, r.completed_processes, r.current_time⟩, fun fuel hf =>
      ⟨sjf_eq fuel ps r (h1 fuel hf),
        sjfJump_eq fuel ps r (sjf_jump_refines fuel _ r (h1 fuel hf))⟩⟩
  · intro s hrun hnone
    have hne : s.remaining_processes ≠ [] := by
      intro h
      simp [LoopState.running, h] at hrun
    obtain ⟨h1, h2⟩ := nextArrival_spec s.remaining_processes s.current_time hne
    obtain ⟨k, hk, -, h3, h4, h5⟩ := idle_jump sjfBody sjfPick sjfPick_eq_none
      (fun s hs => (sjfBody_idle s hs).1) s hrun hnone
    exact ⟨h1, h2, k, hk, h3, fun m hm => (h4 m hm).1, h5⟩
  · obtain ⟨r, h1, -, -⟩ := srtf_run ps hv
    exact ⟨⟨ps, r.completed_processes, r.current_time⟩, fun fuel hf =>
      ⟨srtf_eq fuel ps r (h1 fuel hf),
        srtfJump_eq fuel ps r (srtf_jump_refines fuel _ r (h1 fuel hf))⟩⟩
  · intro s hrun hnone
    have hne : s.remaining_processes ≠ [] := by
      intro h
      simp [LoopState.running, h] at hrun
    obtain ⟨h1, h2⟩ := nextArrival_spec s.remaining_processes s.current_time hne
    obtain ⟨k, hk, -, h3, h4, h5⟩ := idle_jump srtfBody srtfPick srtfPick_eq_none
      (fun s hs => (srtfBody_idle s hs).1) s hrun hnone
    exact ⟨h1, h2, k, hk, h3, fun m hm => (h4 m hm).1, h5⟩
  · obtain ⟨r, h1, -, -⟩ := rr_run ps hv time_quantum hq
    exact ⟨⟨ps, r.completed_processes, r.current_time⟩, fun fuel hf =>
      ⟨rr_eq time_quantum fuel ps r (h1 fuel hf),
        rrJump_eq time_quantum fuel ps r
          (rr_jump_refines time_quantum fuel _ r (le_refl _) (h1 fuel hf))⟩⟩
  · intro n s hs hrun hidle
    have hwf : s.size ≤ s.buf.length := by
      rw [hs]; exact rrWf_iterate time_quantum (rrInit ps) (le_refl _) n
    obtain ⟨k, hk, -, h3, h3', h4, h5⟩ := rr_idle_jump time_quantum s hwf hrun hidle
    have hne : s.buf.take s.size ≠ [] := by
      intro h
      obtain ⟨-, -, -, ⟨adm, hadm, hadm2, -⟩, -⟩ := pushArrived_spec s hwf
      have hq1 : (pushArrived s).queue = [] := by simpa using hidle
      rw [hq1] at hadm
      have hq0 : s.queue = [] := (List.append_eq_nil.1 hadm.symm).1
      have := congrArg List.length h
      simp only [List.length_take, List.length_nil] at this
      simp only [RRState.running, hq0, List.isEmpty_nil, Bool.not_true, Bool.or_false,
        Bool.not_eq_true', beq_eq_false_iff_ne, ne_eq] at hrun
      omega
    obtain ⟨g1, g2⟩ := nextArrival_spec (s.buf.take s.size) s.current_time hne
    exact ⟨g1, g2, k, hk, h3.trans h3', fun m hm => (h4 m hm).2, h5⟩

/-- C19 on `idleInput` with quantum 2. -/
theorem idle_loop_equals_jump_witness :
    ValidInput idleInput ∧ (0 : Int) < 2 ∧
    (∃ r : Scheduler, ∀ fuel, rrFuel idleInput ≤ fuel →
      (Scheduler.new idleInput).round_robin 2 fuel = some r ∧
      (Scheduler.new idleInput).round_robinJump 2 fuel = some r) ∧
    (Scheduler.new idleInput).sjfJump 4 = (Scheduler.new idleInput).sjf 11 ∧
    (Scheduler.new idleInput).srtfJump 6 = (Scheduler.new idleInput).srtf 13 :=
  ⟨by decide, by decide, (idle_loop_equals_jump idleInput (by decide) 2 (by decide)).2.2.1,
    by decide, by decide⟩

/-! ## srtf and sjf when all processes arrive together -/

theorem deref_append_left (A B : List Process) (j : Nat) (hj : j < A.length) :
    deref (A ++ B) j = deref A j := by
  simp [deref, List.getElem?_append_left hj]

/-- An available element that beats every available element before it strictly and every
available element after it weakly is the one `min_element` picks. -/
theorem pick_unique (f : Process → Int) (A B : List Process) (x : Process) (t : Int)
    (hx : x.arrival_time ≤ t)
    (hA : ∀ y ∈ A, y.arrival_time ≤ t → f x < f y)
    (hB : ∀ y ∈ B, y.arrival_time ≤ t → f x ≤ f y) :
    minElement (fun a b => decide (f (deref (A ++ x :: B) a) < f (deref (A ++ x :: B) b)))
      (availableProcesses (A ++ x :: B) t) = some A.length := by
  have hxd : deref (A ++ x :: B) A.length = x := by
    have := deref_append_right A (x :: B) 0
    simp only [Nat.add_zero] at this
    rw [this]; simp [deref]
  cases hp : minElement
      (fun a b => decide (f (deref (A ++ x :: B) a) < f (deref (A ++ x :: B) b)))
      (availableProcesses (A ++ x :: B) t) with
  | none =>
    have := (pick_eq_none f (A ++ x :: B) t).1 hp x (by simp)
    omega
  | some k =>
    obtain ⟨h1, h2, h3, h4⟩ := pick_spec f (A ++ x :: B) t k hp
    have hlen : A.length < (A ++ x :: B).length := by simp
    rcases Nat.lt_trichotomy k A.length with hlt | heq | hgt
    · have hmem : deref (A ++ x :: B) k ∈ A := by
        rw [deref_append_left A (x :: B) k hlt]
        exact deref_mem A k hlt
      have e1 := hA _ hmem h2
      have e2 := h3 A.length hlen (by rw [hxd]; exact hx)
      rw [hxd] at e2
      omega
    · rw [heq]
    · have hmem : deref (A ++ x :: B) k ∈ B := by
        obtain ⟨j, rfl⟩ : ∃ j, k = A.length + (j + 1) := ⟨k - A.length - 1, by omega⟩
        rw [deref_append_right]
        have hj : j < B.length := by
          simp only [List.length_append, List.length_cons] at h1
          omega
        have : deref (x :: B) (j + 1) = deref B j := by simp [deref]
        rw [this]
        exact deref_mem B j hj
      have e1 := hB _ hmem h2
      have e2 := h4 A.length hgt (by rw [hxd]; exact hx)
      rw [hxd] at e2
      omega

/-- One tick of `srtf` when the process `x` is the one to run. -/
theorem srtf_tick_selected (A B comp : List Process) (x : Process) (t : Int)
    (hnd : ((A ++ x :: B).map Process.pid).Nodup)
    (hx : x.arrival_time ≤ t)
    (hA : ∀ y ∈ A, x.remaining_time < y.remaining_time)
    (hB : ∀ y ∈ B, x.remaining_time ≤ y.remaining_time) :
    srtfBody ⟨A ++ x :: B, comp, t⟩ =
      if x.remaining_time - 1 = 0 then
        ⟨A ++ B, comp ++ [finishRecord (srtfTick x t) (t + 1)], t + 1⟩
      else ⟨A ++ srtfTick x t :: B, comp, t + 1⟩ := by
  have hp : srtfPick ⟨A ++ x :: B, comp, t⟩ = some A.length :=
    pick_unique Process.remaining_time A B x t hx (fun y hy _ => hA y hy)
      (fun y hy _ => hB y hy)
  obtain ⟨A', x', B', e, hlen, -, -, -, -, hbody⟩ :=
    srtfBody_dispatch ⟨A ++ x :: B, comp, t⟩ A.length hp hnd
  simp only at e hbody
  obtain ⟨e1, e2⟩ := List.append_inj e hlen.symm
  obtain ⟨e3, e4⟩ := List.cons.inj e2
  subst e1 e3 e4
  exact hbody

theorem srtfTick_fresh (pid a b t : Int) :
    srtfTick ⟨pid, a, b, b, 0, 0, 0, -1⟩ t = ⟨pid, a, b, b - 1, 0, 0, 0, t - a⟩ := by
  simp [srtfTick]

theorem srtfTick_started (pid a b r resp t : Int) (h : 0 ≤ resp) :
    srtfTick ⟨pid, a, b, r, 0, 0, 0, resp⟩ t = ⟨pid, a, b, r - 1, 0, 0, 0, resp⟩ := by
  have : resp ≠ -1 := by omega
  simp [srtfTick, this]

/-- When the process in front of `B` is the one to run and no process with a smaller
`remaining_time` can turn up, `srtf` runs it tick by tick to its end: after `j` ticks it
has `j` units less, and after as many ticks as its burst it is completed. -/
theorem srtf_run_selected (A B comp : List Process) (pid a t : Int) (n : Nat)
    (hat : a ≤ t)
    (hnd : ((A ++ (⟨pid, a, n + 1, n + 1, 0, 0, 0, -1⟩ : Process) :: B).map
      Process.pid).Nodup)
    (hA : ∀ y ∈ A, (n : Int) + 1 < y.remaining_time)
    (hB : ∀ y ∈ B, (n : Int) + 1 ≤ y.remaining_time) :
    (∀ j : Nat, 1 ≤ j → j ≤ n →
      srtfBody^[j] ⟨A ++ ⟨pid, a, n + 1, n + 1, 0, 0, 0, -1⟩ :: B, comp, t⟩ =
        ⟨A ++ ⟨pid, a, n + 1, n + 1 - j, 0, 0, 0, t - a⟩ :: B, comp, t + j⟩) ∧
    srtfBody^[n + 1] ⟨A ++ ⟨pid, a, n + 1, n + 1, 0, 0, 0, -1⟩ :: B, comp, t⟩ =
      ⟨A ++ B, comp ++ [⟨pid, a, n + 1, 0, t + (n + 1), t + (n + 1) - a - (n + 1),
        t + (n + 1) - a, t - a⟩], t + (n + 1)⟩ := by
  have hfirst := srtf_tick_selected A B comp ⟨pid, a, n + 1, n + 1, 0, 0, 0, -1⟩ t hnd hat
    hA hB
  rw [srtfTick_fresh, finishRecord_mk] at hfirst
  have hnext : ∀ j : Nat, 1 ≤ j → j ≤ n →
      srtfBody ⟨A ++ ⟨pid, a, n + 1, n + 1 - j, 0, 0, 0, t - a⟩ :: B, comp, t + j⟩ =
        if (n : Int) + 1 - j - 1 = 0 then
          ⟨A ++ B, comp ++ [⟨pid, a, n + 1, n + 1 - j - 1, t + j + 1,
            t + j + 1 - a - (n + 1), t + j + 1 - a, t - a⟩], t + j + 1⟩
        else ⟨A ++ ⟨pid, a, n + 1, n + 1 - j - 1, 0, 0, 0, t - a⟩ :: B, comp, t + j + 1⟩ := by
    intro j hj1 hjn
    have h := srtf_tick_selected A B comp ⟨pid, a, n + 1, n + 1 - j, 0, 0, 0, t - a⟩
      (t + j) (by simpa using hnd) (by simp only; omega)
      (fun y hy => by have := hA y hy; simp only; omega)
      (fun y hy => by have := hB y hy; simp only; omega)
    rw [srtfTick_started _ _ _ _ _ _ (by omega), finishRecord_mk] at h
    exact h
  have hpart : ∀ j : Nat, 1 ≤ j → j ≤ n →
      srtfBody^[j] ⟨A ++ ⟨pid, a, n + 1, n + 1, 0, 0, 0, -1⟩ :: B, comp, t⟩ =
        ⟨A ++ ⟨pid, a, n + 1, n + 1 - j, 0, 0, 0, t - a⟩ :: B, comp, t + j⟩ := by
    intro j
    induction j with
    | zero => intro h; omega
    | succ j ih =>
      intro _ hjn
      rw [Function.iterate_succ_apply']
      rcases Nat.eq_zero_or_pos j with rfl | hjpos
      · simp only [Function.iterate_zero, id_eq]
        rw [hfirst]
        have hne : ¬ ((n : Int) + 1 - 1 = 0) := by omega
        simp only [hne, if_false]
        simp
      · rw [ih hjpos (by omega), hnext j hjpos (by omega)]
        have hne : ¬ ((n : Int) + 1 - j - 1 = 0) := by omega
        simp only [hne, if_false, LoopState.mk.injEq, and_true, true_and]
        refine ⟨?_, by push_cast; omega⟩
        simp only [List.append_cancel_left_eq, List.cons.injEq, Process.mk.injEq, and_true,
          true_and]
        push_cast
        omega
  refine ⟨hpart, ?_⟩
  rw [Function.iterate_succ_apply']
  rcases Nat.eq_zero_or_pos n with rfl | hnpos
  · simp only [Function.iterate_zero, id_eq]
    rw [hfirst]
    simp
  · rw [hpart n hnpos (le_refl _), hnext n hnpos (le_refl _)]
    have he : (n : Int) + 1 - n - 1 = 0 := by omega
    simp only [he, if_true, LoopState.mk.injEq, true_and]
    refine ⟨?_, by omega⟩
    simp only [List.append_cancel_left_eq, List.cons.injEq, Process.mk.injEq, and_true,
      true_and]
    omega

theorem sameArrival_step (a : Int) (s t : LoopState) (hR : SameArrivalRel a s t)
    (hrun : s.running = true) :
    ∃ k, 1 ≤ k ∧ SameArrivalRel a (sjfBody s) (srtfBody^[k] t) ∧
      ∀ m, m < k → (srtfBody^[m] t).running = true := by
  obtain ⟨rem, cs, T⟩ := s
  obtain ⟨rem', cs', T'⟩ := t
  obtain ⟨h1, h2, h3, h4, h5⟩ := hR
  simp only at h1 h2 h3 h4 h5
  subst h1 h2 h3
  cases hp : sjfPick ⟨rem, cs, T⟩ with
  | none =>
    have hp' : srtfPick ⟨rem, cs.map (fun c => { c with remaining_time := 0 }), T⟩ = none :=
      (srtfPick_eq_none _).2 ((sjfPick_eq_none _).1 hp)
    refine ⟨1, le_refl _, ?_, fun m hm => ?_⟩
    · rw [(sjfBody_idle _ hp).1, Function.iterate_one, (srtfBody_idle _ hp').1]
      exact ⟨rfl, rfl, rfl, h4, h5⟩
    · obtain rfl : m = 0 := by omega
      exact hrun
  | some j =>
    obtain ⟨A, x, B, e, -, -, hxa, hA, hB, hbody⟩ := sjfBody_dispatch ⟨rem, cs, T⟩ j hp h5
    simp only at e hxa hA hB hbody
    subst e
    obtain ⟨hfresh, hbpos, harr⟩ := h4 x (by simp)
    obtain ⟨pid, a', b, r, c, w, u, resp⟩ := x
    simp only [Process.new, Process.mk.injEq, true_and] at hfresh
    obtain ⟨rfl, rfl, rfl, rfl, rfl⟩ := hfresh
    simp only at hbpos harr hxa hA hB
    subst harr
    obtain ⟨n, rfl⟩ : ∃ n : Nat, r = (n : Int) + 1 := ⟨(r - 1).toNat, by omega⟩
    have hA' : ∀ y ∈ A, (n : Int) + 1 < y.remaining_time := by
      intro y hy
      obtain ⟨g1, -, g3⟩ := h4 y (by simp [hy])
      have := hA y hy (by omega)
      rw [g1]
      simpa [Process.new] using this
    have hB' : ∀ y ∈ B, (n : Int) + 1 ≤ y.remaining_time := by
      intro y hy
      obtain ⟨g1, -, g3⟩ := h4 y (by simp [hy])
      have := hB y hy (by omega)
      rw [g1]
      simpa [Process.new] using this
    obtain ⟨hpart, hfin⟩ := srtf_run_selected A B
      (cs.map (fun c => { c with remaining_time := 0 })) pid a' T n hxa h5 hA' hB'
    refine ⟨n + 1, by omega, ?_, fun m hm => ?_⟩
    · rw [hbody, hfin]
      refine ⟨rfl, rfl, ?_, fun p hp => h4 p ?_, ?_⟩
      · simp [sjfRecord]
      · simp only [List.mem_append, List.mem_cons] at hp ⊢
        tauto
      · have hsub : (A ++ B).Sublist (A ++ ⟨pid, a', n + 1, n + 1, 0, 0, 0, -1⟩ :: B) :=
          List.Sublist.append_left (List.sublist_cons_self _ B) A
        exact (hsub.map Process.pid).nodup h5
    · rcases Nat.eq_zero_or_pos m with rfl | hm0
      · exact hrun
      · rw [hpart m hm0 (by omega)]
        simp [LoopState.running]

/-- C20: for every valid input whose processes all have the same `arrival_time`, `sjf`
and `srtf` both end, with the same final clock and with completed sequences that list
the same pids in the same order with the same `completion_time`, `turnaround_time`,
`waiting_time` and `response_time`; the records differ in `remaining_time` only, which
is `burst_time` under `sjf` and 0 under `srtf`. -/
theorem srtf_equals_sjf_same_arrival (ps : List Process) (hv : ValidInput ps) (a : Int)
    (ha : ∀ p ∈ ps, p.arrival_time = a) :
    ∃ r₁ r₂ : Scheduler,
      (∀ fuel, ps.length + (maxArrival ps).toNat ≤ fuel →
        (Scheduler.new ps).sjf fuel = some r₁) ∧
      (∀ fuel, sumRemaining ps + (maxArrival ps).toNat ≤ fuel →
        (Scheduler.new ps).srtf fuel = some r₂) ∧
      r₂.completed_processes.map scheduleKey = r₁.completed_processes.map scheduleKey ∧
      r₂.completed_processes =
        r₁.completed_processes.map (fun c => { c with remaining_time := 0 }) ∧
      r₂.current_time = r₁.current_time ∧
      (∀ c ∈ r₁.completed_processes, c.remaining_time = c.burst_time) ∧
      (∀ c ∈ r₂.completed_processes, c.remaining_time = 0) := by
  obtain ⟨s₁, h1, hI1, -⟩ := sjf_run ps hv
  obtain ⟨s₂, h2, hI2, -⟩ := srtf_run ps hv
  have hR0 : SameArrivalRel a (loopInit ps) (loopInit ps) :=
    ⟨rfl, rfl, rfl, fun p hp => ⟨(hv.2.1 p hp).1, (hv.2.1 p hp).2.2, ha p hp⟩, hv.2.2⟩
  obtain ⟨s₁', h3, hR⟩ := whileLoop_coarsen LoopState.running sjfBody LoopState.running
    srtfBody (SameArrivalRel a)
    (fun s t hst => by simp only [LoopState.running, hst.2.1])
    (sameArrival_step a) (sumRemaining ps + (maxArrival ps).toNat) (loopInit ps)
    (loopInit ps) s₂ hR0 (h2 _ (le_refl _))
  have hs : s₁' = s₁ := by
    have e1 := whileLoop_mono _ _ _ _ _ h3 (ps.length + (maxArrival ps).toNat)
    have e2 := h1 (sumRemaining ps + (maxArrival ps).toNat +
      (ps.length + (maxArrival ps).toNat)) (by omega)
    rw [e1] at e2
    exact Option.some.inj e2
  subst hs
  obtain ⟨g1, -, g3, -, -⟩ := hR
  refine ⟨⟨ps, s₁'.completed_processes, s₁'.current_time⟩,
    ⟨ps, s₂.completed_processes, s₂.current_time⟩,
    fun fuel hf => sjf_eq fuel ps _ (h1 fuel hf),
    fun fuel hf => srtf_eq fuel ps _ (h2 fuel hf), ?_, g3, g1.symm, ?_, ?_⟩
  · simp only [g3, List.map_map]
    rfl
  · intro c hc
    obtain ⟨p, hp, d, rfl, -, -⟩ := hI1.done c hc
    have := (hv.2.1 p hp).1
    rw [this]
    rfl
  · intro c hc
    obtain ⟨p, -, -, -, -, h0, -⟩ := hI2.done c hc
    exact h0

/-- C20 on `sameArrivalInput`. -/
theorem srtf_equals_sjf_same_arrival_witness :
    ValidInput sameArrivalInput ∧ (∀ p ∈ sameArrivalInput, p.arrival_time = 2) ∧
    ∃ r₁ r₂ : Scheduler,
      (∀ fuel, sameArrivalInput.length + (maxArrival sameArrivalInput).toNat ≤ fuel →
        (Scheduler.new sameArrivalInput).sjf fuel = some r₁) ∧
      (∀ fuel, sumRemaining sameArrivalInput + (maxArrival sameArrivalInput).toNat ≤ fuel →
        (Scheduler.new sameArrivalInput).srtf fuel = some r₂) ∧
      r₂.completed_processes.map scheduleKey = r₁.completed_processes.map scheduleKey ∧
      r₂.completed_processes =
        r₁.completed_processes.map (fun c => { c with remaining_time := 0 }) ∧
      r₂.current_time = r₁.current_time ∧
      (∀ c ∈ r₁.completed_processes, c.remaining_time = c.burst_time) ∧
      (∀ c ∈ r₂.completed_processes, c.remaining_time = 0) :=
  ⟨by decide, by decide,
    srtf_equals_sjf_same_arrival sameArrivalInput (by decide) 2 (by decide)⟩

/-! ## What holds for fcfs, sjf and srtf -/

theorem fcfsClock_bounds (l : List Process) (M : Int)
    (hb : ∀ p ∈ l, 0 ≤ p.burst_time) (hM : ∀ p ∈ l, p.arrival_time ≤ M) :
    ∀ t, t + sumBurst l ≤ fcfsClock t l ∧ fcfsClock t l ≤ max t M + sumBurst l := by
  induction l with
  | nil => intro t; simp [fcfsClock, sumBurst]
  | cons p rest ih =>
    intro t
    have h1 := ih (fun q hq => hb q (by simp [hq])) (fun q hq => hM q (by simp [hq]))
      (max t p.arrival_time + p.burst_time)
    have h2 := hb p (by simp)
    have h3 := hM p (by simp)
    simp only [fcfsClock, fcfsBody_eq, sumBurst_cons]
    have e1 := le_max_left t p.arrival_time
    have e2 : max t p.arrival_time ≤ max t M := max_le_max (le_refl _) h3
    have e3 : max (max t p.arrival_time + p.burst_time) M ≤ max t M + p.burst_time := by
      apply max_le
      · omega
      · have := le_max_right t M
        omega
    omega

/-- Clock bounds of the three policies that keep no pointer across an erase: on a valid
input the final clock is at least the sum of the burst times and at most that sum plus
the largest arrival time. -/
theorem clock_bounds_fcfs_sjf_srtf (sort : List Process → List Process)
    (hsort : StdSortSpec sort) (ps : List Process) (hv : ValidInput ps) :
    (sumBurst ps ≤ ((Scheduler.new ps).fcfs sort).current_time ∧
      ((Scheduler.new ps).fcfs sort).current_time ≤ sumBurst ps + maxArrival ps) ∧
    (∃ r : Scheduler,
      (∀ fuel, ps.length + (maxArrival ps).toNat ≤ fuel →
        (Scheduler.new ps).sjf fuel = some r) ∧
      sumBurst r.completed_processes = sumBurst ps ∧
      sumBurst ps ≤ r.current_time ∧ r.current_time ≤ sumBurst ps + maxArrival ps) ∧
    (∃ r : Scheduler,
      (∀ fuel, sumRemaining ps + (maxArrival ps).toNat ≤ fuel →
        (Scheduler.new ps).srtf fuel = some r) ∧
      sumBurst r.completed_processes = sumBurst ps ∧
      sumBurst ps ≤ r.current_time ∧ r.current_time ≤ sumBurst ps + maxArrival ps) := by
  refine ⟨?_, ?_, ?_⟩
  · rw [fcfs_eq]
    have hperm := (hsort ps).1
    have hsum : sumBurst (sort ps) = sumBurst ps := (hperm.map _).sum_eq
    have h := fcfsClock_bounds (sort ps) (maxArrival ps)
      (fun p hp => le_of_lt (hv.2.1 p (hperm.subset hp)).2.2)
      (fun p hp => le_maxArrival ps p (hperm.subset hp)) 0
    rw [hsum, max_eq_right (maxArrival_nonneg ps)] at h
    simp only
    omega
  · obtain ⟨r, h1, -, h3, h4⟩ := sjf_run_clock ps hv
    obtain ⟨w, cl, cg⟩ := h3
    rw [h4, sumBurst_nil] at w
    exact ⟨⟨ps, r.completed_processes, r.current_time⟩,
      fun fuel hf => sjf_eq fuel ps r (h1 fuel hf), by simp only; omega,
      by simp only; omega, by simp only; omega⟩
  · obtain ⟨r, h1, -, h3, h4⟩ := srtf_run_clock ps hv
    obtain ⟨w, cl, cg, -, -⟩ := h3
    rw [h4, sumBurst_nil] at w
    rw [h4, progress_nil] at cl cg
    exact ⟨⟨ps, r.completed_processes, r.current_time⟩,
      fun fuel hf => srtf_eq fuel ps r (h1 fuel hf), by simp only; omega,
      by simp only; omega, by simp only; omega⟩

/-- Record bounds of the three policies that keep no pointer across an erase: on a valid
input every completed record has `completion_time >= arrival_time + burst_time`, and
`0 <= response_time <= waiting_time`. -/
theorem record_bounds_fcfs_sjf_srtf (sort : List Process → List Process)
    (ps : List Process) (hv : ValidInput ps) :
    (∀ c ∈ ((Scheduler.new ps).fcfs sort).completed_processes,
      c.arrival_time + c.burst_time ≤ c.completion_time ∧
      0 ≤ c.response_time ∧ c.response_time ≤ c.waiting_time) ∧
    (∃ r : Scheduler,
      (∀ fuel, ps.length + (maxArrival ps).toNat ≤ fuel →
        (Scheduler.new ps).sjf fuel = some r) ∧
      ∀ c ∈ r.completed_processes,
        c.arrival_time + c.burst_time ≤ c.completion_time ∧
        0 ≤ c.response_time ∧ c.response_time ≤ c.waiting_time) ∧
    (∃ r : Scheduler,
      (∀ fuel, sumRemaining ps + (maxArrival ps).toNat ≤ fuel →
        (Scheduler.new ps).srtf fuel = some r) ∧
      ∀ c ∈ r.completed_processes,
        c.arrival_time + c.burst_time ≤ c.completion_time ∧
        0 ≤ c.response_time ∧ c.response_time ≤ c.waiting_time) := by
  refine ⟨?_, ?_, ?_⟩
  · intro c hc
    rw [fcfs_eq] at hc
    obtain ⟨p, -, d, rfl, hd⟩ := fcfsRecords_mem _ _ c hc
    simp only [sjfRecord]
    refine ⟨?_, ?_, ?_⟩ <;> omega
  · obtain ⟨r, h1, h2, -⟩ := sjf_run ps hv
    refine ⟨⟨ps, r.completed_processes, r.current_time⟩,
      fun fuel hf => sjf_eq fuel ps r (h1 fuel hf), fun c hc => ?_⟩
    obtain ⟨p, -, d, rfl, hd, -⟩ := h2.done c hc
    simp only [sjfRecord]
    refine ⟨?_, ?_, ?_⟩ <;> omega
  · obtain ⟨r, h1, h2, h3, -⟩ := srtf_run_clock ps hv
    refine ⟨⟨ps, r.completed_processes, r.current_time⟩,
      fun fuel hf => srtf_eq fuel ps r (h1 fuel hf), fun c hc => ?_⟩
    obtain ⟨p, -, -, -, -, -, a5, a6⟩ := h2.done c hc
    obtain ⟨b1, b2, -⟩ := h3.resp_done c hc
    refine ⟨?_, b1, ?_⟩ <;> omega

/-! ## round_robin: the requeue and the second arrival loop -/

theorem take_vectorErase (buf : List Process) (size i : Nat) (hi : i < size)
    (hs : size ≤ buf.length) :
    (vectorErase buf size i).take (size - 1) = buf.take i ++ (buf.take size).drop (i + 1) := by
  have h1 : (buf.take i ++ (buf.drop (i + 1)).take (size - (i + 1))).length = size - 1 := by
    simp only [List.length_append, List.length_take, List.length_drop]
    omega
  unfold vectorErase
  rw [List.take_append_of_le_length (by omega), List.take_of_length_le (by omega),
    List.drop_take]

theorem drop_take_cons (buf : List Process) (size i : Nat) (hi : i < size)
    (hs : size ≤ buf.length) :
    (buf.take size).drop i = deref buf i :: (buf.take size).drop (i + 1) := by
  have h1 : i < (buf.take size).length := by simp only [List.length_take]; omega
  rw [List.drop_eq_getElem_cons h1, deref_eq_getElem buf i (by omega)]
  simp

theorem arrivedPointers_length (t : Int) (l : List Process) :
    ∀ it, (arrivedPointers t it l).length =
      (l.filter (fun p => decide (p.arrival_time ≤ t))).length := by
  induction l with
  | nil => intro it; rfl
  | cons p l ih =>
    intro it
    by_cases ha : p.arrival_time ≤ t
    · simp [arrivedPointers, ha, ih it]
    · simp [arrivedPointers, ha, ih (it + 1)]

theorem pushArrivedLoop_pointers (t : Int) :
    ∀ (fuel it : Nat) (buf : List Process) (size : Nat) (queue : List Nat),
      it ≤ size → size ≤ buf.length → size - it ≤ fuel →
      (pushArrivedLoop t fuel it (buf, size, queue)).2.2 =
        queue ++ arrivedPointers t it ((buf.take size).drop it) ∧
      (pushArrivedLoop t fuel it (buf, size, queue)).1.take
          (pushArrivedLoop t fuel it (buf, size, queue)).2.1 =
        buf.take it ++
          ((buf.take size).drop it).filter (fun p => decide (t < p.arrival_time)) := by
  intro fuel
  induction fuel with
  | zero =>
    intro it buf size queue h1 h2 h3
    have e : it = size := by omega
    subst e
    have hd : (buf.take it).drop it = [] := List.drop_of_length_le (by simp)
    simp [pushArrivedLoop, hd, arrivedPointers]
  | succ n ih =>
    intro it buf size queue h1 h2 h3
    by_cases hit : it < size
    · rw [drop_take_cons buf size it hit h2]
      by_cases ha : (deref buf it).arrival_time ≤ t
      · simp only [pushArrivedLoop, hit, ha, if_true]
        have hlen := length_vectorErase buf size it hit h2
        obtain ⟨g1, g2⟩ := ih it (vectorErase buf size it) (size - 1) (queue ++ [it])
          (by omega) (by rw [hlen]; omega) (by omega)
        have hE := take_vectorErase buf size it hit h2
        have hE1 : ((vectorErase buf size it).take (size - 1)).drop it =
            (buf.take size).drop (it + 1) := by
          rw [hE, List.drop_left' (by simp; omega)]
        have hE2 : (vectorErase buf size it).take it = buf.take it := by
          have : ((vectorErase buf size it).take (size - 1)).take it = buf.take it := by
            rw [hE, List.take_left' (by simp; omega)]
          rwa [List.take_take, min_eq_left (by omega)] at this
        rw [hE1] at g1 g2
        rw [hE2] at g2
        refine ⟨by rw [g1]; simp [arrivedPointers, ha], ?_⟩
        rw [g2, List.filter_cons_of_neg (by simpa using ha)]
      · simp only [pushArrivedLoop, hit, ha, if_true, if_false]
        obtain ⟨g1, g2⟩ := ih (it + 1) buf size queue (by omega) h2 (by omega)
        refine ⟨by rw [g1]; simp [arrivedPointers, ha], ?_⟩
        rw [g2, List.filter_cons_of_pos (by simpa using ha),
          List.take_succ, deref]
        have : buf[it]? = some (buf.getD it (Process.new 0 0 0)) := by
          rw [List.getD_eq_getElem?_getD, List.getElem?_eq_getElem (by omega)]
          rfl
        rw [this]
        simp
    · have e : it = size := by omega
      subst e
      have hd : (buf.take it).drop it = [] := List.drop_of_length_le (by simp)
      simp [pushArrivedLoop, hd, arrivedPointers]

/-- Form of `pushArrivedLoop_pointers` for a whole arrival loop: the queue gets one
pointer for each element that has arrived, and the vector keeps the other elements. -/
theorem pushArrived_pointers (s : RRState) (hs : s.size ≤ s.buf.length) :
    (pushArrived s).queue = s.queue ++ arrivedPointers s.current_time 0 (s.buf.take s.size) ∧
    (pushArrived s).buf.take (pushArrived s).size =
      (s.buf.take s.size).filter (fun p => decide (s.current_time < p.arrival_time)) := by
  obtain ⟨k1, k2⟩ := pushArrivedLoop_pointers s.current_time s.size 0 s.buf s.size s.queue
    (Nat.zero_le _) hs (by omega)
  rw [List.drop_zero] at k1 k2
  rw [List.take_zero, List.nil_append] at k2
  exact ⟨k1, k2⟩

/-- After the first arrival loop and the slice, every element still in the vector has an
`arrival_time` later than the clock at the start of the iteration. -/
theorem rrDispatch_live (q : Int) (s : RRState) (hs : s.size ≤ s.buf.length) :
    ∀ p ∈ (rrDispatch q (pushArrived s)).buf.take (rrDispatch q (pushArrived s)).size,
      s.current_time < p.arrival_time := by
  obtain ⟨h1, -, h3, -⟩ := pushArrived_spec s hs
  have hwf : (pushArrived s).size ≤ (pushArrived s).buf.length := by omega
  have hlive : ∀ p ∈ (pushArrived s).buf.take (pushArrived s).size,
      s.current_time < p.arrival_time := by
    intro p hp
    rw [(pushArrived_pointers s hs).2] at hp
    simpa using (List.mem_filter.1 hp).2
  have hcur : (pushArrived s).current_time = s.current_time := rfl
  cases hq : (pushArrived s).queue with
  | nil =>
    have : rrDispatch q (pushArrived s) = pushArrived s := by simp [rrDispatch, hq]
    rw [this]; exact hlive
  | cons h tl =>
    obtain ⟨g1, g2⟩ := rrDispatch_shape q (pushArrived s)
    rw [mem_take_iff_deref _ _ (by omega)]
    rw [mem_take_iff_deref _ _ hwf] at hlive
    intro i hi
    rw [g1] at hi
    have hbuf : ∃ r : Process, r.arrival_time = (deref (pushArrived s).buf h).arrival_time ∧
        (rrDispatch q (pushArrived s)).buf = (pushArrived s).buf.set h r := by
      rw [rrDispatch_eq q (pushArrived s) h tl hq]
      split
      · refine ⟨_, ?_, rfl⟩
        exact (rrSlice_fields q _ _).2.1
      · refine ⟨_, ?_, rfl⟩
        exact (rrSlice_fields q _ _).2.1
    obtain ⟨r, hr, hb⟩ := hbuf
    rw [hb]
    by_cases hih : i = h
    · subst hih
      rw [deref_set_self _ _ _ (by omega), hr]
      exact hlive i hi
    · rw [deref_set_ne _ _ _ _ hih]
      exact hlive i hi

/-- C6, as amended: in an iteration of `round_robin` that runs the slot `h` at the front of
the queue and leaves it unfinished, the pointer `h` is pushed back (line 187) before the
second arrival loop (lines 190-201) runs. The slice ends at the clock plus
`min(time_quantum, remaining_time)`. The queue after the iteration is the rest of the
queue, then `h`, then one pointer for each element of `remaining_processes` with
`arrival_time <=` the clock at the end of the slice, in vector order, each the address of
the slot the element was in when it was pushed. These elements arrived during the slice:
every element still in the vector has an `arrival_time` later than the clock at the start
of the iteration. Exactly these elements are erased from `remaining_processes`. -/
theorem rr_requeue_before_arrivals (time_quantum : Int) (s : RRState) (h : Nat)
    (tl : List Nat) (hwf : s.size ≤ s.buf.length)
    (hqueue : (pushArrived s).queue = h :: tl)
    (hnf : (deref (pushArrived s).buf h).remaining_time -
      min time_quantum (deref (pushArrived s).buf h).remaining_time ≠ 0) :
    rrBody time_quantum s = pushArrived (rrDispatch time_quantum (pushArrived s)) ∧
    (rrDispatch time_quantum (pushArrived s)).queue = tl ++ [h] ∧
    (rrDispatch time_quantum (pushArrived s)).current_time =
      s.current_time + min time_quantum (deref (pushArrived s).buf h).remaining_time ∧
    (rrBody time_quantum s).queue = tl ++ [h] ++
      arrivedPointers (rrDispatch time_quantum (pushArrived s)).current_time 0
        ((rrDispatch time_quantum (pushArrived s)).buf.take
          (rrDispatch time_quantum (pushArrived s)).size) ∧
    (arrivedPointers (rrDispatch time_quantum (pushArrived s)).current_time 0
        ((rrDispatch time_quantum (pushArrived s)).buf.take
          (rrDispatch time_quantum (pushArrived s)).size)).length =
      (((rrDispatch time_quantum (pushArrived s)).buf.take
          (rrDispatch time_quantum (pushArrived s)).size).filter
        (fun p => decide (p.arrival_time ≤
          (rrDispatch time_quantum (pushArrived s)).current_time))).length ∧
    (∀ p ∈ (rrDispatch time_quantum (pushArrived s)).buf.take
        (rrDispatch time_quantum (pushArrived s)).size, s.current_time < p.arrival_time) ∧
    (rrBody time_quantum s).buf.take (rrBody time_quantum s).size =
      ((rrDispatch time_quantum (pushArrived s)).buf.take
          (rrDispatch time_quantum (pushArrived s)).size).filter
        (fun p => decide ((rrDispatch time_quantum (pushArrived s)).current_time <
          p.arrival_time)) ∧
    (rrBody time_quantum s).current_time =
      (rrDispatch time_quantum (pushArrived s)).current_time := by
  have hbody : rrBody time_quantum s = pushArrived (rrDispatch time_quantum (pushArrived s)) := by
    simp [rrBody, hqueue]
  have hd : (rrDispatch time_quantum (pushArrived s)).queue = tl ++ [h] := by
    rw [rrDispatch_eq time_quantum (pushArrived s) h tl hqueue, if_neg hnf]
  have hclock : (rrDispatch time_quantum (pushArrived s)).current_time =
      s.current_time + min time_quantum (deref (pushArrived s).buf h).remaining_time := by
    rw [rrDispatch_eq time_quantum (pushArrived s) h tl hqueue, if_neg hnf]
    rfl
  obtain ⟨h1, -, h3, -⟩ := pushArrived_spec s hwf
  obtain ⟨g1, g2⟩ := rrDispatch_shape time_quantum (pushArrived s)
  obtain ⟨k1, k2⟩ := pushArrived_pointers (rrDispatch time_quantum (pushArrived s))
    (by omega)
  refine ⟨hbody, hd, hclock, ?_, arrivedPointers_length _ _ _,
    rrDispatch_live time_quantum s hwf, ?_, ?_⟩
  · rw [hbody, ← hd]; exact k1
  · rw [hbody]; exact k2
  · rw [hbody]; rfl

/-- C6, as amended, at the first iteration on `rrOrderInput` with quantum 2: slot 1 is
run from clock 0 to clock 2 and requeued, then the pointer 0 of the element that arrived
at clock 1 is pushed. -/
theorem rr_requeue_before_arrivals_witness :
    (rrInit rrOrderInput).size ≤ (rrInit rrOrderInput).buf.length ∧
    (pushArrived (rrInit rrOrderInput)).queue = 1 :: [] ∧
    (deref (pushArrived (rrInit rrOrderInput)).buf 1).remaining_time -
      min 2 (deref (pushArrived (rrInit rrOrderInput)).buf 1).remaining_time ≠ 0 ∧
    (rrDispatch 2 (pushArrived (rrInit rrOrderInput))).current_time = 2 ∧
    arrivedPointers (rrDispatch 2 (pushArrived (rrInit rrOrderInput))).current_time 0
        ((rrDispatch 2 (pushArrived (rrInit rrOrderInput))).buf.take
          (rrDispatch 2 (pushArrived (rrInit rrOrderInput))).size) = [0] ∧
    (rrBody 2 (rrInit rrOrderInput)).queue = [] ++ [1] ++
      arrivedPointers (rrDispatch 2 (pushArrived (rrInit rrOrderInput))).current_time 0
        ((rrDispatch 2 (pushArrived (rrInit rrOrderInput))).buf.take
          (rrDispatch 2 (pushArrived (rrInit rrOrderInput))).size) :=
  ⟨by decide, by decide, by decide, by decide, by decide,
    (rr_requeue_before_arrivals 2 (rrInit rrOrderInput) 1 [] (by decide) (by decide)
      (by decide)).2.2.2.1⟩

/-- C6 fails as stated: on the valid input `rrOrderInput` with quantum 2, the first
iteration runs slot 1 for a slice that leaves it unfinished; the second arrival loop
pushes the pointer 0 of the element that arrived during the slice, and the queue after
the iteration is `[1, 0]`: the requeued pointer is in front of the arrival, not behind
it, and it is the one dispatched next. -/
theorem rr_requeue_after_arrivals_counterexample :
    ValidInput rrOrderInput ∧ (0 : Int) < 2 ∧
    (pushArrived (rrInit rrOrderInput)).queue = [1] ∧
    (deref (rrDispatch 2 (pushArrived (rrInit rrOrderInput))).buf 1).remaining_time ≠ 0 ∧
    (rrDispatch 2 (pushArrived (rrInit rrOrderInput))).queue = [1] ∧
    (pushArrived (rrDispatch 2 (pushArrived (rrInit rrOrderInput)))).queue =
      (rrDispatch 2 (pushArrived (rrInit rrOrderInput))).queue ++ [0] ∧
    (rrBody 2 (rrInit rrOrderInput)).queue = [1, 0] ∧
    (rrBody 2 (rrInit rrOrderInput)).queue ≠ [0, 1] ∧
    (pushArrived (rrBody 2 (rrInit rrOrderInput))).queue.head? = some 1 := by
  decide

/-! ## Response time and waiting time under srtf -/

end CpuScheduler
